import Mathlib

/-!
# Verification of the `b-tree` repository (`src/btree/src/lib.rs`)

A shallow embedding of the in-memory, order-parameterized B-tree from
`src/btree/src/lib.rs`.  Keys and values are instantiated at `Nat`
(the Rust code is generic over `KEY: Ord + Clone`, `VALUE: Copy`); the
const generic order parameter `S` becomes an explicit `Nat` argument.
The `Rc<RefCell<_>>` interior mutability of the Rust code is translated
to pure state passing: every mutating method returns the updated node
alongside its Rust return value.  Places where the Rust code would
panic (out-of-bounds indexing, `unwrap` of `None`) are modelled by
total default values; each such spot is marked with a comment and is
unreachable on the well-formed trees the theorems speak about.
-/

set_option maxHeartbeats 1600000

namespace BT

/-- An entry of the tree: the Rust `KeyVal { key, value }` struct. -/
structure KeyVal where
  key : Nat
  value : Nat
deriving Repr, DecidableEq

/-- Default entry used to model Rust panics on out-of-bounds access. -/
def dKV : KeyVal := ⟨0, 0⟩

/-- A node of the tree: the Rust struct
`Node { is_leaf: bool, keys: Vec<KeyVal>, pivots: Vec<Rc<RefCell<Node>>> }`. -/
inductive Node : Type where
  | mk (is_leaf : Bool) (keys : List KeyVal) (pivots : List Node)
deriving Repr

/-- Projection for the `is_leaf` field. -/
def Node.is_leaf : Node → Bool
  | .mk b _ _ => b

/-- Projection for the `keys` field. -/
def Node.keys : Node → List KeyVal
  | .mk _ ks _ => ks

/-- Projection for the `pivots` field. -/
def Node.pivots : Node → List Node
  | .mk _ _ ps => ps

@[simp] theorem Node.is_leaf_mk (b ks ps) : (Node.mk b ks ps).is_leaf = b := rfl
@[simp] theorem Node.keys_mk (b ks ps) : (Node.mk b ks ps).keys = ks := rfl
@[simp] theorem Node.pivots_mk (b ks ps) : (Node.mk b ks ps).pivots = ps := rfl

/-- Default node used to model Rust panics on out-of-bounds access. -/
def nilNode : Node := .mk true [] []

theorem Node.sizeOf_lt_of_mem {c : Node} {b ks ps} (h : c ∈ ps) :
    sizeOf c < sizeOf (Node.mk b ks ps) := by
  have h1 := List.sizeOf_lt_of_mem h
  simp only [Node.mk.sizeOf_spec]
  omega

theorem Node.sizeOf_lt_of_getElem? {c : Node} {b ks ps} {i : Nat}
    (h : ps[i]? = some c) : sizeOf c < sizeOf (Node.mk b ks ps) :=
  Node.sizeOf_lt_of_mem (List.getElem?_mem h)

/-- The loop of Rust `slice::binary_search_by`, specialized to comparing
entry keys against a target key (`Node::find_index` calls
`self.keys.binary_search_by(|prove| prove.key.cmp(key))`).
`Except.ok i` models `Ok(i)` (exact match at `i`), `Except.error i`
models `Err(i)` (insertion index `i`). -/
def bsLoop (keys : List KeyVal) (key : Nat) (left right : Nat) : Except Nat Nat :=
  if _h : left < right then
    let mid := left + (right - left) / 2
    let km := (keys.getD mid dKV).key
    if km < key then bsLoop keys key (mid + 1) right
    else if key < km then bsLoop keys key left mid
    else .ok mid
  else .error left
termination_by right - left
decreasing_by
  · have : (right - left) / 2 < right - left := Nat.div_lt_self (by omega) (by omega)
    omega
  · have : (right - left) / 2 < right - left := Nat.div_lt_self (by omega) (by omega)
    omega

/-- `Node::find_index` on the key list: Rust
`self.keys.binary_search_by(|prove| prove.key.cmp(key))`. -/
def find_index (keys : List KeyVal) (key : Nat) : Except Nat Nat :=
  bsLoop keys key 0 keys.length

/-- `Node::size`: own entry count plus, for internal nodes, the sizes of
all children. -/
def Node.size : Node → Nat
  | .mk il keys pivots =>
    keys.length +
      (if il then 0 else (pivots.attach.map (fun c => Node.size c.1)).sum)
decreasing_by
  exact Node.sizeOf_lt_of_mem c.2

/-- `Node::level`: leaf depth counted from `level`, following child 0. -/
def Node.level : Node → Nat → Nat
  | .mk true _ _, lvl => lvl + 1
  | .mk false _ [], lvl => lvl + 1  -- Rust panics here (`pivots[0]` of empty)
  | .mk false _ (c :: _), lvl => Node.level c (lvl + 1)

/-- `Node::lookup`: binary-search the node, descend on a miss. -/
def Node.lookup : Node → Nat → Option Nat
  | .mk il keys pivots, key =>
    match find_index keys key with
    | .ok i => some (keys.getD i dKV).value
    | .error i =>
      if il then none
      else
        match h : pivots[i]? with
        | some c => Node.lookup c key
        | none => none  -- Rust panics here (index out of bounds)
decreasing_by
  exact Node.sizeOf_lt_of_getElem? h

/-- `Node::split`: if the entry count is exactly `2S + 1`, move entries
`[S, 2S]` to a fresh right sibling, promote the first of them as the
median, and for internal nodes move children `[S+1, 2S+1]` along. -/
def Node.split (S : Nat) : Node → Node × Option (KeyVal × Node)
  | .mk il keys pivots =>
    if keys.length = 2 * S + 1 then
      match keys.drop S with
      | [] => (.mk il keys pivots, none)  -- unreachable: `drop S` of `2S+1` keys is nonempty
      | kv :: rest =>
        if il then
          (.mk il (keys.take S) pivots, some (kv, .mk il rest []))
        else
          (.mk il (keys.take S) (pivots.take (S + 1)),
            some (kv, .mk il rest (pivots.drop (S + 1))))
    else
      (.mk il keys pivots, none)

/-- `Node::upsert`: returns the updated node, the split propagation for
the parent, and the previous value of the key if it was present. -/
def Node.upsert (S : Nat) (key value : Nat) :
    Node → Node × Option (KeyVal × Node) × Option Nat
  | .mk il keys pivots =>
    match find_index keys key with
    | .ok i =>
      (.mk il (keys.set i ⟨(keys.getD i dKV).key, value⟩) pivots,
        none, some (keys.getD i dKV).value)
    | .error i =>
      if il then
        let sp := Node.split S (.mk il (keys.insertIdx i ⟨key, value⟩) pivots)
        (sp.1, sp.2, none)
      else
        match h : pivots[i]? with
        | some c =>
          let r := Node.upsert S key value c
          match r.2.1 with
          | some (kv, node) =>
            let sp := Node.split S
              (.mk il (keys.insertIdx i kv) ((pivots.set i r.1).insertIdx (i + 1) node))
            (sp.1, sp.2, r.2.2)
          | none => (.mk il keys (pivots.set i r.1), none, r.2.2)
        | none => (.mk il keys pivots, none, none)  -- Rust panics here
decreasing_by
  exact Node.sizeOf_lt_of_getElem? h

/-- `Node::remove_most_leftright`: walk to the leftmost (or rightmost)
leaf of the subtree and remove its first (or last) entry, but only when
that leaf holds more than `S` entries or `force` is set. -/
def Node.remove_most_leftright (S : Nat) (leftmost force : Bool) :
    Node → Option (KeyVal × Node)
  | .mk il keys pivots =>
    if il = false then
      let i := if leftmost then 0 else pivots.length - 1
      match h : pivots[i]? with
      | some c =>
        match Node.remove_most_leftright S leftmost force c with
        | some (kv, c') => some (kv, .mk il keys (pivots.set i c'))
        | none => none
      | none => none  -- Rust panics here (index out of bounds)
    else if S < keys.length || force then
      if leftmost then
        match keys with
        | [] => none  -- Rust panics here (`remove(0)` of empty)
        | kv :: rest => some (kv, .mk il rest pivots)
      else
        match keys.getLast? with
        | some kv => some (kv, .mk il keys.dropLast pivots)
        | none => none  -- Rust panics here (`pop().unwrap()` of empty)
    else none
decreasing_by
  exact Node.sizeOf_lt_of_getElem? h

/-- `Node::rebalance`: repair child `i` if it dropped below `S` entries,
by rotating from a sibling holding more than `S` entries or else by
merging with a sibling. -/
def Node.rebalance (S : Nat) (self : Node) (i : Nat) : Node :=
  let il := self.is_leaf
  let keys := self.keys
  let pivots := self.pivots
  if S ≤ (pivots.getD i nilNode).keys.length then self
  else if i + 1 < pivots.length ∧ S < (pivots.getD (i + 1) nilNode).keys.length then
    -- rotate from the right sibling
    let left := pivots.getD i nilNode
    let right := pivots.getD (i + 1) nilNode
    let left' := Node.mk left.is_leaf (left.keys ++ [keys.getD i dKV])
      (if left.is_leaf then left.pivots else left.pivots ++ right.pivots.take 1)
    let right' := Node.mk right.is_leaf (right.keys.drop 1)
      (if left.is_leaf then right.pivots else right.pivots.drop 1)
    Node.mk il (keys.set i (right.keys.getD 0 dKV)) ((pivots.set i left').set (i + 1) right')
  else if i ≠ 0 ∧ S < (pivots.getD (i - 1) nilNode).keys.length then
    -- rotate from the left sibling
    let right := pivots.getD i nilNode
    let left := pivots.getD (i - 1) nilNode
    let right' := Node.mk right.is_leaf (keys.getD (i - 1) dKV :: right.keys)
      (if right.is_leaf then right.pivots else left.pivots.getLastD nilNode :: right.pivots)
    let left' := Node.mk left.is_leaf left.keys.dropLast
      (if right.is_leaf then left.pivots else left.pivots.dropLast)
    Node.mk il (keys.set (i - 1) (left.keys.getLastD dKV)) ((pivots.set i right').set (i - 1) left')
  else if i + 1 < pivots.length then
    -- merge with the right sibling
    let kv := keys.getD i dKV
    let left := pivots.getD i nilNode
    let right := pivots.getD (i + 1) nilNode
    let left' := Node.mk left.is_leaf (left.keys ++ kv :: right.keys)
      (if left.is_leaf then left.pivots else left.pivots ++ right.pivots)
    Node.mk il (keys.eraseIdx i) ((pivots.eraseIdx (i + 1)).set i left')
  else
    -- merge with the left sibling (Rust panics if `i = 0`: `keys.remove(i-1)` underflows)
    let kv := keys.getD (i - 1) dKV
    let right := pivots.getD i nilNode
    let left := pivots.getD (i - 1) nilNode
    let left' := Node.mk left.is_leaf (left.keys ++ kv :: right.keys)
      (if left.is_leaf then left.pivots else left.pivots ++ right.pivots)
    Node.mk il (keys.eraseIdx (i - 1)) ((pivots.eraseIdx i).set (i - 1) left')

/-- `Node::rebalance_most_leftright`: walk down the leftmost (or
rightmost) child chain and apply `rebalance` at every level on the way
back up. -/
def Node.rebalance_most_leftright (S : Nat) (leftmost : Bool) : Node → Node
  | .mk il keys pivots =>
    if il then .mk il keys pivots
    else
      let i := if leftmost then 0 else pivots.length - 1
      match h : pivots[i]? with
      | some c =>
        let c' := Node.rebalance_most_leftright S leftmost c
        Node.rebalance S (.mk il keys (pivots.set i c')) i
      | none => .mk il keys pivots  -- Rust panics here (index out of bounds)
decreasing_by
  exact Node.sizeOf_lt_of_getElem? h

/-- `Node::delete`: returns the updated node and the removed value. -/
def Node.delete (S : Nat) (key : Nat) : Node → Node × Option Nat
  | .mk il keys pivots =>
    match find_index keys key with
    | .ok i =>
      if il then
        (.mk il (keys.eraseIdx i) pivots, some (keys.getD i dKV).value)
      else
        let old := (keys.getD i dKV).value
        let left := pivots.getD i nilNode
        let right := pivots.getD (i + 1) nilNode
        match Node.remove_most_leftright S false false left with
        | some (kv, left') =>
          (.mk il (keys.set i kv) (pivots.set i left'), some old)
        | none =>
          match Node.remove_most_leftright S true false right with
          | some (kv, right') =>
            (.mk il (keys.set i kv) (pivots.set (i + 1) right'), some old)
          | none =>
            let remove_from_left := i % 2 == 0
            let child := if remove_from_left then left else right
            match Node.remove_most_leftright S (!remove_from_left) true child with
            | some (kv, c') =>
              let c'' := Node.rebalance_most_leftright S (!remove_from_left) c'
              let j := if remove_from_left then i else i + 1
              (Node.rebalance S (Node.mk il (keys.set i kv) (pivots.set j c'')) j, some old)
            | none => (.mk il keys pivots, some old)  -- Rust panics here (`unwrap`)
    | .error i =>
      if il then (.mk il keys pivots, none)
      else
        match h : pivots[i]? with
        | some c =>
          let r := Node.delete S key c
          (Node.rebalance S (.mk il keys (pivots.set i r.1)) i, r.2)
        | none => (.mk il keys pivots, none)  -- Rust panics here
decreasing_by
  exact Node.sizeOf_lt_of_getElem? h

/-- `BTree::new()`: a single empty leaf root. -/
def BTree.new : Node := .mk true [] []

/-- `BTree::size()`. -/
def BTree.size (t : Node) : Nat := t.size

/-- `BTree::level()`. -/
def BTree.level (t : Node) : Nat := Node.level t 0

/-- `BTree::get()`. -/
def BTree.get (t : Node) (key : Nat) : Option Nat := t.lookup key

/-- `BTree::put()`: upsert at the root, growing a new root when the old
root reports a split. -/
def BTree.put (S : Nat) (t : Node) (key value : Nat) : Node × Option Nat :=
  let r := Node.upsert S key value t
  match r.2.1 with
  | some (kv, pivot) => (.mk false [kv] [r.1, pivot], r.2.2)
  | none => (r.1, r.2.2)

/-- `BTree::delete()`: delete at the root, collapsing an internal root
left with a single child. -/
def BTree.delete (S : Nat) (t : Node) (key : Nat) : Node × Option Nat :=
  let r := Node.delete S key t
  if r.1.is_leaf = false ∧ r.1.pivots.length = 1 then
    (r.1.pivots.getD 0 nilNode, r.2)
  else (r.1, r.2)

/-! ## Well-formedness predicates and the in-order model -/

/-- Keys of adjacent entries are strictly ascending. -/
def sortedB : List KeyVal → Bool
  | [] => true
  | [_] => true
  | a :: b :: t => decide (a.key < b.key) && sortedB (b :: t)

/-- `k` lies strictly inside the open interval `(lo, hi)`, where `none`
means unbounded. -/
def okKey (lo hi : Option Nat) (k : Nat) : Bool :=
  (match lo with | none => true | some l => decide (l < k)) &&
  (match hi with | none => true | some h => decide (k < h))

/-- Depth of the leftmost leaf, counting the leaf itself as 1. -/
def Node.height : Node → Nat
  | .mk true _ _ => 1
  | .mk false _ [] => 1
  | .mk false _ (c :: _) => Node.height c + 1

mutual

/-- Well-formedness of a subtree whose keys must lie in `(lo, hi)`:
entries sorted and bounded, at most `2S` entries, and for internal
nodes: exactly one more child than entries, every child with at least
`S` entries, all children of equal height, and children recursively
well-formed in the windows cut by the entries.  The minimum occupancy
of the node itself is *not* constrained here: it is imposed on children
by their parent, so the root is exempt as required. -/
def wfSub (S : Nat) (lo hi : Option Nat) : Node → Bool
  | .mk il keys pivots =>
    sortedB keys && keys.all (fun kv => okKey lo hi kv.key) &&
    decide (keys.length ≤ 2 * S) &&
    (if il then pivots.isEmpty
     else
       decide (pivots.length = keys.length + 1) &&
       pivots.all (fun c => decide (S ≤ c.keys.length)) &&
       pivots.all (fun c => c.height == (pivots.headD nilNode).height) &&
       wfChildren S lo hi keys pivots)

/-- The children `c₀ … cₙ` of a node with entries `k₀ … k₍ₙ₋₁₎` are
well-formed in the windows `(lo,k₀), (k₀,k₁), …, (k₍ₙ₋₁₎,hi)`. -/
def wfChildren (S : Nat) (lo hi : Option Nat) : List KeyVal → List Node → Bool
  | [], [c] => wfSub S lo hi c
  | kv :: ks, c :: cs => wfSub S lo (some kv.key) c && wfChildren S (some kv.key) hi ks cs
  | _, _ => false

end

/-- Well-formedness of a whole tree: the root subtree is well-formed
with unbounded key window, and an internal root has at least one entry. -/
def wfRoot (S : Nat) (n : Node) : Bool :=
  wfSub S none none n && (n.is_leaf || decide (1 ≤ n.keys.length))

/-- `p` holds at every node of the subtree. -/
def allNodes (p : Node → Bool) : Node → Bool
  | .mk il ks ps => p (.mk il ks ps) && ps.attach.all (fun c => allNodes p c.1)
decreasing_by
  exact Node.sizeOf_lt_of_mem c.2

/-- All keys stored anywhere in the subtree. -/
def Node.allKeyList : Node → List Nat
  | .mk _ ks ps => ks.map (·.key) ++ (ps.attach.map (fun c => Node.allKeyList c.1)).flatten
decreasing_by
  exact Node.sizeOf_lt_of_mem c.2

/-- Invariant 1 of the spec: entries of every node strictly sorted. -/
def invSorted (n : Node) : Bool := allNodes (fun m => sortedB m.keys) n

/-- Invariant 2 of the spec: for every internal node, every key of the
subtree left of entry `i` is smaller than key `i`, and every key of the
subtree right of entry `i` is greater. -/
def invSep (n : Node) : Bool :=
  allNodes (fun m =>
    m.is_leaf ||
    (List.range m.keys.length).all (fun i =>
      ((m.pivots.getD i nilNode).allKeyList.all
        (fun k => decide (k < (m.keys.getD i dKV).key))) &&
      ((m.pivots.getD (i + 1) nilNode).allKeyList.all
        (fun k => decide ((m.keys.getD i dKV).key < k))))) n

/-- The depths (distance from the given start value) of all leaves. -/
def leafDepths : Node → Nat → List Nat
  | .mk true _ _, d => [d]
  | .mk false _ ps, d => (ps.attach.map (fun c => leafDepths c.1 (d + 1))).flatten
decreasing_by
  exact Node.sizeOf_lt_of_mem c.2

/-- Invariant 3 of the spec: all leaves at equal depth. -/
def invDepth (n : Node) : Bool :=
  (leafDepths n 0).all (fun d => d == (leafDepths n 0).headD 0)

/-- Invariant 4 of the spec: entry count of every non-root node in
`[S, 2S]`; root in `[0, 2S]` if leaf, `[1, 2S]` if internal. -/
def occOK (S : Nat) (root : Bool) : Node → Bool
  | .mk il ks ps =>
    (if root then
       if il then decide (ks.length ≤ 2 * S)
       else decide (1 ≤ ks.length ∧ ks.length ≤ 2 * S)
     else decide (S ≤ ks.length ∧ ks.length ≤ 2 * S)) &&
    ps.attach.all (fun c => occOK S false c.1)
decreasing_by
  exact Node.sizeOf_lt_of_mem c.2

/-- Invariant 5 of the spec: child count = entry count + 1 for every
internal node. -/
def invChildCount (n : Node) : Bool :=
  allNodes (fun m => m.is_leaf || decide (m.pivots.length = m.keys.length + 1)) n

/-- The conjunction of the five structural invariants of spec §3,
with invariant 4 applied treating `n` as the root. -/
def fiveInvariants (S : Nat) (n : Node) : Bool :=
  invSorted n && invSep n && invDepth n && occOK S true n && invChildCount n

/-- Minimum-occupancy holds everywhere strictly inside the subtree:
every proper descendant has at least `S` entries. -/
def minsOK (S : Nat) : Node → Bool
  | .mk il _ ps =>
    il || ps.attach.all (fun c => decide (S ≤ c.1.keys.length) && minsOK S c.1)
decreasing_by
  exact Node.sizeOf_lt_of_mem c.2

mutual

/-- The in-order sequence of entries of the subtree. -/
def Node.toList : Node → List KeyVal
  | .mk il keys pivots => if il then keys else interleave keys pivots

/-- In-order interleaving `toList c₀ ++ [k₀] ++ toList c₁ ++ …`. -/
def interleave : List KeyVal → List Node → List KeyVal
  | [], [] => []
  | [], c :: _ => Node.toList c
  | _ :: _, [] => []
  | kv :: ks, c :: cs => Node.toList c ++ kv :: interleave ks cs

end

/-! ## Characterization of `find_index` on sorted key lists -/

/-- Entry keys are strictly ascending (Prop form of `sortedB`). -/
def SortedK (ks : List KeyVal) : Prop :=
  List.Pairwise (fun a b => a.key < b.key) ks

/-- Number of entries with key strictly below `k`. -/
def rankOf (ks : List KeyVal) (k : Nat) : Nat :=
  ks.countP (fun kv => decide (kv.key < k))

/-- Some entry has key `k`. -/
def hasKey (ks : List KeyVal) (k : Nat) : Bool :=
  ks.any (fun kv => kv.key == k)

theorem sortedB_iff {ks : List KeyVal} :
    sortedB ks = true ↔ SortedK ks := by
  have h : ∀ ks : List KeyVal, sortedB ks = true ↔
      List.Chain' (fun a b : KeyVal => a.key < b.key) ks := by
    intro ks
    induction ks with
    | nil => simp [sortedB]
    | cons a t ih =>
      cases t with
      | nil => simp [sortedB]
      | cons b t' =>
        simp only [sortedB, Bool.and_eq_true, decide_eq_true_eq, ih]
        rw [List.chain'_cons]
  haveI : IsTrans KeyVal (fun a b : KeyVal => a.key < b.key) :=
    ⟨fun _ _ _ hab hbc => Nat.lt_trans hab hbc⟩
  rw [h, SortedK, List.chain'_iff_pairwise]

/-- `getD` at an in-bounds index. -/
theorem getD_eq {α : Type} (l : List α) (d : α) {n : Nat} (h : n < l.length) :
    l.getD n d = l[n] := by
  simp [List.getD_eq_getElem?_getD, List.getElem?_eq_getElem h]

theorem SortedK.get_lt {ks : List KeyVal} (hs : SortedK ks) {i j : Nat}
    (hij : i < j) (hj : j < ks.length) :
    (ks.getD i dKV).key < (ks.getD j dKV).key := by
  have hi : i < ks.length := lt_trans hij hj
  rw [getD_eq _ _ hi, getD_eq _ _ hj]
  exact List.pairwise_iff_getElem.mp hs i j hi hj hij

theorem rankOf_le_length (ks : List KeyVal) (k : Nat) : rankOf ks k ≤ ks.length :=
  List.countP_le_length _

theorem countP_eq_of_iff {α : Type} (l : List α) (p : α → Bool) (m : Nat)
    (hm : m ≤ l.length)
    (h1 : ∀ j, (hj : j < l.length) → (j < m ↔ p l[j] = true)) : l.countP p = m := by
  induction l generalizing m with
  | nil =>
    cases m with
    | zero => simp
    | succ m' => simp at hm
  | cons a t ih =>
    cases m with
    | zero =>
      have ha : p a = false := by
        have := h1 0 (by simp)
        simp at this
        simpa using this
      have ht : t.countP p = 0 := by
        rw [List.countP_eq_zero]
        intro x hx
        rcases List.mem_iff_getElem.mp hx with ⟨j, hj, rfl⟩
        have := h1 (j + 1) (by simpa using Nat.succ_lt_succ hj)
        simp at this
        simpa using this
      simp [List.countP_cons, ha, ht]
    | succ m' =>
      have ha : p a = true := by
        have := h1 0 (by simp)
        simpa using this.mp (Nat.succ_pos m')
      have ht : t.countP p = m' := by
        apply ih _ (by simpa using hm)
        intro j hj
        have := h1 (j + 1) (by simpa using Nat.succ_lt_succ hj)
        simpa [Nat.succ_lt_succ_iff] using this
      simp [List.countP_cons, ha, ht]

theorem rankOf_spec {ks : List KeyVal} {k : Nat} (hs : SortedK ks) (m : Nat)
    (hm : m ≤ ks.length)
    (h1 : ∀ j, j < m → (hj : j < ks.length) → (ks.getD j dKV).key < k)
    (h2 : ∀ j, m ≤ j → (hj : j < ks.length) → ¬ (ks.getD j dKV).key < k) :
    rankOf ks k = m := by
  apply countP_eq_of_iff _ _ _ hm
  intro j hj
  constructor
  · intro hjm
    have := h1 j hjm hj
    rw [getD_eq _ _ hj] at this
    simpa using this
  · intro hp
    by_contra hge
    have := h2 j (Nat.le_of_not_lt hge) hj
    rw [getD_eq _ _ hj] at this
    simp at hp
    exact this hp

theorem hasKey_iff {ks : List KeyVal} {k : Nat} :
    hasKey ks k = true ↔ ∃ j, ∃ _ : j < ks.length, (ks.getD j dKV).key = k := by
  rw [hasKey, List.any_eq_true]
  constructor
  · rintro ⟨kv, hkv, he⟩
    rcases List.mem_iff_getElem.mp hkv with ⟨j, hj, rfl⟩
    exact ⟨j, hj, by rw [getD_eq _ _ hj]; simpa using he⟩
  · rintro ⟨j, hj, he⟩
    refine ⟨ks[j], List.getElem_mem hj, ?_⟩
    rw [getD_eq _ _ hj] at he
    simpa using he

theorem bsLoop_eq_aux {ks : List KeyVal} {k : Nat} (hs : SortedK ks) :
    ∀ d left right, right - left = d → left ≤ right → right ≤ ks.length →
    (∀ j, j < left → (hj : j < ks.length) → (ks.getD j dKV).key < k) →
    (∀ j, right ≤ j → (hj : j < ks.length) → k < (ks.getD j dKV).key) →
    bsLoop ks k left right =
      if hasKey ks k then .ok (rankOf ks k) else .error (rankOf ks k) := by
  intro d
  induction d using Nat.strong_induction_on with
  | _ d ih =>
    intro left right hd hlr hrn hl hr
    rw [bsLoop]
    by_cases hcase : left < right
    · rw [dif_pos hcase]
      set mid := left + (right - left) / 2 with hmid
      have hmlt : mid < right := by
        have : (right - left) / 2 < right - left := Nat.div_lt_self (by omega) (by omega)
        omega
      have hmge : left ≤ mid := by omega
      have hmn : mid < ks.length := lt_of_lt_of_le hmlt hrn
      by_cases h1 : (ks.getD mid dKV).key < k
      · rw [if_pos h1]
        apply ih (right - (mid + 1)) (by omega) (mid + 1) right rfl (by omega) hrn
        · intro j hj hjn
          rcases Nat.lt_or_ge j mid with hc | hc
          · exact lt_trans (hs.get_lt hc hmn) h1
          · have : j = mid := by omega
            subst this
            exact h1
        · exact hr
      · rw [if_neg h1]
        by_cases h2 : k < (ks.getD mid dKV).key
        · rw [if_pos h2]
          apply ih (mid - left) (by omega) left mid rfl (by omega) (by omega) hl
          intro j hj hjn
          rcases Nat.lt_or_ge mid j with hc | hc
          · exact lt_trans h2 (hs.get_lt hc hjn)
          · have : j = mid := by omega
            subst this
            exact h2
        · rw [if_neg h2]
          have hk : (ks.getD mid dKV).key = k := by omega
          have hrank : rankOf ks k = mid := by
            apply rankOf_spec hs mid (le_of_lt hmn)
            · intro j hj hjn
              exact lt_of_lt_of_le (hs.get_lt hj hmn) (le_of_eq hk)
            · intro j hj hjn
              rcases Nat.lt_or_ge mid j with hc | hc
              · have := hs.get_lt hc hjn
                omega
              · have : j = mid := by omega
                subst this
                omega
          have hhas : hasKey ks k = true := hasKey_iff.mpr ⟨mid, hmn, hk⟩
          rw [hhas, if_pos rfl, hrank]
    · rw [dif_neg hcase]
      have heq : left = right := by omega
      subst heq
      have hrank : rankOf ks k = left := by
        apply rankOf_spec hs left (le_trans hlr hrn)
        · exact hl
        · intro j hj hjn
          have := hr j hj hjn
          omega
      have hhas : hasKey ks k = false := by
        rw [← Bool.not_eq_true, hasKey_iff]
        rintro ⟨j, hj, he⟩
        rcases Nat.lt_or_ge j left with hc | hc
        · have := hl j hc hj
          omega
        · have := hr j hc hj
          omega
      rw [hhas, hrank]
      simp

/-- On a strictly sorted key list, `find_index` returns `Ok` at the rank
of the key when present, and `Err` at the insertion rank otherwise. -/
theorem find_index_eq {ks : List KeyVal} {k : Nat} (hs : SortedK ks) :
    find_index ks k =
      if hasKey ks k then .ok (rankOf ks k) else .error (rankOf ks k) := by
  apply bsLoop_eq_aux hs (ks.length - 0) 0 ks.length rfl (Nat.zero_le _) le_rfl
  · intro j hj; omega
  · intro j hj hjn; omega

/-! ## Prop-level well-formedness -/

/-- `lo < k` where `none` means `-∞`. -/
def loLt : Option Nat → Nat → Prop
  | none, _ => True
  | some l, k => l < k

/-- `k < hi` where `none` means `+∞`. -/
def hiGt : Option Nat → Nat → Prop
  | none, _ => True
  | some h, k => k < h

theorem okKey_iff {lo hi : Option Nat} {k : Nat} :
    okKey lo hi k = true ↔ loLt lo k ∧ hiGt hi k := by
  cases lo <;> cases hi <;> simp [okKey, loLt, hiGt]

mutual

/-- Prop-level well-formedness of a subtree in the open key window
`(lo, hi)` (see `wfSub`). -/
inductive WFC (S : Nat) : Option Nat → Option Nat → Node → Prop where
  | leaf {lo hi ks} :
      SortedK ks → (∀ kv ∈ ks, loLt lo kv.key ∧ hiGt hi kv.key) →
      ks.length ≤ 2 * S →
      WFC S lo hi (.mk true ks [])
  | node {lo hi ks ps} :
      SortedK ks → (∀ kv ∈ ks, loLt lo kv.key ∧ hiGt hi kv.key) →
      ks.length ≤ 2 * S →
      ps.length = ks.length + 1 →
      (∀ c ∈ ps, S ≤ c.keys.length) →
      (∀ c ∈ ps, c.height = (ps.headD nilNode).height) →
      WFCs S lo hi ks ps →
      WFC S lo hi (.mk false ks ps)

/-- Prop-level well-formedness of an entry/child interleaving (see
`wfChildren`). -/
inductive WFCs (S : Nat) : Option Nat → Option Nat → List KeyVal → List Node → Prop where
  | single {lo hi c} : WFC S lo hi c → WFCs S lo hi [] [c]
  | cons {lo hi kv ks c cs} :
      WFC S lo (some kv.key) c → WFCs S (some kv.key) hi ks cs →
      WFCs S lo hi (kv :: ks) (c :: cs)

end

/-! ## Toolkit for `WFC`/`WFCs` -/

theorem WFCs.len {S lo hi ks cs} : WFCs S lo hi ks cs → cs.length = ks.length + 1
  | .single _ => rfl
  | .cons _ h => by simpa using congrArg Nat.succ (WFCs.len h)

theorem WFCs.nil_inv {S lo hi cs} (h : WFCs S lo hi [] cs) :
    ∃ c, cs = [c] ∧ WFC S lo hi c := by
  cases h with
  | single hc => exact ⟨_, rfl, hc⟩

theorem WFCs.cons_inv {S lo hi kv ks cs} (h : WFCs S lo hi (kv :: ks) cs) :
    ∃ c cs', cs = c :: cs' ∧ WFC S lo (some kv.key) c ∧ WFCs S (some kv.key) hi ks cs' := by
  cases h with
  | cons hc hcs => exact ⟨_, _, rfl, hc, hcs⟩

/-- Lower end of the key window of child `i` of a node with entries `ks`. -/
def winLo (lo : Option Nat) (ks : List KeyVal) (i : Nat) : Option Nat :=
  if i = 0 then lo else some ((ks.getD (i - 1) dKV).key)

/-- Upper end of the key window of child `i` of a node with entries `ks`. -/
def winHi (hi : Option Nat) (ks : List KeyVal) (i : Nat) : Option Nat :=
  if i = ks.length then hi else some ((ks.getD i dKV).key)

@[simp] theorem winLo_zero (lo : Option Nat) (ks : List KeyVal) : winLo lo ks 0 = lo := rfl

theorem winLo_cons {lo : Option Nat} {kv : KeyVal} {ks : List KeyVal} {i : Nat} :
    winLo lo (kv :: ks) (i + 1) = winLo (some kv.key) ks i := by
  cases i with
  | zero => simp [winLo]
  | succ i' => simp [winLo]

theorem winHi_cons {hi : Option Nat} {kv : KeyVal} {ks : List KeyVal} {i : Nat} :
    winHi hi (kv :: ks) (i + 1) = winHi hi ks i := by
  by_cases h : i = ks.length
  · simp [winHi, h]
  · have h' : ¬ (i + 1 = (kv :: ks).length) := by simp [h]
    simp [winHi, h, h']

theorem winHi_zero_cons {hi : Option Nat} {kv : KeyVal} {ks : List KeyVal} :
    winHi hi (kv :: ks) 0 = some kv.key := by
  simp [winHi]

theorem winHi_zero_nil {hi : Option Nat} : winHi hi [] 0 = hi := by
  simp [winHi]

theorem WFCs.get {S : Nat} : ∀ {lo hi ks cs}, WFCs S lo hi ks cs →
    ∀ i, i ≤ ks.length → WFC S (winLo lo ks i) (winHi hi ks i) (cs.getD i nilNode)
  | _, _, _, _, .single hc, 0, _ => by simpa [winHi_zero_nil] using hc
  | _, _, _, _, .single _, i + 1, hi => by simp at hi
  | _, _, _, _, .cons hc _, 0, _ => by simpa [winHi_zero_cons] using hc
  | _, _, _, _, .cons _ hcs, i + 1, hi => by
    rw [winLo_cons, winHi_cons]
    simpa using WFCs.get hcs i (by simpa using hi)

theorem WFCs.set {S : Nat} : ∀ {lo hi ks cs}, WFCs S lo hi ks cs →
    ∀ i c', i ≤ ks.length → WFC S (winLo lo ks i) (winHi hi ks i) c' →
      WFCs S lo hi ks (cs.set i c')
  | _, _, _, _, .single _, 0, c', _, hc' => .single (by simpa [winHi_zero_nil] using hc')
  | _, _, _, _, .single _, i + 1, _, hi, _ => by simp at hi
  | _, _, _, _, .cons _ hcs, 0, c', _, hc' =>
    .cons (by simpa [winHi_zero_cons] using hc') hcs
  | _, _, _, _, .cons hc hcs, i + 1, c', hi, hc' => by
    rw [winLo_cons, winHi_cons] at hc'
    exact .cons hc (by simpa using WFCs.set hcs i c' (by simpa using hi) hc')

mutual

theorem WFC.mono {S lo hi n} : WFC S lo hi n → ∀ {lo' hi' : Option Nat},
    (∀ k, loLt lo k → loLt lo' k) → (∀ k, hiGt hi k → hiGt hi' k) → WFC S lo' hi' n
  | .leaf hs hb hl, _, _, hlo, hhi =>
    .leaf hs (fun kv hkv => ⟨hlo _ (hb kv hkv).1, hhi _ (hb kv hkv).2⟩) hl
  | .node hs hb hl hp hm hh hcs, _, _, hlo, hhi =>
    .node hs (fun kv hkv => ⟨hlo _ (hb kv hkv).1, hhi _ (hb kv hkv).2⟩) hl hp hm hh
      (WFCs.monoAll hcs hlo hhi)

theorem WFCs.monoAll {S lo hi ks cs} : WFCs S lo hi ks cs → ∀ {lo' hi' : Option Nat},
    (∀ k, loLt lo k → loLt lo' k) → (∀ k, hiGt hi k → hiGt hi' k) → WFCs S lo' hi' ks cs
  | .single hc, _, _, hlo, hhi => .single (WFC.mono hc hlo hhi)
  | .cons hc hcs, _, _, hlo, hhi =>
    .cons (WFC.mono hc hlo (fun _ hk => hk)) (WFCs.monoAll hcs (fun _ hk => hk) hhi)

end

theorem WFCs.insertChild {S : Nat} : ∀ {lo hi ks cs}, WFCs S lo hi ks cs →
    ∀ i kv l r, i ≤ ks.length →
    loLt (winLo lo ks i) kv.key → hiGt (winHi hi ks i) kv.key →
    WFC S (winLo lo ks i) (some kv.key) l → WFC S (some kv.key) (winHi hi ks i) r →
    WFCs S lo hi (ks.insertIdx i kv) ((cs.set i l).insertIdx (i + 1) r)
  | _, _, _, _, .single _, 0, kv, l, r, _, _, _, hl, hr =>
    .cons (by simpa using hl) (.single (by simpa [winHi_zero_nil] using hr))
  | _, _, _, _, .single _, i + 1, _, _, _, hi, _, _, _, _ => by simp at hi
  | _, _, _, _, .cons _ hcs, 0, kv, l, r, _, _, _, hl, hr =>
    .cons (by simpa using hl)
      (.cons (by simpa [winHi_zero_cons] using hr) hcs)
  | _, _, _, _, .cons hc hcs, i + 1, kv, l, r, hi, hlo, hhi, hl, hr => by
    rw [winLo_cons] at hlo hl
    rw [winHi_cons] at hhi hr
    have := WFCs.insertChild hcs i kv l r (by simpa using hi) hlo hhi hl hr
    simpa [List.insertIdx_succ_cons] using WFCs.cons hc this

theorem WFCs.mergeChild {S : Nat} : ∀ {lo hi ks cs}, WFCs S lo hi ks cs →
    ∀ i m, i < ks.length → WFC S (winLo lo ks i) (winHi hi ks (i + 1)) m →
    WFCs S lo hi (ks.eraseIdx i) ((cs.eraseIdx (i + 1)).set i m)
  | _, _, _, _, .single _, i, _, hi, _ => by simp at hi
  | _, _, _, _, @WFCs.cons _ _ _ kv₀ ks₀ c₀ cs₀ _ hcs, 0, m, _, hm => by
    cases ks₀ with
    | nil =>
      rcases hcs.nil_inv with ⟨c₂, rfl, _⟩
      exact .single (by simpa [winHi] using hm)
    | cons kv₁ ks₁ =>
      rcases hcs.cons_inv with ⟨c₂, cs₁, rfl, _, hcs₁⟩
      refine .cons ?_ hcs₁
      simpa [winHi, List.getD] using hm
  | _, _, _, _, .cons hc hcs, i + 1, m, hi, hm => by
    rw [winLo_cons] at hm
    rw [winHi_cons] at hm
    have := WFCs.mergeChild hcs i m (by simpa using hi) hm
    simpa using WFCs.cons hc this

theorem WFCs.snoc {S : Nat} {kv : KeyVal} {hi : Option Nat} {c : Node} :
    ∀ {lo ks cs}, WFCs S lo (some kv.key) ks cs → WFC S (some kv.key) hi c →
      WFCs S lo hi (ks ++ [kv]) (cs ++ [c])
  | _, _, _, .single hc₀, hc => .cons hc₀ (.single hc)
  | _, _, _, .cons hc₀ hcs, hc => .cons hc₀ (WFCs.snoc hcs hc)

theorem getLastD_of_ne_nil {α : Type} {l : List α} (h : l ≠ []) (d d' : α) :
    l.getLastD d = l.getLastD d' := by
  cases l with
  | nil => exact absurd rfl h
  | cons a t => rw [List.getLastD_cons, List.getLastD_cons]

theorem WFCs.unsnoc {S : Nat} : ∀ {lo hi ks cs}, WFCs S lo hi ks cs → 0 < ks.length →
    WFCs S lo (some ((ks.getLastD dKV).key)) ks.dropLast cs.dropLast ∧
    WFC S (some ((ks.getLastD dKV).key)) hi (cs.getLastD nilNode)
  | _, _, _, _, .single _, h => by simp at h
  | _, _, _, _, @WFCs.cons _ _ _ kv₀ ks₀ c₀ cs₀ hc hcs, _ => by
    cases ks₀ with
    | nil =>
      rcases hcs.nil_inv with ⟨c₂, rfl, hc₂⟩
      refine ⟨.single ?_, ?_⟩
      · simpa [List.getLastD_cons] using hc
      · simpa [List.getLastD_cons] using hc₂
    | cons kv₁ ks₁ =>
      have hne : (kv₁ :: ks₁ : List KeyVal) ≠ [] := by simp
      obtain ⟨h1, h2⟩ := WFCs.unsnoc hcs (by simp)
      have hlen := hcs.len
      rcases hcs.cons_inv with ⟨c₂, cs₁, rfl, _, _⟩
      have hg : ((kv₀ :: kv₁ :: ks₁ : List KeyVal).getLastD dKV) =
          ((kv₁ :: ks₁ : List KeyVal).getLastD dKV) := by
        rw [List.getLastD_cons]
        exact getLastD_of_ne_nil hne _ _
      constructor
      · rw [List.dropLast_cons_of_ne_nil hne,
          List.dropLast_cons_of_ne_nil (x := c₀) (l := c₂ :: cs₁) (by simp), hg]
        exact .cons hc h1
      · rw [hg]
        have hg2 : ((c₀ :: c₂ :: cs₁ : List Node).getLastD nilNode) =
            ((c₂ :: cs₁ : List Node).getLastD nilNode) := by
          rw [List.getLastD_cons]
          exact getLastD_of_ne_nil (by simp) _ _
        rw [hg2]
        exact h2

theorem WFCs.append {S : Nat} {kv : KeyVal} {hi : Option Nat} {rks : List KeyVal}
    {rcs : List Node} :
    ∀ {lo lks lcs}, WFCs S lo (some kv.key) lks lcs → WFCs S (some kv.key) hi rks rcs →
      WFCs S lo hi (lks ++ kv :: rks) (lcs ++ rcs)
  | _, _, _, .single hc, hr => .cons hc hr
  | _, _, _, .cons hc hcs, hr => .cons hc (WFCs.append hcs hr)

/-! ## `toList`/`interleave` equations and facts -/

theorem Node.toList_mk (il ks ps) :
    (Node.mk il ks ps).toList = if il then ks else interleave ks ps := by
  rw [Node.toList]

@[simp] theorem Node.toList_leaf (ks ps) : (Node.mk true ks ps).toList = ks := by
  rw [Node.toList_mk, if_pos rfl]

@[simp] theorem Node.toList_internal (ks ps) :
    (Node.mk false ks ps).toList = interleave ks ps := by
  rw [Node.toList_mk, if_neg (by simp)]

@[simp] theorem interleave_nil_nil : interleave [] [] = [] := by rw [interleave]

@[simp] theorem interleave_nil_cons (c : Node) (cs : List Node) :
    interleave [] (c :: cs) = c.toList := by rw [interleave]

@[simp] theorem interleave_cons_nil (kv : KeyVal) (ks : List KeyVal) :
    interleave (kv :: ks) [] = [] := by rw [interleave]

@[simp] theorem interleave_cons_cons (kv : KeyVal) (ks : List KeyVal) (c : Node)
    (cs : List Node) :
    interleave (kv :: ks) (c :: cs) = c.toList ++ kv :: interleave ks cs := by
  rw [interleave]

theorem loLt_trans {lo : Option Nat} {a b : Nat} (h : loLt lo a) (hab : a ≤ b) :
    loLt lo b := by
  cases lo with
  | none => trivial
  | some l => exact lt_of_lt_of_le h hab

theorem hiGt_trans {hi : Option Nat} {a b : Nat} (h : hiGt hi a) (hab : b ≤ a) :
    hiGt hi b := by
  cases hi with
  | none => trivial
  | some u => exact lt_of_le_of_lt hab h

mutual

theorem WFC.toList_bdd {S : Nat} : ∀ {lo hi n}, WFC S lo hi n →
    ∀ kv ∈ n.toList, loLt lo kv.key ∧ hiGt hi kv.key
  | _, _, _, .leaf _ hb _, kv, hkv => hb kv (by simpa using hkv)
  | _, _, _, .node hs hb _ _ _ _ hcs, kv, hkv =>
    WFCs.inter_bdd hcs hs hb kv (by simpa using hkv)

theorem WFCs.inter_bdd {S : Nat} : ∀ {lo hi ks cs}, WFCs S lo hi ks cs → SortedK ks →
    (∀ kv ∈ ks, loLt lo kv.key ∧ hiGt hi kv.key) →
    ∀ kv ∈ interleave ks cs, loLt lo kv.key ∧ hiGt hi kv.key
  | _, _, _, _, .single hc, _, _, kv, hkv => WFC.toList_bdd hc kv (by simpa using hkv)
  | _, _, _, _, .cons hc hcs, hs, hb, kv, hkv => by
    have hb₀ := hb _ (List.mem_cons_self _ _)
    rw [interleave_cons_cons, List.mem_append] at hkv
    rcases hkv with hkv | hkv
    · have := WFC.toList_bdd hc kv hkv
      exact ⟨this.1, hiGt_trans hb₀.2 (le_of_lt this.2)⟩
    · rcases List.mem_cons.mp hkv with rfl | hkv
      · exact hb₀
      · have hs' := (List.pairwise_cons.mp hs).2
        have hlt := (List.pairwise_cons.mp hs).1
        have := WFCs.inter_bdd hcs hs'
          (fun kv' hkv' => ⟨hlt kv' hkv',
            (hb kv' (List.mem_cons_of_mem _ hkv')).2⟩) kv hkv
        exact ⟨loLt_trans hb₀.1 (le_of_lt this.1), this.2⟩

end

mutual

theorem WFC.toList_sorted {S : Nat} : ∀ {lo hi n}, WFC S lo hi n → SortedK n.toList
  | _, _, _, .leaf hs _ _ => by simpa using hs
  | _, _, _, .node hs hb _ _ _ _ hcs => by
    simpa using WFCs.inter_sorted hcs hs hb

theorem WFCs.inter_sorted {S : Nat} : ∀ {lo hi ks cs}, WFCs S lo hi ks cs → SortedK ks →
    (∀ kv ∈ ks, loLt lo kv.key ∧ hiGt hi kv.key) → SortedK (interleave ks cs)
  | _, _, _, _, .single hc, _, _ => by simpa using WFC.toList_sorted hc
  | _, _, _, _, @WFCs.cons _ _ _ kv₀ ks₀ c₀ cs₀ hc hcs, hs, hb => by
    rw [interleave_cons_cons]
    rcases List.pairwise_cons.mp hs with ⟨hlt, hs'⟩
    have hbt : ∀ kv' ∈ ks₀, loLt (some kv₀.key) kv'.key ∧ hiGt _ kv'.key :=
      fun kv' hkv' => ⟨hlt kv' hkv', (hb kv' (List.mem_cons_of_mem _ hkv')).2⟩
    rw [SortedK, List.pairwise_append]
    refine ⟨WFC.toList_sorted hc, ?_, ?_⟩
    · rw [List.pairwise_cons]
      exact ⟨fun b hb' => (WFCs.inter_bdd hcs hs' hbt b hb').1,
        WFCs.inter_sorted hcs hs' hbt⟩
    · intro a ha b hb'
      have ha' := (WFC.toList_bdd hc a ha).2
      rcases List.mem_cons.mp hb' with rfl | hb''
      · exact ha'
      · exact lt_trans ha' (WFCs.inter_bdd hcs hs' hbt b hb'').1

end

theorem attach_map_eq {α β : Type} (l : List α) (f : α → β) :
    l.attach.map (fun c => f c.1) = l.map f := by
  induction l with
  | nil => rfl
  | cons a t ih => simp_all

theorem attach_all_eq {α : Type} (l : List α) (f : α → Bool) :
    (l.attach.all fun c => f c.1) = l.all f := by
  rw [Bool.eq_iff_iff, List.all_eq_true, List.all_eq_true]
  constructor
  · intro h x hx
    exact h ⟨x, hx⟩ (List.mem_attach _ _)
  · intro h c _
    exact h c.1 c.2

theorem Node.size_mk (il : Bool) (ks : List KeyVal) (ps : List Node) :
    (Node.mk il ks ps).size = ks.length + (if il then 0 else (ps.map Node.size).sum) := by
  rw [Node.size, attach_map_eq]

mutual

theorem WFC.toList_length {S : Nat} : ∀ {lo hi n}, WFC S lo hi n →
    n.toList.length = n.size
  | _, _, _, .leaf _ _ _ => by rw [Node.toList_leaf, Node.size_mk]; simp
  | _, _, _, .node _ _ _ _ _ _ hcs => by
    rw [Node.toList_internal, Node.size_mk, WFCs.inter_length hcs]
    simp

theorem WFCs.inter_length {S : Nat} : ∀ {lo hi ks cs}, WFCs S lo hi ks cs →
    (interleave ks cs).length = ks.length + (cs.map Node.size).sum
  | _, _, _, _, .single hc => by
    rw [interleave_nil_cons]
    simpa using WFC.toList_length hc
  | _, _, _, _, .cons hc hcs => by
    rw [interleave_cons_cons]
    have h1 := WFC.toList_length hc
    have h2 := WFCs.inter_length hcs
    simp only [List.length_append, List.length_cons, h1, h2, List.map_cons, List.sum_cons,
      List.length_cons]
    omega

end

theorem minsOK_mk (S : Nat) (il : Bool) (ks : List KeyVal) (ps : List Node) :
    minsOK S (.mk il ks ps) =
      (il || ps.all (fun c => decide (S ≤ c.keys.length) && minsOK S c)) := by
  rw [minsOK]
  congr 1
  rw [Bool.eq_iff_iff, List.all_eq_true, List.all_eq_true]
  exact ⟨fun h x hx => h ⟨x, hx⟩ (List.mem_attach _ _), fun h c _ => h c.1 c.2⟩

mutual

theorem WFC.mins {S : Nat} : ∀ {lo hi n}, WFC S lo hi n → minsOK S n = true
  | _, _, _, .leaf _ _ _ => by rw [minsOK_mk]; simp
  | _, _, _, .node _ _ _ _ hm _ hcs => by
    rw [minsOK_mk]
    simp only [Bool.false_or, List.all_eq_true, Bool.and_eq_true, decide_eq_true_eq]
    have hall := WFCs.minsAll hcs
    rw [List.all_eq_true] at hall
    exact fun c hc => ⟨hm c hc, by simpa using hall c hc⟩

theorem WFCs.minsAll {S : Nat} : ∀ {lo hi ks cs}, WFCs S lo hi ks cs →
    cs.all (fun c => minsOK S c) = true
  | _, _, _, _, .single hc => by simp [WFC.mins hc]
  | _, _, _, _, .cons hc hcs => by
    rw [List.all_cons, WFC.mins hc, WFCs.minsAll hcs]
    rfl

end

theorem WFCs.minsMem {S : Nat} {lo hi : Option Nat} {ks : List KeyVal} {cs : List Node}
    (h : WFCs S lo hi ks cs) : ∀ c ∈ cs, minsOK S c = true := by
  have := h.minsAll
  rw [List.all_eq_true] at this
  exact fun c hc => by simpa using this c hc

theorem Node.height_cons (ks : List KeyVal) (c : Node) (t : List Node) :
    (Node.mk false ks (c :: t)).height = c.height + 1 := by
  rw [Node.height]

theorem WFC.child_height {S : Nat} {lo hi : Option Nat} {ks : List KeyVal}
    {ps : List Node} (h : WFC S lo hi (.mk false ks ps)) :
    ∀ c ∈ ps, (Node.mk false ks ps).height = c.height + 1 := by
  intro c hc
  cases h with
  | node _ _ _ hp _ hh _ =>
    cases ps with
    | nil => simp at hc
    | cons c₀ t =>
      rw [Node.height_cons]
      have h1 := hh c hc
      simp only [List.headD_cons, beq_iff_eq] at h1
      omega

mutual

theorem wfSub_implies {S : Nat} : ∀ n {lo hi}, wfSub S lo hi n = true → WFC S lo hi n
  | .mk il ks ps, lo, hi, h => by
    rw [wfSub] at h
    simp only [Bool.and_eq_true, decide_eq_true_eq, List.all_eq_true] at h
    obtain ⟨⟨⟨hs, hb⟩, hlen⟩, hrest⟩ := h
    cases il with
    | true =>
      rw [if_pos rfl] at hrest
      have hps : ps = [] := List.isEmpty_iff.mp hrest
      subst hps
      exact .leaf (sortedB_iff.mp hs) (fun kv hkv => okKey_iff.mp (hb kv hkv)) hlen
    | false =>
      rw [if_neg (by simp)] at hrest
      simp only [Bool.and_eq_true, decide_eq_true_eq, List.all_eq_true] at hrest
      obtain ⟨⟨⟨hp, hm⟩, hh⟩, hcs⟩ := hrest
      exact .node (sortedB_iff.mp hs) (fun kv hkv => okKey_iff.mp (hb kv hkv)) hlen hp
        (fun c hc => by simpa using hm c hc)
        (fun c hc => by simpa using hh c hc)
        (wfChildren_implies ks ps hcs)

theorem wfChildren_implies {S : Nat} : ∀ ks cs {lo hi},
    wfChildren S lo hi ks cs = true → WFCs S lo hi ks cs
  | [], [c], lo, hi, h => by
    rw [wfChildren] at h
    exact .single (wfSub_implies c h)
  | kv :: ks, c :: cs, lo, hi, h => by
    rw [wfChildren] at h
    simp only [Bool.and_eq_true] at h
    exact .cons (wfSub_implies c h.1) (wfChildren_implies ks cs h.2)
  | [], [], _, _, h => by
    rw [wfChildren] at h
    all_goals intros
    all_goals contradiction
  | [], _ :: _ :: _, _, _, h => by
    rw [wfChildren] at h
    all_goals intros
    all_goals contradiction
  | _ :: _, [], _, _, h => by
    rw [wfChildren] at h
    all_goals intros
    all_goals contradiction

end

/-! ## Characterization of `split` -/

theorem drop_cons_self {α : Type} (l : List α) (d : α) {i : Nat} (h : i < l.length) :
    l.drop i = l.getD i d :: l.drop (i + 1) := by
  rw [getD_eq _ _ h]
  exact List.drop_eq_getElem_cons h

theorem split_overflow (S : Nat) (il : Bool) (ks : List KeyVal) (ps : List Node)
    (h : ks.length = 2 * S + 1) :
    Node.split S (.mk il ks ps) =
      (.mk il (ks.take S) (if il then ps else ps.take (S + 1)),
        some (ks.getD S dKV,
          .mk il (ks.drop (S + 1)) (if il then [] else ps.drop (S + 1)))) := by
  have hlt : S < ks.length := by omega
  rw [Node.split, if_pos h, drop_cons_self ks dKV hlt]
  cases il with
  | true => simp
  | false => simp

theorem split_no_overflow (S : Nat) (il : Bool) (ks : List KeyVal) (ps : List Node)
    (h : ks.length ≠ 2 * S + 1) :
    Node.split S (.mk il ks ps) = (.mk il ks ps, none) := by
  rw [Node.split, if_neg h]

/-- Well-formedness with a relaxed entry-count cap `mx` at the top node
only (children are fully well-formed).  `WFC S lo hi n ↔ WFT S lo hi (2S) n`. -/
def WFT (S : Nat) (lo hi : Option Nat) (mx : Nat) : Node → Prop
  | .mk il ks ps =>
    SortedK ks ∧ (∀ kv ∈ ks, loLt lo kv.key ∧ hiGt hi kv.key) ∧ ks.length ≤ mx ∧
    (if il then ps = [] else
      ps.length = ks.length + 1 ∧ (∀ c ∈ ps, S ≤ c.keys.length) ∧
      (∀ c ∈ ps, c.height = (ps.headD nilNode).height) ∧ WFCs S lo hi ks ps)

theorem WFC.toWFT {S lo hi n} (h : WFC S lo hi n) : WFT S lo hi (2 * S) n := by
  cases h with
  | leaf hs hb hl => exact ⟨hs, hb, hl, rfl⟩
  | node hs hb hl hp hm hh hcs => exact ⟨hs, hb, hl, hp, hm, hh, hcs⟩

theorem WFT.toWFC {S lo hi n} (h : WFT S lo hi (2 * S) n) : WFC S lo hi n := by
  cases n with
  | mk il ks ps =>
    obtain ⟨hs, hb, hl, hrest⟩ := h
    cases il with
    | true =>
      rw [if_pos rfl] at hrest
      subst hrest
      exact .leaf hs hb hl
    | false =>
      rw [if_neg (by simp)] at hrest
      exact .node hs hb hl hrest.1 hrest.2.1 hrest.2.2.1 hrest.2.2.2

theorem WFT.relax {S lo hi mx mx' n} (h : WFT S lo hi mx n) (hm : mx ≤ mx') :
    WFT S lo hi mx' n := by
  cases n with
  | mk il ks ps => exact ⟨h.1, h.2.1, le_trans h.2.2.1 hm, h.2.2.2⟩

theorem WFCs.splitAt {S : Nat} : ∀ {lo hi ks cs}, WFCs S lo hi ks cs →
    ∀ j, j < ks.length →
    WFCs S lo (some ((ks.getD j dKV).key)) (ks.take j) (cs.take (j + 1)) ∧
    WFCs S (some ((ks.getD j dKV).key)) hi (ks.drop (j + 1)) (cs.drop (j + 1))
  | _, _, _, _, .single _, j, hj => by simp at hj
  | _, _, _, _, .cons hc hcs, 0, _ => ⟨.single hc, by simpa using hcs⟩
  | _, _, _, _, .cons hc hcs, j + 1, hj => by
    obtain ⟨h1, h2⟩ := WFCs.splitAt hcs j (by simpa using hj)
    exact ⟨.cons hc h1, h2⟩

theorem interleave_splitAt {ks : List KeyVal} {cs : List Node}
    (hlen : cs.length = ks.length + 1) :
    ∀ j, j < ks.length →
    interleave ks cs =
      interleave (ks.take j) (cs.take (j + 1)) ++
        (ks.getD j dKV) :: interleave (ks.drop (j + 1)) (cs.drop (j + 1)) := by
  induction ks generalizing cs with
  | nil => intro j hj; simp at hj
  | cons kv ks' ih =>
    intro j hj
    cases cs with
    | nil => simp at hlen
    | cons c cs' =>
      cases j with
      | zero => simp
      | succ j' =>
        have := @ih cs' (by simpa using hlen) j' (by simpa using hj)
        simp only [List.take_succ_cons, List.drop_succ_cons, interleave_cons_cons,
          List.getD_cons_succ]
        rw [this]
        simp

theorem sorted_take_bound {ks : List KeyVal} (hs : SortedK ks) {j : Nat}
    (hj : j < ks.length) :
    ∀ kv ∈ ks.take j, kv.key < (ks.getD j dKV).key := by
  intro kv hkv
  rcases List.mem_iff_getElem.mp hkv with ⟨i, hi, he⟩
  have hij : i < j := by
    rw [List.length_take] at hi
    exact lt_of_lt_of_le hi (min_le_left _ _)
  have hin : i < ks.length := lt_trans hij hj
  simp only [List.getElem_take] at he
  subst he
  have := hs.get_lt hij hj
  rwa [getD_eq _ _ hin] at this

theorem sorted_drop_bound {ks : List KeyVal} (hs : SortedK ks) {j : Nat}
    (hj : j < ks.length) :
    ∀ kv ∈ ks.drop (j + 1), (ks.getD j dKV).key < kv.key := by
  intro kv hkv
  rcases List.mem_iff_getElem.mp hkv with ⟨i, hi, he⟩
  have hin : j + 1 + i < ks.length := by
    rw [List.length_drop] at hi
    omega
  simp only [List.getElem_drop] at he
  subst he
  have := hs.get_lt (show j < j + 1 + i by omega) hin
  rw [getD_eq _ _ hin] at this
  exact this

theorem headD_take {α : Type} (l : List α) (d : α) {j : Nat} (hj : 0 < j) :
    (l.take j).headD d = l.headD d := by
  cases l with
  | nil => simp
  | cons a t =>
    cases j with
    | zero => omega
    | succ j' => simp

theorem headD_drop {α : Type} (l : List α) (d : α) {j : Nat} (hj : j < l.length) :
    (l.drop j).headD d = l.getD j d := by
  rw [drop_cons_self l d hj]
  rfl

theorem height_leaf (ks ps) : (Node.mk true ks ps).height = 1 := by rw [Node.height]

theorem split_wf {S : Nat} {lo hi : Option Nat} {il : Bool} {ks : List KeyVal}
    {ps : List Node}
    (h : WFT S lo hi (2 * S + 1) (.mk il ks ps)) (hlen : ks.length = 2 * S + 1) :
    Node.split S (.mk il ks ps) =
      (.mk il (ks.take S) (if il then ps else ps.take (S + 1)),
        some (ks.getD S dKV,
          .mk il (ks.drop (S + 1)) (if il then [] else ps.drop (S + 1)))) ∧
    WFC S lo (some (ks.getD S dKV).key)
      (.mk il (ks.take S) (if il then ps else ps.take (S + 1))) ∧
    WFC S (some (ks.getD S dKV).key) hi
      (.mk il (ks.drop (S + 1)) (if il then [] else ps.drop (S + 1))) ∧
    loLt lo (ks.getD S dKV).key ∧ hiGt hi (ks.getD S dKV).key ∧
    (ks.take S).length = S ∧ (ks.drop (S + 1)).length = S ∧
    (Node.mk il (ks.take S) (if il then ps else ps.take (S + 1))).height =
      (Node.mk il ks ps).height ∧
    (Node.mk il (ks.drop (S + 1)) (if il then [] else ps.drop (S + 1))).height =
      (Node.mk il ks ps).height ∧
    (Node.mk il (ks.take S) (if il then ps else ps.take (S + 1))).toList ++
      (ks.getD S dKV) ::
        (Node.mk il (ks.drop (S + 1)) (if il then [] else ps.drop (S + 1))).toList =
      (Node.mk il ks ps).toList := by
  obtain ⟨hs, hb, _, hrest⟩ := h
  have hS_lt : S < ks.length := by omega
  have heq := split_overflow S il ks ps hlen
  have hkv_mem : ks.getD S dKV ∈ ks := by
    rw [getD_eq _ _ hS_lt]
    exact List.getElem_mem _
  have hkvb := hb _ hkv_mem
  have hlt_take := sorted_take_bound hs hS_lt
  have hgt_drop := sorted_drop_bound hs hS_lt
  have hlen_take : (ks.take S).length = S := by rw [List.length_take]; omega
  have hlen_drop : (ks.drop (S + 1)).length = S := by rw [List.length_drop]; omega
  have hks_eq : ks.take S ++ (ks.getD S dKV) :: ks.drop (S + 1) = ks := by
    conv_rhs => rw [← List.take_append_drop S ks]
    rw [drop_cons_self ks dKV hS_lt]
  cases il with
  | true =>
    have hps : ps = [] := hrest
    subst hps
    refine ⟨heq, ?_, ?_, hkvb.1, hkvb.2, hlen_take, hlen_drop, ?_, ?_, ?_⟩
    · exact .leaf (hs.sublist (List.take_sublist _ _))
        (fun kv hkv => ⟨(hb kv (List.take_subset _ _ hkv)).1, hlt_take kv hkv⟩)
        (by omega)
    · exact .leaf (hs.sublist (List.drop_sublist _ _))
        (fun kv hkv => ⟨hgt_drop kv hkv, (hb kv (List.drop_subset _ _ hkv)).2⟩)
        (by omega)
    · rw [height_leaf, height_leaf]
    · rw [height_leaf, height_leaf]
    · simpa using hks_eq
  | false =>
    obtain ⟨hp, hm, hh, hcs⟩ := hrest
    have hplen : ps.length = 2 * S + 2 := by omega
    have hS1_lt : S + 1 < ps.length := by omega
    obtain ⟨hcsl, hcsr⟩ := hcs.splitAt S hS_lt
    have hWl : WFC S lo (some (ks.getD S dKV).key)
        (.mk false (ks.take S) (ps.take (S + 1))) := by
      refine .node (hs.sublist (List.take_sublist _ _))
        (fun kv hkv => ⟨(hb kv (List.take_subset _ _ hkv)).1, hlt_take kv hkv⟩)
        (by omega) (by rw [List.length_take, hlen_take]; omega)
        (fun c hc => hm c (List.take_subset _ _ hc)) ?_ hcsl
      intro c hc
      rw [headD_take _ _ (Nat.succ_pos S)]
      exact hh c (List.take_subset _ _ hc)
    have hWr : WFC S (some (ks.getD S dKV).key) hi
        (.mk false (ks.drop (S + 1)) (ps.drop (S + 1))) := by
      refine .node (hs.sublist (List.drop_sublist _ _))
        (fun kv hkv => ⟨hgt_drop kv hkv, (hb kv (List.drop_subset _ _ hkv)).2⟩)
        (by omega) (by rw [List.length_drop, hlen_drop]; omega)
        (fun c hc => hm c (List.drop_subset _ _ hc)) ?_ hcsr
      intro c hc
      rw [headD_drop _ _ hS1_lt]
      have h1 := hh c (List.drop_subset _ _ hc)
      have h2 : ps.getD (S + 1) nilNode ∈ ps := by
        rw [getD_eq _ _ hS1_lt]
        exact List.getElem_mem _
      rw [h1, hh _ h2]
    cases ps with
    | nil => simp at hplen
    | cons c₀ t =>
      refine ⟨heq, hWl, hWr, hkvb.1, hkvb.2, hlen_take, hlen_drop, ?_, ?_, ?_⟩
      · rw [if_neg (by simp), List.take_succ_cons, Node.height_cons, Node.height_cons]
      · rw [if_neg (by simp), drop_cons_self (c₀ :: t) nilNode hS1_lt, Node.height_cons,
          Node.height_cons]
        have h2 : (c₀ :: t).getD (S + 1) nilNode ∈ c₀ :: t := by
          rw [getD_eq _ _ hS1_lt]
          exact List.getElem_mem _
        rw [hh _ h2]
        simp
      · rw [if_neg (by simp), if_neg (by simp), Node.toList_internal, Node.toList_internal,
          Node.toList_internal, interleave_splitAt hp S hS_lt]

/-! ## Association-list semantics of lookup -/

/-- The value bound to `k` in an entry list (first match). -/
def valAt (l : List KeyVal) (k : Nat) : Option Nat :=
  (l.find? (fun kv => kv.key == k)).map (·.value)

theorem valAt_nil (k : Nat) : valAt [] k = none := rfl

theorem valAt_cons_self {kv : KeyVal} {k : Nat} (h : kv.key = k) (t : List KeyVal) :
    valAt (kv :: t) k = some kv.value := by
  rw [valAt, List.find?_cons_of_pos _ (by simpa using h)]
  rfl

theorem valAt_cons_ne {kv : KeyVal} {k : Nat} (h : kv.key ≠ k) (t : List KeyVal) :
    valAt (kv :: t) k = valAt t k := by
  rw [valAt, List.find?_cons_of_neg _ (by simpa using h)]
  rfl

theorem valAt_of_no_match {l : List KeyVal} {k : Nat} (h : ∀ kv ∈ l, kv.key ≠ k) :
    valAt l k = none := by
  rw [valAt, List.find?_eq_none.mpr]
  · rfl
  · intro kv hkv
    simpa using h kv hkv

theorem valAt_append {A B : List KeyVal} {k : Nat} :
    valAt (A ++ B) k = ((A.find? (fun kv => kv.key == k)).map (·.value)).or (valAt B k) := by
  rw [valAt, List.find?_append]
  cases A.find? (fun kv => kv.key == k) with
  | none => rfl
  | some kv => rfl

theorem valAt_append_left_none {A B : List KeyVal} {k : Nat}
    (h : ∀ kv ∈ A, kv.key ≠ k) : valAt (A ++ B) k = valAt B k := by
  rw [valAt_append]
  have : A.find? (fun kv => kv.key == k) = none :=
    List.find?_eq_none.mpr (fun kv hkv => by simpa using h kv hkv)
  rw [this]
  rfl

theorem valAt_append_right_none {A B : List KeyVal} {k : Nat}
    (h : ∀ kv ∈ B, kv.key ≠ k) : valAt (A ++ B) k = valAt A k := by
  rw [valAt_append, valAt_of_no_match h, Option.or_none]
  rfl

/-- On a sorted list, an entry's key is below `k` exactly when its index
is below the rank of `k`. -/
theorem rank_iff {ks : List KeyVal} (hs : SortedK ks) (k : Nat) :
    ∀ j, (hj : j < ks.length) → ((ks.getD j dKV).key < k ↔ j < rankOf ks k) := by
  induction ks with
  | nil => intro j hj; simp at hj
  | cons kv t ih =>
    rcases List.pairwise_cons.mp hs with ⟨hlt, hs'⟩
    by_cases hk : kv.key < k
    · have hr : rankOf (kv :: t) k = rankOf t k + 1 := by
        rw [rankOf, List.countP_cons]
        simp [hk, rankOf]
      intro j hj
      cases j with
      | zero => simpa [hr] using hk
      | succ j' =>
        rw [List.getD_cons_succ, hr]
        have := ih hs' j' (by simpa using hj)
        omega
    · have hr : rankOf (kv :: t) k = 0 := by
        rw [rankOf, List.countP_eq_zero]
        intro x hx
        rcases List.mem_cons.mp hx with rfl | hx'
        · simpa using hk
        · have := hlt x hx'
          simp only [decide_eq_true_eq]
          omega
      intro j hj
      cases j with
      | zero => simp [hr, hk]
      | succ j' =>
        rw [List.getD_cons_succ, hr]
        simp only [Nat.not_lt_zero, iff_false, not_lt]
        have hj' : j' < t.length := by simpa using hj
        have := hlt (t[j']) (List.getElem_mem hj')
        rw [getD_eq _ _ hj']
        omega

theorem rank_key_ge {ks : List KeyVal} (hs : SortedK ks) {k : Nat}
    (hr : rankOf ks k < ks.length) : k ≤ (ks.getD (rankOf ks k) dKV).key := by
  have h1 := rank_iff hs k (rankOf ks k) hr
  have h2 : ¬ ((ks.getD (rankOf ks k) dKV).key < k) :=
    fun hlt => absurd (h1.mp hlt) (lt_irrefl _)
  omega

theorem rank_key_gt {ks : List KeyVal} (hs : SortedK ks) {k : Nat}
    (hh : hasKey ks k = false) (hr : rankOf ks k < ks.length) :
    k < (ks.getD (rankOf ks k) dKV).key := by
  have h1 := rank_key_ge hs hr
  rcases Nat.lt_or_ge k (ks.getD (rankOf ks k) dKV).key with h | h
  · exact h
  · exfalso
    have heq : (ks.getD (rankOf ks k) dKV).key = k := by omega
    have : hasKey ks k = true := hasKey_iff.mpr ⟨rankOf ks k, hr, heq⟩
    rw [this] at hh
    cases hh

theorem rank_key_lt {ks : List KeyVal} (hs : SortedK ks) {k : Nat} {j : Nat}
    (hj : j < rankOf ks k) (hjn : j < ks.length) : (ks.getD j dKV).key < k :=
  (rank_iff hs k j hjn).mpr hj

/-- On a sorted list, `valAt` returns the entry at the rank when the key
is present and `none` otherwise. -/
theorem valAt_sorted {ks : List KeyVal} (hs : SortedK ks) (k : Nat) :
    valAt ks k =
      if hasKey ks k then some ((ks.getD (rankOf ks k) dKV)).value else none := by
  induction ks with
  | nil => simp [valAt_nil, hasKey]
  | cons kv t ih =>
    rcases List.pairwise_cons.mp hs with ⟨hlt, hs'⟩
    rcases Nat.lt_trichotomy kv.key k with hk | hk | hk
    · have hr : rankOf (kv :: t) k = rankOf t k + 1 := by
        rw [rankOf, List.countP_cons]
        simp [hk, rankOf]
      have hhk : hasKey (kv :: t) k = hasKey t k := by
        rw [hasKey, List.any_cons]
        have : (kv.key == k) = false := by simp; omega
        rw [this]
        rfl
      rw [valAt_cons_ne (by omega) t, ih hs', hhk, hr, List.getD_cons_succ]
    · rw [valAt_cons_self hk t]
      have hhk : hasKey (kv :: t) k = true := by
        rw [hasKey, List.any_cons]
        simp [hk]
      have hr : rankOf (kv :: t) k = 0 := by
        rw [rankOf, List.countP_eq_zero]
        intro x hx
        rcases List.mem_cons.mp hx with rfl | hx'
        · simp
          omega
        · have := hlt x hx'
          simp only [decide_eq_true_eq]
          omega
      rw [hhk, if_pos rfl, hr]
      simp
    · have hhk : hasKey (kv :: t) k = false := by
        rw [hasKey, List.any_eq_false]
        intro x hx
        rcases List.mem_cons.mp hx with rfl | hx'
        · simp
          omega
        · have := hlt x hx'
          simp
          omega
      rw [valAt_cons_ne (by omega) t, hhk, if_neg (by simp),
        valAt_of_no_match]
      intro x hx
      have := hlt x hx
      omega

@[simp] theorem loLt_some {x k : Nat} : loLt (some x) k ↔ x < k := Iff.rfl
@[simp] theorem hiGt_some {x k : Nat} : hiGt (some x) k ↔ k < x := Iff.rfl
@[simp] theorem loLt_none (k : Nat) : loLt none k := trivial
@[simp] theorem hiGt_none (k : Nat) : hiGt none k := trivial

/-- `valAt` on the in-order entry sequence restricts to the node's own
entries when the key is present among them, and to the child at the
key's rank otherwise. -/
theorem WFCs.valAt_inter {S : Nat} : ∀ {lo hi ks cs}, WFCs S lo hi ks cs → SortedK ks →
    (∀ kv ∈ ks, loLt lo kv.key ∧ hiGt hi kv.key) → ∀ k, loLt lo k → hiGt hi k →
    (hasKey ks k = true → valAt (interleave ks cs) k = valAt ks k) ∧
    (hasKey ks k = false →
      valAt (interleave ks cs) k = valAt ((cs.getD (rankOf ks k) nilNode).toList) k)
  | _, _, _, _, .single _, _, _, k, _, _ => by
    refine ⟨fun h => ?_, fun _ => ?_⟩
    · rw [hasKey] at h
      simp at h
    · rw [interleave_nil_cons]
      rfl
  | _, _, _, _, @WFCs.cons _ _ _ kv₀ ks₀ c₀ cs₀ hc hcs, hs, hb, k, hlo, hhi => by
    rcases List.pairwise_cons.mp hs with ⟨hlt, hs'⟩
    have hbt : ∀ kv' ∈ ks₀, loLt (some kv₀.key) kv'.key ∧ hiGt _ kv'.key :=
      fun kv' hkv' => ⟨hlt kv' hkv', (hb kv' (List.mem_cons_of_mem _ hkv')).2⟩
    rw [interleave_cons_cons]
    rcases Nat.lt_trichotomy k kv₀.key with hk | hk | hk
    · have hnomatch : ∀ kv' ∈ kv₀ :: interleave ks₀ cs₀, kv'.key ≠ k := by
        intro kv' h'
        rcases List.mem_cons.mp h' with rfl | h''
        · omega
        · have := (WFCs.inter_bdd hcs hs' hbt kv' h'').1
          rw [loLt_some] at this
          omega
      have hA := valAt_append_right_none (A := c₀.toList) (k := k) hnomatch
      have hhk : hasKey (kv₀ :: ks₀) k = false := by
        rw [hasKey, List.any_eq_false]
        intro x hx
        rcases List.mem_cons.mp hx with rfl | hx'
        · simp
          omega
        · have := hlt x hx'
          simp
          omega
      have hrank : rankOf (kv₀ :: ks₀) k = 0 := by
        rw [rankOf, List.countP_eq_zero]
        intro x hx
        rcases List.mem_cons.mp hx with rfl | hx'
        · simp
          omega
        · have := hlt x hx'
          simp
          omega
      refine ⟨fun h => (by rw [hhk] at h; cases h), fun _ => ?_⟩
      rw [hA, hrank]
      rfl
    · have hnoc : ∀ kv' ∈ c₀.toList, kv'.key ≠ k := by
        intro kv' h'
        have := (WFC.toList_bdd hc kv' h').2
        rw [hiGt_some] at this
        omega
      have hhk : hasKey (kv₀ :: ks₀) k = true := by
        rw [hasKey, List.any_cons]
        simp [hk]
      rw [valAt_append_left_none hnoc, valAt_cons_self hk.symm, valAt_cons_self hk.symm]
      exact ⟨fun _ => rfl, fun h => by rw [hhk] at h; cases h⟩
    · have hnoc : ∀ kv' ∈ c₀.toList, kv'.key ≠ k := by
        intro kv' h'
        have := (WFC.toList_bdd hc kv' h').2
        rw [hiGt_some] at this
        omega
      rw [valAt_append_left_none hnoc, valAt_cons_ne (by omega), valAt_cons_ne (by omega)]
      have hrec := WFCs.valAt_inter hcs hs' hbt k (loLt_some.mpr hk) hhi
      have hhk : hasKey (kv₀ :: ks₀) k = hasKey ks₀ k := by
        rw [hasKey, hasKey, List.any_cons]
        have : (kv₀.key == k) = false := by simp; omega
        rw [this, Bool.false_or]
      have hrank : rankOf (kv₀ :: ks₀) k = rankOf ks₀ k + 1 := by
        rw [rankOf, List.countP_cons]
        simp [hk, rankOf]
      constructor
      · intro h
        rw [hhk] at h
        exact hrec.1 h
      · intro h
        rw [hhk] at h
        rw [hrank, List.getD_cons_succ]
        exact hrec.2 h

theorem Node.lookup_unfold_ok {il : Bool} {ks : List KeyVal} {ps : List Node}
    {k i : Nat} (h : find_index ks k = .ok i) :
    Node.lookup (.mk il ks ps) k = some (ks.getD i dKV).value := by
  rw [Node.lookup, h]

theorem Node.lookup_unfold_err_leaf {ks : List KeyVal} {ps : List Node}
    {k i : Nat} (h : find_index ks k = .error i) :
    Node.lookup (.mk true ks ps) k = none := by
  rw [Node.lookup, h]
  rfl

theorem Node.lookup_unfold_err_node {ks : List KeyVal} {ps : List Node}
    {k i : Nat} {c : Node} (h : find_index ks k = .error i) (hc : ps[i]? = some c) :
    Node.lookup (.mk false ks ps) k = c.lookup k := by
  rw [Node.lookup, h]
  simp only [Bool.false_eq_true, if_false]
  split
  · next c' hc' =>
    rw [hc] at hc'
    cases hc'
    rfl
  · next hc' =>
    rw [hc] at hc'
    cases hc'

/-- `Node::lookup` computes the association-list lookup on the in-order
entry sequence. -/
theorem WFC.lookup_eq {S : Nat} : ∀ {lo hi n}, WFC S lo hi n →
    ∀ k, loLt lo k → hiGt hi k → n.lookup k = valAt n.toList k
  | _, _, _, .leaf hs hb _, k, hlo, hhi => by
    rw [Node.toList_leaf, valAt_sorted hs]
    cases hhk : hasKey _ k with
    | true =>
      rw [Node.lookup_unfold_ok (by rw [find_index_eq hs, hhk]; rfl), if_pos rfl]
    | false =>
      rw [Node.lookup_unfold_err_leaf (by rw [find_index_eq hs, hhk]; rfl), if_neg (by simp)]
  | _, _, _, @WFC.node _ lo hi ks ps hs hb hl hp hm hh hcs, k, hlo, hhi => by
    rw [Node.toList_internal]
    have hval := WFCs.valAt_inter hcs hs hb k hlo hhi
    cases hhk : hasKey ks k with
    | true =>
      rw [Node.lookup_unfold_ok (by rw [find_index_eq hs, hhk]; rfl), hval.1 hhk,
        valAt_sorted hs, hhk, if_pos rfl]
    | false =>
      have hrle : rankOf ks k ≤ ks.length := rankOf_le_length ks k
      have hrlt : rankOf ks k < ps.length := by omega
      have hget : ps[rankOf ks k]? = some (ps.getD (rankOf ks k) nilNode) := by
        rw [getD_eq _ _ hrlt]
        exact List.getElem?_eq_getElem hrlt
      have hwlo : loLt (winLo lo ks (rankOf ks k)) k := by
        rw [winLo]
        by_cases h0 : rankOf ks k = 0
        · rw [if_pos h0]
          exact hlo
        · rw [if_neg h0, loLt_some]
          exact rank_key_lt hs (by omega) (by omega)
      have hwhi : hiGt (winHi hi ks (rankOf ks k)) k := by
        rw [winHi]
        by_cases h0 : rankOf ks k = ks.length
        · rw [if_pos h0]
          exact hhi
        · rw [if_neg h0, hiGt_some]
          exact rank_key_gt hs hhk (by omega)
      have hrec := WFC.lookup_eq (hcs.get (rankOf ks k) hrle) k hwlo hwhi
      rw [Node.lookup_unfold_err_node (by rw [find_index_eq hs, hhk]; rfl) hget,
        hval.2 hhk, hrec]
  termination_by lo hi n _ => sizeOf n
  decreasing_by
    rw [getD_eq _ _ hrlt]
    exact Node.sizeOf_lt_of_mem (List.getElem_mem _)

/-! ## Sorted association-list update model -/

/-- Insert-or-update of key `k` with value `v` in a sorted entry list. -/
def updList : List KeyVal → Nat → Nat → List KeyVal
  | [], k, v => [⟨k, v⟩]
  | kv :: t, k, v =>
    if kv.key < k then kv :: updList t k v
    else if kv.key = k then ⟨k, v⟩ :: t
    else ⟨k, v⟩ :: kv :: t

theorem updList_append_left {A M : List KeyVal} {k v : Nat}
    (h : ∀ a ∈ A, a.key < k) : updList (A ++ M) k v = A ++ updList M k v := by
  induction A with
  | nil => rfl
  | cons a t ih =>
    have ha := h a (List.mem_cons_self _ _)
    rw [List.cons_append, updList, if_pos ha, ih (fun x hx => h x (List.mem_cons_of_mem _ hx))]
    rfl

theorem updList_all_gt {B : List KeyVal} {k v : Nat}
    (h : ∀ b ∈ B, k < b.key) : updList B k v = ⟨k, v⟩ :: B := by
  cases B with
  | nil => rfl
  | cons b t =>
    have hb := h b (List.mem_cons_self _ _)
    rw [updList, if_neg (by omega), if_neg (by omega)]

theorem updList_append_right {M B : List KeyVal} {k v : Nat}
    (h : ∀ b ∈ B, k < b.key) : updList (M ++ B) k v = updList M k v ++ B := by
  induction M with
  | nil => simpa using updList_all_gt h
  | cons m t ih =>
    rcases Nat.lt_trichotomy m.key k with hm | hm | hm
    · rw [List.cons_append, updList, if_pos hm, updList, if_pos hm, ih]
      rfl
    · rw [List.cons_append, updList, if_neg (by omega), if_pos hm, updList,
        if_neg (by omega), if_pos hm]
      rfl
    · rw [List.cons_append, updList, if_neg (by omega), if_neg (by omega), updList,
        if_neg (by omega), if_neg (by omega)]
      rfl

theorem valAt_updList_self (l : List KeyVal) (k v : Nat) :
    valAt (updList l k v) k = some v := by
  induction l with
  | nil => exact valAt_cons_self rfl _
  | cons kv t ih =>
    rcases Nat.lt_trichotomy kv.key k with hm | hm | hm
    · rw [updList, if_pos hm, valAt_cons_ne (by omega)]
      exact ih
    · rw [updList, if_neg (by omega), if_pos hm]
      exact valAt_cons_self rfl _
    · rw [updList, if_neg (by omega), if_neg (by omega)]
      exact valAt_cons_self rfl _

theorem valAt_updList_ne (l : List KeyVal) {k k' : Nat} (v : Nat) (h : k' ≠ k) :
    valAt (updList l k v) k' = valAt l k' := by
  induction l with
  | nil => exact valAt_cons_ne (by simpa using fun he => h he.symm) _
  | cons kv t ih =>
    rcases Nat.lt_trichotomy kv.key k with hm | hm | hm
    · rw [updList, if_pos hm]
      by_cases he : kv.key = k'
      · rw [valAt_cons_self he, valAt_cons_self he]
      · rw [valAt_cons_ne he, valAt_cons_ne he, ih]
    · rw [updList, if_neg (by omega), if_pos hm, valAt_cons_ne (by simp; omega),
        valAt_cons_ne (by omega)]
    · rw [updList, if_neg (by omega), if_neg (by omega),
        valAt_cons_ne (by simp; omega)]

theorem updList_sorted {l : List KeyVal} (hs : SortedK l) (k v : Nat) :
    SortedK (updList l k v) := by
  induction l with
  | nil => simp [updList, SortedK]
  | cons kv t ih =>
    rcases List.pairwise_cons.mp hs with ⟨hlt, hs'⟩
    rcases Nat.lt_trichotomy kv.key k with hm | hm | hm
    · rw [updList, if_pos hm]
      rw [SortedK, List.pairwise_cons]
      refine ⟨?_, ih hs'⟩
      intro b hb
      have : b ∈ t ∨ b.key = k := by
        clear hlt ih hs hs'
        induction t with
        | nil =>
          rcases List.mem_singleton.mp hb with rfl
          right
          rfl
        | cons x xs ihh =>
          rw [updList] at hb
          split at hb
          · rcases List.mem_cons.mp hb with rfl | hb'
            · exact Or.inl (List.mem_cons_self _ _)
            · rcases ihh hb' with h1 | h1
              · exact Or.inl (List.mem_cons_of_mem _ h1)
              · exact Or.inr h1
          · split at hb
            · rcases List.mem_cons.mp hb with rfl | hb'
              · right
                rfl
              · exact Or.inl (List.mem_cons_of_mem _ hb')
            · rcases List.mem_cons.mp hb with rfl | hb'
              · right
                rfl
              · exact Or.inl hb'
      rcases this with h1 | h1
      · exact hlt b h1
      · omega
    · rw [updList, if_neg (by omega), if_pos hm]
      rw [SortedK, List.pairwise_cons]
      exact ⟨fun b hb => by have := hlt b hb; simp; omega, hs'⟩
    · rw [updList, if_neg (by omega), if_neg (by omega)]
      rw [SortedK, List.pairwise_cons]
      refine ⟨?_, hs⟩
      intro b hb
      rcases List.mem_cons.mp hb with rfl | hb'
      · simpa using hm
      · have := hlt b hb'
        simp
        omega

theorem updList_mem {l : List KeyVal} {k v : Nat} {x : KeyVal}
    (h : x ∈ updList l k v) : x ∈ l ∨ x = ⟨k, v⟩ := by
  induction l with
  | nil => simpa [updList] using h
  | cons kv t ih =>
    rw [updList] at h
    split at h
    · rcases List.mem_cons.mp h with rfl | h'
      · exact Or.inl (List.mem_cons_self _ _)
      · rcases ih h' with h1 | h1
        · exact Or.inl (List.mem_cons_of_mem _ h1)
        · exact Or.inr h1
    · split at h
      · rcases List.mem_cons.mp h with rfl | h'
        · exact Or.inr rfl
        · exact Or.inl (List.mem_cons_of_mem _ h')
      · rcases List.mem_cons.mp h with rfl | h'
        · exact Or.inr rfl
        · exact Or.inl h'

theorem updList_length {l : List KeyVal} (hs : SortedK l) (k v : Nat) :
    (updList l k v).length = if hasKey l k then l.length else l.length + 1 := by
  induction l with
  | nil => simp [updList, hasKey]
  | cons kv t ih =>
    rcases List.pairwise_cons.mp hs with ⟨hlt, hs'⟩
    rcases Nat.lt_trichotomy kv.key k with hm | hm | hm
    · have hhk : hasKey (kv :: t) k = hasKey t k := by
        rw [hasKey, hasKey, List.any_cons]
        have : (kv.key == k) = false := by simp; omega
        rw [this, Bool.false_or]
      rw [updList, if_pos hm, List.length_cons, ih hs', hhk]
      by_cases h : hasKey t k
      · rw [if_pos h, if_pos h]
        simp
      · rw [if_neg h, if_neg h]
        simp
    · have hhk : hasKey (kv :: t) k = true := by
        rw [hasKey, List.any_cons]
        simp [hm]
      rw [updList, if_neg (by omega), if_pos hm, hhk, if_pos rfl]
      simp
    · have hhk : hasKey (kv :: t) k = false := by
        rw [hasKey, List.any_eq_false]
        intro x hx
        rcases List.mem_cons.mp hx with rfl | hx'
        · simp
          omega
        · have := hlt x hx'
          simp
          omega
      rw [updList, if_neg (by omega), if_neg (by omega), hhk, if_neg (by simp)]
      rfl

/-! ## In-order decomposition around a child slot -/

theorem take_set_eq {α : Type} : ∀ (l : List α) (r : Nat) (x : α),
    (l.set r x).take r = l.take r
  | [], _, _ => by simp
  | _ :: _, 0, _ => by simp
  | a :: t, r + 1, x => by
    rw [List.set_cons_succ, List.take_succ_cons, List.take_succ_cons, take_set_eq t r x]

theorem drop_succ_set {α : Type} : ∀ (l : List α) (r : Nat) (x : α),
    (l.set r x).drop (r + 1) = l.drop (r + 1)
  | [], _, _ => by simp
  | _ :: _, 0, _ => by simp
  | a :: t, r + 1, x => by
    rw [List.set_cons_succ, List.drop_succ_cons, List.drop_succ_cons, drop_succ_set t r x]

theorem drop_set_cons {α : Type} : ∀ (l : List α) (r : Nat) (x : α), r < l.length →
    (l.set r x).drop r = x :: l.drop (r + 1)
  | [], _, _, h => by simp at h
  | _ :: _, 0, _, _ => by simp
  | a :: t, r + 1, x, h => by
    rw [List.set_cons_succ, List.drop_succ_cons, List.drop_succ_cons,
      drop_set_cons t r x (by simpa using h)]

theorem take_insertIdx_le {α : Type} : ∀ (l : List α) (n i : Nat) (x : α), i ≤ n →
    (l.insertIdx n x).take i = l.take i
  | _, _, 0, _, _ => by simp
  | [], 0, i + 1, x, h => by omega
  | [], n + 1, i + 1, _, _ => by simp
  | a :: t, 0, i + 1, x, h => by omega
  | a :: t, n + 1, i + 1, x, h => by
    rw [List.insertIdx_succ_cons, List.take_succ_cons, List.take_succ_cons,
      take_insertIdx_le t n i x (by omega)]

theorem drop_insertIdx_self {α : Type} : ∀ (l : List α) (n : Nat) (x : α), n ≤ l.length →
    (l.insertIdx n x).drop n = x :: l.drop n
  | _, 0, _, _ => by simp
  | [], n + 1, _, h => by simp at h
  | a :: t, n + 1, x, h => by
    rw [List.insertIdx_succ_cons, List.drop_succ_cons, List.drop_succ_cons,
      drop_insertIdx_self t n x (by simpa using h)]

theorem getD_set_self {α : Type} (l : List α) (r : Nat) (x d : α) (h : r < l.length) :
    (l.set r x).getD r d = x := by
  rw [getD_eq _ _ (by simpa using h)]
  exact List.getElem_set_self _

theorem getD_insertIdx_lt {α : Type} : ∀ (l : List α) (n i : Nat) (x d : α), i < n →
    (l.insertIdx n x).getD i d = l.getD i d
  | [], n, i, x, d, h => by
    cases n with
    | zero => omega
    | succ n' => simp
  | a :: t, n + 1, 0, x, d, h => by simp
  | a :: t, n + 1, i + 1, x, d, h => by
    rw [List.insertIdx_succ_cons, List.getD_cons_succ, List.getD_cons_succ,
      getD_insertIdx_lt t n i x d (by omega)]

/-- The in-order entries strictly before child slot `i`. -/
def segsTo (ks : List KeyVal) (cs : List Node) (i : Nat) : List KeyVal :=
  ((cs.take i).zip (ks.take i)).flatMap (fun p => p.1.toList ++ [p.2])

/-- The in-order entries strictly after child slot `i`. -/
def tailSeg (ks : List KeyVal) (cs : List Node) (i : Nat) : List KeyVal :=
  match ks.drop i with
  | [] => []
  | kv :: _ => kv :: interleave (ks.drop (i + 1)) (cs.drop (i + 1))

@[simp] theorem segsTo_zero (ks : List KeyVal) (cs : List Node) : segsTo ks cs 0 = [] := by
  simp [segsTo]

theorem segsTo_succ_cons (kv₀ : KeyVal) (ks : List KeyVal) (c₀ : Node) (cs : List Node)
    (r : Nat) :
    segsTo (kv₀ :: ks) (c₀ :: cs) (r + 1) = (c₀.toList ++ [kv₀]) ++ segsTo ks cs r := by
  simp [segsTo]

theorem tailSeg_succ_cons (kv₀ : KeyVal) (ks : List KeyVal) (c₀ : Node) (cs : List Node)
    (r : Nat) :
    tailSeg (kv₀ :: ks) (c₀ :: cs) (r + 1) = tailSeg ks cs r := by
  simp only [tailSeg, List.drop_succ_cons]

theorem tailSeg_zero_cons (kv₀ : KeyVal) (ks : List KeyVal) (cs : List Node) :
    tailSeg (kv₀ :: ks) cs 0 = kv₀ :: interleave ks (cs.drop 1) := by
  simp [tailSeg]

theorem tailSeg_zero_nil (cs : List Node) : tailSeg [] cs 0 = [] := by
  simp [tailSeg]

theorem tailSeg_len (ks : List KeyVal) (cs : List Node) : tailSeg ks cs ks.length = [] := by
  rw [tailSeg]
  simp

/-- Decomposition of the in-order sequence around child slot `r`. -/
theorem interleave_decomp : ∀ {ks : List KeyVal} {cs : List Node},
    cs.length = ks.length + 1 → ∀ r, r ≤ ks.length →
    interleave ks cs = segsTo ks cs r ++ (cs.getD r nilNode).toList ++ tailSeg ks cs r := by
  intro ks
  induction ks with
  | nil =>
    intro cs hlen r hr
    have hr0 : r = 0 := by simpa using hr
    subst hr0
    cases cs with
    | nil => simp at hlen
    | cons c cs' =>
      have : cs' = [] := by simpa using hlen
      subst this
      simp [tailSeg_zero_nil]
  | cons kv₀ ks₀ ih =>
    intro cs hlen r hr
    cases cs with
    | nil => simp at hlen
    | cons c₀ cs₀ =>
      cases r with
      | zero =>
        rw [segsTo_zero, tailSeg_zero_cons, interleave_cons_cons]
        simp
      | succ r' =>
        rw [segsTo_succ_cons, tailSeg_succ_cons, interleave_cons_cons,
          ih (by simpa using hlen) r' (by simpa using hr)]
        simp

theorem take_set_of_le {α : Type} : ∀ (l : List α) {i n : Nat} (x : α), i ≤ n →
    (l.set n x).take i = l.take i
  | [], _, _, _, _ => by simp
  | _ :: _, 0, _, _, _ => by simp
  | a :: t, i + 1, 0, x, h => by omega
  | a :: t, i + 1, n + 1, x, h => by
    rw [List.set_cons_succ, List.take_succ_cons, List.take_succ_cons,
      take_set_of_le t x (by omega)]

theorem drop_succ_insertIdx {α : Type} : ∀ (l : List α) (n : Nat) (x : α), n ≤ l.length →
    (l.insertIdx n x).drop (n + 1) = l.drop n
  | _, 0, _, _ => by simp
  | [], n + 1, _, h => by simp at h
  | a :: t, n + 1, x, h => by
    rw [List.insertIdx_succ_cons, List.drop_succ_cons, List.drop_succ_cons,
      drop_succ_insertIdx t n x (by simpa using h)]

theorem drop_of_drop_cons {α : Type} {l : List α} {n : Nat} {a : α} {t : List α}
    (h : l.drop n = a :: t) : l.drop (n + 1) = t := by
  have h2 := congrArg (List.drop 1) h
  rw [List.drop_drop] at h2
  simpa [Nat.add_comm] using h2

theorem segsTo_congr {ks₁ ks₂ : List KeyVal} {cs₁ cs₂ : List Node} {r : Nat}
    (h1 : ks₁.take r = ks₂.take r) (h2 : cs₁.take r = cs₂.take r) :
    segsTo ks₁ cs₁ r = segsTo ks₂ cs₂ r := by
  rw [segsTo, segsTo, h1, h2]

theorem tailSeg_set_child (ks : List KeyVal) (cs : List Node) (r : Nat) (x : Node) :
    tailSeg ks (cs.set r x) r = tailSeg ks cs r := by
  rw [tailSeg, tailSeg, drop_succ_set]

theorem tailSeg_eq_cons {ks : List KeyVal} (cs : List Node) {r : Nat}
    (hr : r < ks.length) :
    tailSeg ks cs r =
      ks.getD r dKV :: interleave (ks.drop (r + 1)) (cs.drop (r + 1)) := by
  rw [tailSeg, drop_cons_self ks dKV hr]

theorem winLo_key_lt {kv₀ : KeyVal} {ks₀ : List KeyVal} (hlt : ∀ a ∈ ks₀, kv₀.key < a.key)
    {r : Nat} (hr : r ≤ ks₀.length) {k : Nat}
    (h : loLt (winLo (some kv₀.key) ks₀ r) k) : kv₀.key < k := by
  cases r with
  | zero => exact h
  | succ r' =>
    rw [winLo, if_neg (by omega), loLt_some] at h
    simp only [Nat.add_sub_cancel] at h
    have hmem : ks₀.getD r' dKV ∈ ks₀ := by
      rw [getD_eq _ _ (by omega)]
      exact List.getElem_mem _
    have := hlt _ hmem
    omega

theorem segsTo_bound {S : Nat} : ∀ {lo hi ks cs}, WFCs S lo hi ks cs → SortedK ks →
    ∀ r, r ≤ ks.length → ∀ kv' ∈ segsTo ks cs r, ∀ k, loLt (winLo lo ks r) k → kv'.key < k
  | _, _, _, _, .single _, _, r, hr => by
    have : r = 0 := by simpa using hr
    subst this
    simp
  | _, _, _, _, @WFCs.cons _ _ _ kv₀ ks₀ c₀ cs₀ hc hcs, hs, 0, _ => by simp
  | _, _, _, _, @WFCs.cons _ _ _ kv₀ ks₀ c₀ cs₀ hc hcs, hs, r + 1, hr => by
    rcases List.pairwise_cons.mp hs with ⟨hlt, hs'⟩
    intro kv' hkv' k hk
    rw [winLo_cons] at hk
    have hk0 : kv₀.key < k := winLo_key_lt hlt (by simpa using hr) hk
    rw [segsTo_succ_cons, List.append_assoc, List.mem_append] at hkv'
    rcases hkv' with h' | h'
    · have := (WFC.toList_bdd hc kv' h').2
      rw [hiGt_some] at this
      omega
    · rcases List.mem_cons.mp h' with rfl | h''
      · exact hk0
      · exact segsTo_bound hcs hs' r (by simpa using hr) kv' h'' k hk

theorem tailSeg_bound {S : Nat} : ∀ {lo hi ks cs}, WFCs S lo hi ks cs → SortedK ks →
    (∀ kv ∈ ks, loLt lo kv.key ∧ hiGt hi kv.key) →
    ∀ r, r ≤ ks.length → ∀ kv' ∈ tailSeg ks cs r, ∀ k, hiGt (winHi hi ks r) k → k < kv'.key
  | _, _, _, _, .single _, _, _, r, hr => by
    have : r = 0 := by simpa using hr
    subst this
    simp [tailSeg_zero_nil]
  | _, _, _, _, @WFCs.cons _ _ _ kv₀ ks₀ c₀ cs₀ hc hcs, hs, hb, 0, _ => by
    rcases List.pairwise_cons.mp hs with ⟨hlt, hs'⟩
    have hbt : ∀ kv' ∈ ks₀, loLt (some kv₀.key) kv'.key ∧ hiGt _ kv'.key :=
      fun kv' hkv' => ⟨hlt kv' hkv', (hb kv' (List.mem_cons_of_mem _ hkv')).2⟩
    intro kv' hkv' k hk
    rw [winHi_zero_cons, hiGt_some] at hk
    rw [tailSeg_zero_cons, List.drop_succ_cons, List.drop_zero] at hkv'
    rcases List.mem_cons.mp hkv' with rfl | h''
    · exact hk
    · have := (WFCs.inter_bdd hcs hs' hbt kv' h'').1
      rw [loLt_some] at this
      omega
  | _, _, _, _, @WFCs.cons _ _ _ kv₀ ks₀ c₀ cs₀ hc hcs, hs, hb, r + 1, hr => by
    rcases List.pairwise_cons.mp hs with ⟨hlt, hs'⟩
    have hbt : ∀ kv' ∈ ks₀, loLt (some kv₀.key) kv'.key ∧ hiGt _ kv'.key :=
      fun kv' hkv' => ⟨hlt kv' hkv', (hb kv' (List.mem_cons_of_mem _ hkv')).2⟩
    intro kv' hkv' k hk
    rw [winHi_cons] at hk
    rw [tailSeg_succ_cons] at hkv'
    exact tailSeg_bound hcs hs' hbt r (by simpa using hr) kv' hkv' k hk

/-- Updating key `k` in the in-order sequence only touches the middle
block of the decomposition at `k`'s slot. -/
theorem interleave_splice {S : Nat} {lo hi : Option Nat} {ks : List KeyVal}
    {cs : List Node} (h : WFCs S lo hi ks cs) (hs : SortedK ks)
    (hb : ∀ kv ∈ ks, loLt lo kv.key ∧ hiGt hi kv.key) {r : Nat} (hr : r ≤ ks.length)
    {k : Nat} (hklo : loLt (winLo lo ks r) k) (hkhi : hiGt (winHi hi ks r) k) (v : Nat) :
    updList (interleave ks cs) k v =
      segsTo ks cs r ++ (updList ((cs.getD r nilNode).toList) k v ++ tailSeg ks cs r) := by
  rw [interleave_decomp h.len r hr, List.append_assoc,
    updList_append_left (fun a ha => segsTo_bound h hs r hr a ha k hklo),
    updList_append_right (fun b hb' => tailSeg_bound h hs hb r hr b hb' k hkhi)]

theorem tailSeg_set_sep {ks : List KeyVal} (cs : List Node) {r : Nat} (kv' : KeyVal)
    (hr : r < ks.length) :
    tailSeg (ks.set r kv') cs r =
      kv' :: interleave (ks.drop (r + 1)) (cs.drop (r + 1)) := by
  rw [tailSeg, drop_set_cons ks r kv' hr, drop_succ_set]

theorem interleave_drop_cons (ks : List KeyVal) (cs : List Node) (r : Nat) (nn : Node) :
    interleave (ks.drop r) (nn :: cs.drop (r + 1)) = nn.toList ++ tailSeg ks cs r := by
  cases hd : ks.drop r with
  | nil =>
    rw [interleave_nil_cons, tailSeg, hd]
    simp
  | cons kvr t =>
    rw [interleave_cons_cons, tailSeg, hd, drop_of_drop_cons hd]

/-- In-order sequence after replacing child `r` only. -/
theorem interleave_set_child {ks : List KeyVal} {cs : List Node}
    (hlen : cs.length = ks.length + 1) {r : Nat} (hr : r ≤ ks.length) (c' : Node) :
    interleave ks (cs.set r c') = segsTo ks cs r ++ (c'.toList ++ tailSeg ks cs r) := by
  rw [interleave_decomp (by rw [List.length_set]; exact hlen) r hr,
    segsTo_congr rfl (take_set_of_le cs c' le_rfl),
    getD_set_self cs r c' nilNode (by omega), tailSeg_set_child, List.append_assoc]

/-- In-order sequence after replacing separator `r` and child `r`. -/
theorem interleave_set_sep_child {ks : List KeyVal} {cs : List Node}
    (hlen : cs.length = ks.length + 1) {r : Nat} (hr : r < ks.length)
    (kv' : KeyVal) (c' : Node) :
    interleave (ks.set r kv') (cs.set r c') =
      segsTo ks cs r ++
        (c'.toList ++ kv' :: interleave (ks.drop (r + 1)) (cs.drop (r + 1))) := by
  rw [interleave_decomp (by rw [List.length_set, List.length_set]; exact hlen) r
      (by rw [List.length_set]; omega),
    segsTo_congr (take_set_eq ks r kv') (take_set_of_le cs c' le_rfl),
    getD_set_self cs r c' nilNode (by omega), tailSeg_set_child,
    tailSeg_set_sep cs kv' hr, List.append_assoc]

/-- In-order sequence after replacing separator `r` and child `r + 1`. -/
theorem interleave_set_sep_childR {ks : List KeyVal} {cs : List Node}
    (hlen : cs.length = ks.length + 1) {r : Nat} (hr : r < ks.length)
    (kv' : KeyVal) (c₁' : Node) :
    interleave (ks.set r kv') (cs.set (r + 1) c₁') =
      segsTo ks cs r ++
        ((cs.getD r nilNode).toList ++ kv' ::
          (c₁'.toList ++ tailSeg ks cs (r + 1))) := by
  rw [interleave_decomp (by rw [List.length_set, List.length_set]; exact hlen) r
      (by rw [List.length_set]; omega),
    segsTo_congr (take_set_eq ks r kv') (take_set_of_le cs c₁' (by omega)),
    getD_eq _ _ (by rw [List.length_set]; omega)]
  rw [List.getElem_set_ne (by omega), ← getD_eq cs nilNode (by omega)]
  rw [tailSeg, drop_set_cons ks r kv' hr, drop_succ_set,
    drop_set_cons cs (r + 1) c₁' (by omega), interleave_drop_cons, List.append_assoc]

/-- In-order sequence after a child split: child `r` replaced by `c'`,
separator `kv` and node `nn` inserted after it. -/
theorem interleave_insert_child {ks : List KeyVal} {cs : List Node}
    (hlen : cs.length = ks.length + 1) {r : Nat} (hr : r ≤ ks.length)
    (kv : KeyVal) (c' nn : Node) :
    interleave (ks.insertIdx r kv) ((cs.set r c').insertIdx (r + 1) nn) =
      segsTo ks cs r ++ (c'.toList ++ kv :: (nn.toList ++ tailSeg ks cs r)) := by
  have hcs_len : r + 1 ≤ (cs.set r c').length := by rw [List.length_set]; omega
  have hlen1 : ((cs.set r c').insertIdx (r + 1) nn).length =
      (ks.insertIdx r kv).length + 1 := by
    rw [List.length_insertIdx _ _ hcs_len, List.length_insertIdx _ _ hr, List.length_set,
      hlen]
  have hr1 : r ≤ (ks.insertIdx r kv).length := by
    rw [List.length_insertIdx _ _ hr]
    omega
  rw [interleave_decomp hlen1 r hr1,
    segsTo_congr (take_insertIdx_le ks r r kv le_rfl)
      ((take_insertIdx_le _ (r + 1) r nn (by omega)).trans (take_set_of_le cs c' le_rfl)),
    getD_insertIdx_lt _ (r + 1) r nn nilNode (by omega),
    getD_set_self cs r c' nilNode (by omega)]
  rw [tailSeg, drop_insertIdx_self ks r kv hr, drop_succ_insertIdx ks r kv hr,
    drop_insertIdx_self (cs.set r c') (r + 1) nn hcs_len, drop_succ_set,
    interleave_drop_cons, List.append_assoc]

theorem hasKey_rank {ks : List KeyVal} (hs : SortedK ks) {k : Nat}
    (hh : hasKey ks k = true) :
    rankOf ks k < ks.length ∧ (ks.getD (rankOf ks k) dKV).key = k := by
  rcases hasKey_iff.mp hh with ⟨j, hj, he⟩
  have h2 := rank_iff hs k j hj
  have hge : rankOf ks k ≤ j := by
    rcases Nat.lt_or_ge j (rankOf ks k) with hc | hc
    · have := h2.mpr hc
      omega
    · exact hc
  rcases Nat.eq_or_lt_of_le hge with heq | hlt
  · exact ⟨by omega, by rw [← heq] at he; exact he⟩
  · exfalso
    have hrn : rankOf ks k < ks.length := by omega
    have := hs.get_lt hlt hj
    have h3 := rank_iff hs k (rankOf ks k) hrn
    omega

theorem sorted_set_value {ks : List KeyVal} (hs : SortedK ks) {r : Nat}
    (hr : r < ks.length) {kv' : KeyVal} (hkey : kv'.key = (ks.getD r dKV).key) :
    SortedK (ks.set r kv') := by
  rw [getD_eq _ _ hr] at hkey
  rw [SortedK, List.pairwise_iff_getElem] at hs ⊢
  intro i j hi hj hij
  simp only [List.length_set] at hi hj
  rw [List.getElem_set, List.getElem_set]
  by_cases hir : r = i
  · subst hir
    rw [if_pos rfl, if_neg (by omega)]
    have := hs r j hi hj hij
    omega
  · rw [if_neg hir]
    by_cases hjr : r = j
    · subst hjr
      rw [if_pos rfl]
      have := hs i r hi hj hij
      omega
    · rw [if_neg hjr]
      exact hs i j hi hj hij

theorem WFCs.setSep {S : Nat} : ∀ {lo hi ks cs}, WFCs S lo hi ks cs →
    ∀ r (kv' : KeyVal), r < ks.length → kv'.key = (ks.getD r dKV).key →
    WFCs S lo hi (ks.set r kv') cs
  | _, _, _, _, .single _, r, _, hr, _ => by simp at hr
  | _, _, _, _, @WFCs.cons _ _ _ kv₀ ks₀ c₀ cs₀ hc hcs, 0, kv', _, hkey => by
    simp only [List.getD_cons_zero] at hkey
    rw [List.set_cons_zero]
    exact .cons (by rw [hkey]; exact hc) (by rw [hkey]; exact hcs)
  | _, _, _, _, .cons hc hcs, r + 1, kv', hr, hkey => by
    rw [List.set_cons_succ]
    exact .cons hc (WFCs.setSep hcs r kv' (by simpa using hr)
      (by simpa using hkey))

theorem sorted_insert_win {lo hi : Option Nat} : ∀ {ks : List KeyVal} {r : Nat}
    {kv : KeyVal}, SortedK ks → r ≤ ks.length →
    loLt (winLo lo ks r) kv.key → hiGt (winHi hi ks r) kv.key →
    SortedK (ks.insertIdx r kv)
  | [], 0, kv, _, _, _, _ => by simp [SortedK]
  | [], r + 1, kv, _, hr, _, _ => by simp at hr
  | kv₀ :: ks₀, 0, kv, hs, _, _, h2 => by
    rw [winHi_zero_cons, hiGt_some] at h2
    rw [List.insertIdx_zero, SortedK, List.pairwise_cons]
    refine ⟨?_, hs⟩
    intro b hb
    rcases List.mem_cons.mp hb with rfl | hb'
    · exact h2
    · have := (List.pairwise_cons.mp hs).1 b hb'
      omega
  | kv₀ :: ks₀, r + 1, kv, hs, hr, h1, h2 => by
    rcases List.pairwise_cons.mp hs with ⟨hlt, hs'⟩
    rw [winLo_cons] at h1
    rw [winHi_cons] at h2
    rw [List.insertIdx_succ_cons, SortedK, List.pairwise_cons]
    constructor
    · intro b hb
      rcases (List.mem_insertIdx (by simpa using hr)).mp hb with rfl | hb'
      · exact winLo_key_lt hlt (by simpa using hr) h1
      · exact hlt b hb'
    · exact sorted_insert_win hs' (by simpa using hr) h1 h2

theorem updList_insert {ks : List KeyVal} (hs : SortedK ks) {k : Nat}
    (hh : hasKey ks k = false) (v : Nat) :
    ks.insertIdx (rankOf ks k) ⟨k, v⟩ = updList ks k v := by
  induction ks with
  | nil => rfl
  | cons kv₀ t ih =>
    rcases List.pairwise_cons.mp hs with ⟨hlt, hs'⟩
    rcases Nat.lt_trichotomy kv₀.key k with hm | hm | hm
    · have hr : rankOf (kv₀ :: t) k = rankOf t k + 1 := by
        rw [rankOf, List.countP_cons]
        simp [hm, rankOf]
      have hht : hasKey t k = false := by
        rw [hasKey, List.any_cons] at hh
        rcases Bool.or_eq_false_iff.mp hh with ⟨_, h⟩
        exact h
      rw [hr, List.insertIdx_succ_cons, updList, if_pos hm, ih hs' hht]
    · exfalso
      rw [hasKey, List.any_cons] at hh
      rcases Bool.or_eq_false_iff.mp hh with ⟨h, _⟩
      simp [hm] at h
    · have hr : rankOf (kv₀ :: t) k = 0 := by
        rw [rankOf, List.countP_eq_zero]
        intro x hx
        rcases List.mem_cons.mp hx with rfl | hx'
        · simp
          omega
        · have := hlt x hx'
          simp
          omega
      rw [hr, List.insertIdx_zero, updList, if_neg (by omega), if_neg (by omega)]

theorem updList_set {ks : List KeyVal} (hs : SortedK ks) {k : Nat}
    (hh : hasKey ks k = true) (v : Nat) :
    ks.set (rankOf ks k) ⟨k, v⟩ = updList ks k v := by
  induction ks with
  | nil => cases hh
  | cons kv₀ t ih =>
    rcases List.pairwise_cons.mp hs with ⟨hlt, hs'⟩
    rcases Nat.lt_trichotomy kv₀.key k with hm | hm | hm
    · have hr : rankOf (kv₀ :: t) k = rankOf t k + 1 := by
        rw [rankOf, List.countP_cons]
        simp [hm, rankOf]
      have hht : hasKey t k = true := by
        rw [hasKey, List.any_cons] at hh
        rcases Bool.or_eq_true_iff.mp hh with h | h
        · simp at h
          omega
        · exact h
      rw [hr, List.set_cons_succ, updList, if_pos hm, ih hs' hht]
    · have hr : rankOf (kv₀ :: t) k = 0 := by
        rw [rankOf, List.countP_eq_zero]
        intro x hx
        rcases List.mem_cons.mp hx with rfl | hx'
        · simp
          omega
        · have := hlt x hx'
          simp
          omega
      rw [hr, List.set_cons_zero, updList, if_neg (by omega), if_pos hm]
    · exfalso
      have : hasKey (kv₀ :: t) k = false := by
        rw [hasKey, List.any_eq_false]
        intro x hx
        rcases List.mem_cons.mp hx with rfl | hx'
        · simp
          omega
        · have := hlt x hx'
          simp
          omega
      rw [this] at hh
      cases hh

theorem heights_head {l : List Node} {h₀ : Nat} (h : ∀ x ∈ l, x.height = h₀)
    (hne : l ≠ []) : ∀ x ∈ l, x.height = (l.headD nilNode).height := by
  cases l with
  | nil => exact absurd rfl hne
  | cons c t =>
    intro x hx
    rw [List.headD_cons, h x hx, h c (List.mem_cons_self _ _)]

theorem height_children {ks : List KeyVal} {ps : List Node} {h₀ : Nat}
    (hne : ps ≠ []) (h : ∀ x ∈ ps, x.height = h₀) :
    (Node.mk false ks ps).height = h₀ + 1 := by
  cases ps with
  | nil => exact absurd rfl hne
  | cons c t => rw [Node.height_cons, h c (List.mem_cons_self _ _)]

theorem loLt_of_winLo {lo : Option Nat} {ks : List KeyVal} {r : Nat} {x : Nat}
    (h : loLt (winLo lo ks r) x) (hb : ∀ kv ∈ ks, loLt lo kv.key)
    (hr : r ≤ ks.length) : loLt lo x := by
  cases r with
  | zero => exact h
  | succ r' =>
    rw [winLo, if_neg (by omega), loLt_some] at h
    simp only [Nat.add_sub_cancel] at h
    have hmem : ks.getD r' dKV ∈ ks := by
      rw [getD_eq _ _ (show r' < ks.length by omega)]
      exact List.getElem_mem _
    exact loLt_trans (hb _ hmem) (by omega)

theorem hiGt_of_winHi {hi : Option Nat} {ks : List KeyVal} {r : Nat} {x : Nat}
    (h : hiGt (winHi hi ks r) x) (hb : ∀ kv ∈ ks, hiGt hi kv.key)
    (hr : r ≤ ks.length) : hiGt hi x := by
  by_cases h0 : r = ks.length
  · rw [winHi, if_pos h0] at h
    exact h
  · rw [winHi, if_neg h0, hiGt_some] at h
    have hmem : ks.getD r dKV ∈ ks := by
      rw [getD_eq _ _ (by omega)]
      exact List.getElem_mem _
    exact hiGt_trans (hb _ hmem) (by omega)

/-! ## Characterization of `upsert` -/

theorem Node.upsert_unfold_ok {il : Bool} {ks : List KeyVal} {ps : List Node}
    {S k v i : Nat} (h : find_index ks k = .ok i) :
    Node.upsert S k v (.mk il ks ps) =
      (.mk il (ks.set i ⟨(ks.getD i dKV).key, v⟩) ps, none, some (ks.getD i dKV).value) := by
  rw [Node.upsert, h]

theorem Node.upsert_unfold_leaf {ks : List KeyVal} {ps : List Node}
    {S k v i : Nat} (h : find_index ks k = .error i) :
    Node.upsert S k v (.mk true ks ps) =
      ((Node.split S (.mk true (ks.insertIdx i ⟨k, v⟩) ps)).1,
        (Node.split S (.mk true (ks.insertIdx i ⟨k, v⟩) ps)).2, none) := by
  rw [Node.upsert, h]
  rfl

theorem Node.upsert_unfold_node_none {ks : List KeyVal} {ps : List Node}
    {S k v i : Nat} {c : Node} (h : find_index ks k = .error i) (hc : ps[i]? = some c)
    (hn : (Node.upsert S k v c).2.1 = none) :
    Node.upsert S k v (.mk false ks ps) =
      (.mk false ks (ps.set i (Node.upsert S k v c).1), none,
        (Node.upsert S k v c).2.2) := by
  rw [Node.upsert, h]
  simp only [Bool.false_eq_true, if_false]
  split
  · next c' hc' =>
    rw [hc] at hc'
    cases hc'
    simp only [hn]
  · next hc' =>
    rw [hc] at hc'
    cases hc'

theorem Node.upsert_unfold_node_some {ks : List KeyVal} {ps : List Node}
    {S k v i : Nat} {c : Node} {kv : KeyVal} {nn : Node}
    (h : find_index ks k = .error i) (hc : ps[i]? = some c)
    (hn : (Node.upsert S k v c).2.1 = some (kv, nn)) :
    Node.upsert S k v (.mk false ks ps) =
      ((Node.split S (.mk false (ks.insertIdx i kv)
          ((ps.set i (Node.upsert S k v c).1).insertIdx (i + 1) nn))).1,
        (Node.split S (.mk false (ks.insertIdx i kv)
          ((ps.set i (Node.upsert S k v c).1).insertIdx (i + 1) nn))).2,
        (Node.upsert S k v c).2.2) := by
  rw [Node.upsert, h]
  simp only [Bool.false_eq_true, if_false]
  split
  · next c' hc' =>
    rw [hc] at hc'
    cases hc'
    simp only [hn]
  · next hc' =>
    rw [hc] at hc'
    cases hc'

theorem rank_winLo {ks : List KeyVal} (hs : SortedK ks) {lo : Option Nat} {k : Nat}
    (hlo : loLt lo k) : loLt (winLo lo ks (rankOf ks k)) k := by
  rw [winLo]
  by_cases h0 : rankOf ks k = 0
  · rw [if_pos h0]
    exact hlo
  · rw [if_neg h0, loLt_some]
    have hle := rankOf_le_length ks k
    exact rank_key_lt hs (by omega) (by omega)

theorem rank_winHi {ks : List KeyVal} (hs : SortedK ks) {hi : Option Nat} {k : Nat}
    (hhk : hasKey ks k = false) (hhi : hiGt hi k) :
    hiGt (winHi hi ks (rankOf ks k)) k := by
  rw [winHi]
  by_cases h0 : rankOf ks k = ks.length
  · rw [if_pos h0]
    exact hhi
  · rw [if_neg h0, hiGt_some]
    have hle := rankOf_le_length ks k
    exact rank_key_gt hs hhk (by omega)

/-- In-order sequence after replacing separator `r` only. -/
theorem interleave_set_sep {ks : List KeyVal} {cs : List Node}
    (hlen : cs.length = ks.length + 1) {r : Nat} (hr : r < ks.length) (kv' : KeyVal) :
    interleave (ks.set r kv') cs =
      segsTo ks cs r ++
        ((cs.getD r nilNode).toList ++
          kv' :: interleave (ks.drop (r + 1)) (cs.drop (r + 1))) := by
  rw [interleave_decomp (by rw [List.length_set]; exact hlen) r
      (by rw [List.length_set]; omega),
    segsTo_congr (take_set_eq ks r kv') rfl, tailSeg_set_sep cs kv' hr,
    List.append_assoc]

/-- Updating the in-order sequence at the key of separator `r` replaces
exactly that separator's entry. -/
theorem interleave_upd_sep {S : Nat} {lo hi : Option Nat} {ks : List KeyVal}
    {cs : List Node} (h : WFCs S lo hi ks cs) (hs : SortedK ks)
    (hb : ∀ kv ∈ ks, loLt lo kv.key ∧ hiGt hi kv.key) {r : Nat} (hr : r < ks.length)
    (v : Nat) :
    updList (interleave ks cs) ((ks.getD r dKV).key) v =
      segsTo ks cs r ++
        ((cs.getD r nilNode).toList ++
          ⟨(ks.getD r dKV).key, v⟩ :: interleave (ks.drop (r + 1)) (cs.drop (r + 1))) := by
  have hk : loLt (winLo lo ks r) (ks.getD r dKV).key := by
    rw [winLo]
    by_cases h0 : r = 0
    · rw [if_pos h0]
      have : ks.getD r dKV ∈ ks := by
        rw [getD_eq _ _ hr]
        exact List.getElem_mem _
      exact (hb _ this).1
    · rw [if_neg h0, loLt_some]
      exact hs.get_lt (by omega) hr
  have hchild : ∀ kv' ∈ (cs.getD r nilNode).toList, kv'.key < (ks.getD r dKV).key := by
    intro kv' hkv'
    have hw := (h.get r (le_of_lt hr)).toList_bdd kv' hkv'
    have := hw.2
    rw [winHi, if_neg (by omega), hiGt_some] at this
    exact this
  rw [interleave_decomp h.len r (le_of_lt hr), List.append_assoc,
    updList_append_left (fun a ha => segsTo_bound h hs r (le_of_lt hr) a ha _ hk),
    updList_append_left hchild, tailSeg_eq_cons cs hr, updList, if_neg (by omega),
    if_pos rfl]

theorem height_internal_keys (ks ks' : List KeyVal) (ps : List Node) :
    (Node.mk false ks ps).height = (Node.mk false ks' ps).height := by
  cases ps with
  | nil => rw [Node.height, Node.height]
  | cons c t => rw [Node.height_cons, Node.height_cons]

/-- Joint specification of one `Node::upsert` call on a well-formed
subtree: the returned previous value is the association-list lookup, the
leaf flag is preserved, and the result is well-formed with the in-order
sequence updated — either in place (no propagation) or split into a
left node, promoted median, and right node. -/
def UpsertSpec (S : Nat) (lo hi : Option Nat) (n : Node) (k v : Nat)
    (out : Node × Option (KeyVal × Node) × Option Nat) : Prop :=
  out.2.2 = valAt n.toList k ∧ out.1.is_leaf = n.is_leaf ∧
  match out.2.1 with
  | none => WFC S lo hi out.1 ∧ out.1.height = n.height ∧
      out.1.toList = updList n.toList k v ∧ n.keys.length ≤ out.1.keys.length
  | some (kv, r) => WFC S lo (some kv.key) out.1 ∧ WFC S (some kv.key) hi r ∧
      loLt lo kv.key ∧ hiGt hi kv.key ∧ out.1.keys.length = S ∧ r.keys.length = S ∧
      out.1.height = n.height ∧ r.height = n.height ∧ r.is_leaf = n.is_leaf ∧
      out.1.toList ++ kv :: r.toList = updList n.toList k v

theorem upsert_wf {S : Nat} : ∀ {lo hi n}, WFC S lo hi n → 1 ≤ S → ∀ k v,
    loLt lo k → hiGt hi k → UpsertSpec S lo hi n k v (Node.upsert S k v n)
  | _, _, _, @WFC.leaf _ lo hi ks hs hb hl, hS, k, v, hlo, hhi => by
    cases hhk : hasKey ks k with
    | true =>
      obtain ⟨hrlt, hrkey⟩ := hasKey_rank hs hhk
      rw [UpsertSpec, Node.upsert_unfold_ok (by rw [find_index_eq hs, hhk]; rfl)]
      refine ⟨?_, rfl, ?_, ?_, ?_, ?_⟩
      · rw [Node.toList_leaf, valAt_sorted hs, hhk, if_pos rfl]
      · exact .leaf (sorted_set_value hs hrlt rfl)
          (fun x hx => by
            rcases List.mem_or_eq_of_mem_set hx with hx' | rfl
            · exact hb x hx'
            · have hmem : ks.getD (rankOf ks k) dKV ∈ ks := by
                rw [getD_eq _ _ hrlt]
                exact List.getElem_mem _
              exact hb (ks.getD (rankOf ks k) dKV) hmem)
          (by rw [List.length_set]; exact hl)
      · rw [height_leaf, height_leaf]
      · rw [Node.toList_leaf, Node.toList_leaf, hrkey, updList_set hs hhk]
      · rw [Node.keys_mk, Node.keys_mk, List.length_set]
    | false =>
      rw [UpsertSpec, Node.upsert_unfold_leaf (by rw [find_index_eq hs, hhk]; rfl)]
      have hwlo := rank_winLo hs hlo
      have hwhi := rank_winHi hs hhk hhi
      have hrle := rankOf_le_length ks k
      have hs₁ : SortedK (ks.insertIdx (rankOf ks k) ⟨k, v⟩) :=
        sorted_insert_win hs hrle hwlo hwhi
      have hb₁ : ∀ x ∈ ks.insertIdx (rankOf ks k) ⟨k, v⟩,
          loLt lo x.key ∧ hiGt hi x.key := by
        intro x hx
        rcases (List.mem_insertIdx hrle).mp hx with rfl | hx'
        · exact ⟨hlo, hhi⟩
        · exact hb x hx'
      have hlen₁ : (ks.insertIdx (rankOf ks k) ⟨k, v⟩).length = ks.length + 1 :=
        List.length_insertIdx _ _ hrle
      have heq₁ : ks.insertIdx (rankOf ks k) ⟨k, v⟩ = updList ks k v :=
        updList_insert hs hhk v
      by_cases hfull : ks.length = 2 * S
      · have hWT : WFT S lo hi (2 * S + 1)
            (.mk true (ks.insertIdx (rankOf ks k) ⟨k, v⟩) []) :=
          ⟨hs₁, hb₁, by omega, rfl⟩
        obtain ⟨hspl, hWl, hWr, hmlo, hmhi, hLl, hLr, _, _, hTl⟩ :=
          split_wf hWT (by omega)
        rw [hspl]
        refine ⟨?_, rfl, hWl, hWr, hmlo, hmhi, by simpa using hLl, by simpa using hLr,
          ?_, ?_, rfl, ?_⟩
        · rw [Node.toList_leaf, valAt_sorted hs, hhk]
          rfl
        · rw [height_leaf, height_leaf]
        · rw [height_leaf, height_leaf]
        · simp only [Node.toList_leaf] at hTl ⊢
          rw [← heq₁]
          exact hTl
      · rw [split_no_overflow S true _ _ (by omega)]
        refine ⟨?_, rfl, ?_, ?_, ?_, ?_⟩
        · rw [Node.toList_leaf, valAt_sorted hs, hhk]
          rfl
        · exact .leaf hs₁ hb₁ (by omega)
        · rw [height_leaf, height_leaf]
        · rw [Node.toList_leaf, Node.toList_leaf, heq₁]
        · rw [Node.keys_mk, Node.keys_mk]
          omega
  | _, _, _, @WFC.node _ lo hi ks ps hs hb hl hp hm hh hcs, hS, k, v, hlo, hhi => by
    have hne : ps ≠ [] := by
      intro h
      rw [h] at hp
      simp at hp
    cases hhk : hasKey ks k with
    | true =>
      obtain ⟨hrlt, hrkey⟩ := hasKey_rank hs hhk
      rw [UpsertSpec, Node.upsert_unfold_ok (by rw [find_index_eq hs, hhk]; rfl)]
      refine ⟨?_, rfl, ?_, ?_, ?_, ?_⟩
      · rw [Node.toList_internal, (hcs.valAt_inter hs hb k hlo hhi).1 hhk,
          valAt_sorted hs, hhk, if_pos rfl]
      · refine .node (sorted_set_value hs hrlt rfl)
          (fun x hx => by
            rcases List.mem_or_eq_of_mem_set hx with hx' | rfl
            · exact hb x hx'
            · have hmem : ks.getD (rankOf ks k) dKV ∈ ks := by
                rw [getD_eq _ _ hrlt]
                exact List.getElem_mem _
              exact hb (ks.getD (rankOf ks k) dKV) hmem)
          (by rw [List.length_set]; exact hl)
          (by rw [List.length_set]; exact hp) hm hh
          (hcs.setSep _ _ hrlt rfl)
      · exact height_internal_keys _ _ _
      · simp only [Node.toList_internal]
        rw [interleave_set_sep hp hrlt]
        conv_rhs => rw [← hrkey]
        exact (interleave_upd_sep hcs hs hb hrlt v).symm
      · rw [Node.keys_mk, Node.keys_mk, List.length_set]
    | false =>
      have hwlo := rank_winLo hs hlo
      have hwhi := rank_winHi hs hhk hhi
      have hrle := rankOf_le_length ks k
      have hrlt : rankOf ks k < ps.length := by omega
      have hget : ps[rankOf ks k]? = some (ps.getD (rankOf ks k) nilNode) := by
        rw [getD_eq _ _ hrlt]
        exact List.getElem?_eq_getElem hrlt
      have hcmem : ps.getD (rankOf ks k) nilNode ∈ ps := by
        rw [getD_eq _ _ hrlt]
        exact List.getElem_mem _
      have IH := upsert_wf (hcs.get (rankOf ks k) hrle) hS k v hwlo hwhi
      obtain ⟨hold, hleaf, hrest⟩ := IH
      have hvala : (Node.upsert S k v (ps.getD (rankOf ks k) nilNode)).2.2 =
          valAt (interleave ks ps) k := by
        rw [hold, (hcs.valAt_inter hs hb k hlo hhi).2 hhk]
      cases hprop : (Node.upsert S k v (ps.getD (rankOf ks k) nilNode)).2.1 with
      | none =>
        rw [hprop] at hrest
        obtain ⟨hWc', hHc', hTc', hKc'⟩ := hrest
        rw [UpsertSpec,
          Node.upsert_unfold_node_none (by rw [find_index_eq hs, hhk]; rfl) hget hprop]
        have hall : ∀ x ∈ ps.set (rankOf ks k) (Node.upsert S k v
            (ps.getD (rankOf ks k) nilNode)).1,
            x.height = (ps.headD nilNode).height := by
          intro x hx
          rcases List.mem_or_eq_of_mem_set hx with hx' | rfl
          · exact hh x hx'
          · rw [hHc']
            exact hh _ hcmem
        refine ⟨by rw [Node.toList_internal]; exact hvala, rfl, ?_, ?_, ?_, ?_⟩
        · refine .node hs hb hl (by rw [List.length_set]; exact hp)
            (fun x hx => by
              rcases List.mem_or_eq_of_mem_set hx with hx' | rfl
              · exact hm x hx'
              · exact le_trans (hm _ hcmem) hKc')
            (heights_head hall (by rw [← List.length_pos_iff_ne_nil, List.length_set]
                                   rw [← List.length_pos_iff_ne_nil] at hne
                                   exact hne))
            (hcs.set _ _ hrle hWc')
        · rw [height_children (by rw [← List.length_pos_iff_ne_nil, List.length_set]
                                  rw [← List.length_pos_iff_ne_nil] at hne
                                  exact hne) hall,
            height_children hne hh]
        · rw [Node.toList_internal, Node.toList_internal,
            interleave_set_child hp hrle,
            interleave_splice hcs hs hb hrle hwlo hwhi v, hTc']
        · rw [Node.keys_mk, Node.keys_mk]
      | some pr =>
        obtain ⟨kv, nn⟩ := pr
        rw [hprop] at hrest
        obtain ⟨hWc', hWnn, hkvlo, hkvhi, hKc', hKnn, hHc', hHnn, hLnn, hTc'⟩ := hrest
        rw [UpsertSpec,
          Node.upsert_unfold_node_some (by rw [find_index_eq hs, hhk]; rfl) hget hprop]
        have hs₁ : SortedK (ks.insertIdx (rankOf ks k) kv) :=
          sorted_insert_win hs hrle hkvlo hkvhi
        have hb₁ : ∀ x ∈ ks.insertIdx (rankOf ks k) kv,
            loLt lo x.key ∧ hiGt hi x.key := by
          intro x hx
          rcases (List.mem_insertIdx hrle).mp hx with rfl | hx'
          · exact ⟨loLt_of_winLo hkvlo (fun y hy => (hb y hy).1) hrle,
              hiGt_of_winHi hkvhi (fun y hy => (hb y hy).2) hrle⟩
          · exact hb x hx'
        have hlen₁ : (ks.insertIdx (rankOf ks k) kv).length = ks.length + 1 :=
          List.length_insertIdx _ _ hrle
        have hplen₁ : ((ps.set (rankOf ks k) (Node.upsert S k v
            (ps.getD (rankOf ks k) nilNode)).1).insertIdx (rankOf ks k + 1) nn).length =
            ps.length + 1 := by
          rw [List.length_insertIdx _ _ (by rw [List.length_set]; omega), List.length_set]
        have hmins₁ : ∀ x ∈ (ps.set (rankOf ks k) (Node.upsert S k v
            (ps.getD (rankOf ks k) nilNode)).1).insertIdx (rankOf ks k + 1) nn,
            S ≤ x.keys.length := by
          intro x hx
          rcases (List.mem_insertIdx (by rw [List.length_set]; omega)).mp hx with rfl | hx'
          · omega
          · rcases List.mem_or_eq_of_mem_set hx' with hx'' | rfl
            · exact hm x hx''
            · omega
        have hhts₁ : ∀ x ∈ (ps.set (rankOf ks k) (Node.upsert S k v
            (ps.getD (rankOf ks k) nilNode)).1).insertIdx (rankOf ks k + 1) nn,
            x.height = (ps.headD nilNode).height := by
          intro x hx
          rcases (List.mem_insertIdx (by rw [List.length_set]; omega)).mp hx with rfl | hx'
          · rw [hHnn]
            exact hh _ hcmem
          · rcases List.mem_or_eq_of_mem_set hx' with hx'' | rfl
            · exact hh x hx''
            · rw [hHc']
              exact hh _ hcmem
        have hne₁ : (ps.set (rankOf ks k) (Node.upsert S k v
            (ps.getD (rankOf ks k) nilNode)).1).insertIdx (rankOf ks k + 1) nn ≠ [] := by
          rw [← List.length_pos_iff_ne_nil, hplen₁]
          omega
        have hcs₁ := hcs.insertChild (rankOf ks k) kv
          (Node.upsert S k v (ps.getD (rankOf ks k) nilNode)).1 nn hrle hkvlo hkvhi
          hWc' hWnn
        have hT₁ : interleave (ks.insertIdx (rankOf ks k) kv)
            ((ps.set (rankOf ks k) (Node.upsert S k v
              (ps.getD (rankOf ks k) nilNode)).1).insertIdx (rankOf ks k + 1) nn) =
            updList (interleave ks ps) k v := by
          rw [interleave_insert_child hp hrle,
            interleave_splice hcs hs hb hrle hwlo hwhi v, ← hTc']
          simp
        have hH₁ : (Node.mk false (ks.insertIdx (rankOf ks k) kv)
            ((ps.set (rankOf ks k) (Node.upsert S k v
              (ps.getD (rankOf ks k) nilNode)).1).insertIdx (rankOf ks k + 1) nn)).height =
            (Node.mk false ks ps).height := by
          rw [height_children hne₁ hhts₁, height_children hne hh]
        by_cases hfull : ks.length = 2 * S
        · have hWT : WFT S lo hi (2 * S + 1) (.mk false (ks.insertIdx (rankOf ks k) kv)
              ((ps.set (rankOf ks k) (Node.upsert S k v
                (ps.getD (rankOf ks k) nilNode)).1).insertIdx (rankOf ks k + 1) nn)) :=
            ⟨hs₁, hb₁, by omega, by rw [hplen₁, hlen₁, hp], hmins₁,
              heights_head hhts₁ hne₁, hcs₁⟩
          obtain ⟨hspl, hWl, hWr, hmlo, hmhi, hLl, hLr, hHl, hHr, hTl⟩ :=
            split_wf hWT (by omega)
          rw [hspl]
          refine ⟨by rw [Node.toList_internal]; exact hvala, rfl, hWl, hWr, hmlo, hmhi,
            by simpa using hLl, by simpa using hLr, ?_, ?_, rfl, ?_⟩
          · rw [hHl, hH₁]
          · rw [hHr, hH₁]
          · exact hTl.trans ((Node.toList_internal _ _).trans
              (hT₁.trans (by rw [Node.toList_internal])))
        · rw [split_no_overflow S false _ _ (by omega)]
          refine ⟨by rw [Node.toList_internal]; exact hvala, rfl, ?_, ?_, ?_, ?_⟩
          · exact .node hs₁ hb₁ (by omega) (by rw [hplen₁, hlen₁, hp]) hmins₁
              (heights_head hhts₁ hne₁) hcs₁
          · exact hH₁
          · rw [Node.toList_internal, Node.toList_internal]
            exact hT₁
          · rw [Node.keys_mk, Node.keys_mk]
            omega
  termination_by lo hi n _ _ _ _ _ _ => sizeOf n
  decreasing_by
    rw [getD_eq _ _ hrlt]
    exact Node.sizeOf_lt_of_mem (List.getElem_mem _)

/-! ## Root-level put -/

/-- Prop-level well-formedness of a whole tree (`wfRoot`). -/
def WFRoot (S : Nat) (t : Node) : Prop :=
  WFC S none none t ∧ (t.is_leaf = false → 1 ≤ t.keys.length)

theorem wfRoot_implies {S : Nat} {t : Node} (h : wfRoot S t = true) : WFRoot S t := by
  rw [wfRoot, Bool.and_eq_true] at h
  refine ⟨wfSub_implies t h.1, ?_⟩
  intro hleaf
  rcases Bool.or_eq_true_iff.mp h.2 with h' | h'
  · rw [hleaf] at h'
    cases h'
  · simpa using h'

theorem BTree.put_spec {S : Nat} {t : Node} (h : WFRoot S t) (hS : 1 ≤ S) (k v : Nat) :
    WFRoot S (BTree.put S t k v).1 ∧
    (BTree.put S t k v).2 = valAt t.toList k ∧
    (BTree.put S t k v).1.toList = updList t.toList k v ∧
    (((Node.upsert S k v t).2.1 = none ∧ (BTree.put S t k v).1 = (Node.upsert S k v t).1 ∧
        (BTree.put S t k v).1.height = t.height) ∨
      (∃ kv piv, (Node.upsert S k v t).2.1 = some (kv, piv) ∧
        (BTree.put S t k v).1 = .mk false [kv] [(Node.upsert S k v t).1, piv] ∧
        (BTree.put S t k v).1.height = t.height + 1)) := by
  obtain ⟨hold, hleaf, hrest⟩ := upsert_wf h.1 hS k v trivial trivial
  cases hprop : (Node.upsert S k v t).2.1 with
  | none =>
    rw [hprop] at hrest
    obtain ⟨hW, hH, hT, hK⟩ := hrest
    have hput : BTree.put S t k v = ((Node.upsert S k v t).1, (Node.upsert S k v t).2.2) := by
      rw [BTree.put, hprop]
    rw [hput]
    refine ⟨⟨hW, ?_⟩, hold, hT, Or.inl ⟨rfl, rfl, hH⟩⟩
    intro hil
    rw [hleaf] at hil
    have h1 := h.2 hil
    show 1 ≤ (Node.upsert S k v t).1.keys.length
    omega
  | some pr =>
    obtain ⟨kv, piv⟩ := pr
    rw [hprop] at hrest
    obtain ⟨hWl, hWr, _, _, hKl, hKr, hHl, hHr, hLr, hT⟩ := hrest
    have hput : BTree.put S t k v =
        (.mk false [kv] [(Node.upsert S k v t).1, piv], (Node.upsert S k v t).2.2) := by
      rw [BTree.put, hprop]
    rw [hput]
    have hWnew : WFC S none none (.mk false [kv] [(Node.upsert S k v t).1, piv]) := by
      refine .node ?_ (by simp [loLt, hiGt]) (by simp only [List.length_singleton]; omega) rfl
        ?_ ?_ (.cons hWl (.single hWr))
      · rw [SortedK]
        simp
      · intro c hc
        rcases List.mem_cons.mp hc with rfl | hc'
        · omega
        · rcases List.mem_singleton.mp hc' with rfl
          omega
      · intro c hc
        rcases List.mem_cons.mp hc with rfl | hc'
        · rfl
        · rcases List.mem_singleton.mp hc' with rfl
          rw [List.headD_cons, hHr, hHl]
    refine ⟨⟨hWnew, fun _ => by simp⟩, hold, ?_, Or.inr ⟨kv, piv, rfl, rfl, ?_⟩⟩
    · rw [Node.toList_internal, interleave_cons_cons, interleave_nil_cons]
      exact hT
    · rw [Node.height_cons, hHl]

/-- One public mutation of the tree. -/
inductive Op where
  | put (key value : Nat)
  | del (key : Nat)
deriving Repr, DecidableEq

/-- Apply one operation to the tree, keeping the resulting root. -/
def applyOp (S : Nat) (t : Node) : Op → Node
  | .put k v => (BTree.put S t k v).1
  | .del k => (BTree.delete S t k).1

/-- Apply a sequence of operations from left to right. -/
def applyOps (S : Nat) (t : Node) : List Op → Node
  | [] => t
  | op :: ops => applyOps S (applyOp S t op) ops

/-! ## List helpers for the deletion side -/

theorem getD_mem {α : Type} {l : List α} {i : Nat} (d : α) (h : i < l.length) :
    l.getD i d ∈ l := by
  rw [getD_eq _ _ h]
  exact List.getElem_mem _

theorem getLastD_eq_getD {α : Type} : ∀ (l : List α) (d : α),
    l.getLastD d = l.getD (l.length - 1) d
  | [], _ => rfl
  | [_], _ => rfl
  | a :: b :: t, d => by
    rw [List.getLastD_cons, getLastD_eq_getD (b :: t) a]
    simp only [List.length_cons, Nat.add_sub_cancel, List.getD_cons_succ]
    rw [getD_eq _ _ (by simp), getD_eq _ _ (by simp)]

theorem getLastD_mem {α : Type} {l : List α} (d : α) (h : l ≠ []) :
    l.getLastD d ∈ l := by
  rw [getLastD_eq_getD]
  have : 0 < l.length := List.length_pos.mpr h
  exact getD_mem d (by omega)

theorem dropLast_append_getLastD {α : Type} : ∀ {l : List α} (d : α), l ≠ [] →
    l.dropLast ++ [l.getLastD d] = l
  | [], _, h => absurd rfl h
  | [_], _, _ => rfl
  | a :: b :: t, d, _ => by
    rw [List.dropLast_cons_of_ne_nil (by simp), List.getLastD_cons, List.cons_append,
      dropLast_append_getLastD a (by simp)]

theorem headD_cons_tail {α : Type} {l : List α} (d : α) (h : l ≠ []) :
    l.headD d :: l.tail = l := by
  cases l with
  | nil => exact absurd rfl h
  | cons a t => rfl

theorem drop_set_of_lt {α : Type} : ∀ (l : List α) {r n : Nat} (x : α), r < n →
    (l.set r x).drop n = l.drop n
  | [], _, _, _, _ => by simp
  | a :: t, 0, n + 1, x, _ => by simp
  | a :: t, r + 1, n + 1, x, h => by
    rw [List.set_cons_succ, List.drop_succ_cons, List.drop_succ_cons,
      drop_set_of_lt t x (by omega)]

theorem take_eraseIdx_le {α : Type} : ∀ (l : List α) {i n : Nat}, n ≤ i →
    (l.eraseIdx i).take n = l.take n
  | [], _, _, _ => by simp
  | a :: t, i, 0, _ => by simp
  | a :: t, 0, n + 1, h => by omega
  | a :: t, i + 1, n + 1, h => by
    rw [List.eraseIdx_cons_succ, List.take_succ_cons, List.take_succ_cons,
      take_eraseIdx_le t (by omega)]

theorem drop_eraseIdx_self {α : Type} : ∀ (l : List α) (i : Nat),
    (l.eraseIdx i).drop i = l.drop (i + 1)
  | [], _ => by simp
  | a :: t, 0 => by simp
  | a :: t, i + 1 => by
    rw [List.eraseIdx_cons_succ, List.drop_succ_cons, List.drop_succ_cons,
      drop_eraseIdx_self t i]

theorem set_set_adj {α : Type} : ∀ (l : List α) {i : Nat} (a b : α), i + 1 < l.length →
    (l.set i a).set (i + 1) b = l.take i ++ a :: b :: l.drop (i + 2)
  | [], _, _, _, h => by simp at h
  | x :: t, 0, a, b, h => by
    cases t with
    | nil => simp at h
    | cons y t' => simp
  | x :: t, i + 1, a, b, h => by
    rw [List.set_cons_succ, List.set_cons_succ, List.take_succ_cons, List.cons_append,
      show i + 1 + 2 = i + 2 + 1 by omega, List.drop_succ_cons,
      set_set_adj t a b (by simpa using h)]

theorem erase_set_adj {α : Type} : ∀ (l : List α) {i : Nat} (a : α), i + 1 < l.length →
    (l.eraseIdx (i + 1)).set i a = l.take i ++ a :: l.drop (i + 2)
  | [], _, _, h => by simp at h
  | x :: t, 0, a, h => by
    cases t with
    | nil => simp at h
    | cons y t' => simp
  | x :: t, i + 1, a, h => by
    rw [List.eraseIdx_cons_succ, List.set_cons_succ, List.take_succ_cons, List.cons_append,
      show i + 1 + 2 = i + 2 + 1 by omega, List.drop_succ_cons,
      erase_set_adj t a (by simpa using h)]

theorem set_getD_self {α : Type} : ∀ (l : List α) {i : Nat} (d : α), i < l.length →
    l.set i (l.getD i d) = l
  | [], _, _, h => by simp at h
  | a :: t, 0, d, _ => by simp
  | a :: t, i + 1, d, h => by
    rw [List.getD_cons_succ, List.set_cons_succ, set_getD_self t d (by simpa using h)]

theorem getD_set_ne {α : Type} (l : List α) {i j : Nat} (x d : α) (h : i ≠ j) :
    (l.set i x).getD j d = l.getD j d := by
  by_cases hj : j < l.length
  · rw [getD_eq _ _ (by rw [List.length_set]; exact hj), getD_eq _ _ hj,
      List.getElem_set_ne (by omega)]
  · rw [List.getD_eq_default _ _ (by rw [List.length_set]; omega),
      List.getD_eq_default _ _ (by omega)]

theorem forall_mem_take_of_getD {α : Type} {l : List α} {n : Nat} {p : α → Prop} (d : α)
    (h : ∀ j, j < l.length → j < n → p (l.getD j d)) : ∀ x ∈ l.take n, p x := by
  intro x hx
  rcases List.mem_iff_getElem.mp hx with ⟨j, hj, he⟩
  have hj1 : j < l.length := by
    rw [List.length_take] at hj
    omega
  have hj2 : j < n := by
    rw [List.length_take] at hj
    omega
  simp only [List.getElem_take] at he
  rw [← getD_eq l d hj1] at he
  rw [← he]
  exact h j hj1 hj2

theorem forall_mem_drop_of_getD {α : Type} {l : List α} {n : Nat} {p : α → Prop} (d : α)
    (h : ∀ j, n ≤ j → j < l.length → p (l.getD j d)) : ∀ x ∈ l.drop n, p x := by
  intro x hx
  rcases List.mem_iff_getElem.mp hx with ⟨j, hj, he⟩
  have hj1 : n + j < l.length := by
    rw [List.length_drop] at hj
    omega
  simp only [List.getElem_drop] at he
  rw [← getD_eq l d hj1] at he
  rw [← he]
  exact h (n + j) (by omega) hj1

theorem forall_mem_of_getD {α : Type} {l : List α} {p : α → Prop} (d : α)
    (h : ∀ j, j < l.length → p (l.getD j d)) : ∀ x ∈ l, p x := by
  intro x hx
  rcases List.mem_iff_getElem.mp hx with ⟨j, hj, he⟩
  rw [← getD_eq l d hj] at he
  rw [← he]
  exact h j hj

theorem sorted_eraseIdx {ks : List KeyVal} (hs : SortedK ks) (i : Nat) :
    SortedK (ks.eraseIdx i) :=
  List.Pairwise.sublist (List.eraseIdx_sublist ks i) hs

theorem mem_of_mem_eraseIdx {α : Type} {l : List α} {i : Nat} {x : α}
    (h : x ∈ l.eraseIdx i) : x ∈ l :=
  (List.eraseIdx_sublist l i).mem h

theorem sorted_dropLast {ks : List KeyVal} (hs : SortedK ks) : SortedK ks.dropLast :=
  List.Pairwise.sublist (List.dropLast_sublist ks) hs

theorem sorted_dropLast_lt_last {ks : List KeyVal} (hs : SortedK ks) (hne : ks ≠ []) :
    ∀ kv ∈ ks.dropLast, kv.key < (ks.getLastD dKV).key := by
  have h0 : 0 < ks.length := List.length_pos.mpr hne
  rw [getLastD_eq_getD, List.dropLast_eq_take]
  exact sorted_take_bound hs (by omega)

theorem sorted_tail_gt_head {ks : List KeyVal} (hs : SortedK ks) :
    ∀ kv ∈ ks.tail, (ks.headD dKV).key < kv.key := by
  cases ks with
  | nil => simp
  | cons a t =>
    intro kv hkv
    exact (List.pairwise_cons.mp hs).1 kv (by simpa using hkv)

theorem sorted_set_key {ks : List KeyVal} (hs : SortedK ks) {r : Nat} (hr : r < ks.length)
    {kv : KeyVal} (h1 : ∀ i, i < r → (ks.getD i dKV).key < kv.key)
    (h2 : ∀ j, r < j → j < ks.length → kv.key < (ks.getD j dKV).key) :
    SortedK (ks.set r kv) := by
  rw [SortedK, List.pairwise_iff_getElem] at hs ⊢
  intro i j hi hj hij
  simp only [List.length_set] at hi hj
  rw [List.getElem_set, List.getElem_set]
  by_cases hir : r = i
  · subst hir
    rw [if_pos rfl, if_neg (by omega)]
    have := h2 j (by omega) hj
    rwa [getD_eq _ _ hj] at this
  · rw [if_neg hir]
    by_cases hjr : r = j
    · subst hjr
      rw [if_pos rfl]
      have := h1 i (by omega)
      rwa [getD_eq _ _ hi] at this
    · rw [if_neg hjr]
      exact hs i j hi hj hij

theorem winLo_lt_self {lo : Option Nat} {ks : List KeyVal} (hs : SortedK ks)
    (hb : ∀ kv ∈ ks, loLt lo kv.key) {i : Nat} (hi : i < ks.length) :
    loLt (winLo lo ks i) ((ks.getD i dKV).key) := by
  rw [winLo]
  by_cases h0 : i = 0
  · rw [if_pos h0]
    exact hb _ (getD_mem dKV hi)
  · rw [if_neg h0, loLt_some]
    exact hs.get_lt (by omega) hi

theorem winHi_gt_self {hi : Option Nat} {ks : List KeyVal} (hs : SortedK ks)
    (hb : ∀ kv ∈ ks, hiGt hi kv.key) {i : Nat} (hil : i < ks.length) :
    hiGt (winHi hi ks (i + 1)) ((ks.getD i dKV).key) := by
  rw [winHi]
  by_cases h0 : i + 1 = ks.length
  · rw [if_pos h0]
    exact hb _ (getD_mem dKV hil)
  · rw [if_neg h0, hiGt_some]
    exact hs.get_lt (by omega) (by omega)

theorem height_pos : ∀ n : Node, 1 ≤ n.height
  | .mk true _ _ => by rw [Node.height]
  | .mk false _ [] => by rw [Node.height]
  | .mk false _ (c :: _) => by rw [Node.height_cons]; omega

theorem WFC.height_internal {S : Nat} {lo hi : Option Nat} {ks : List KeyVal}
    {ps : List Node} (h : WFC S lo hi (.mk false ks ps)) :
    (Node.mk false ks ps).height = (ps.headD nilNode).height + 1 := by
  cases h with
  | node _ _ _ hp _ _ _ =>
    cases ps with
    | nil => simp at hp
    | cons c t => rw [Node.height_cons, List.headD_cons]

theorem WFC.leaf_iff_height {S : Nat} {lo hi : Option Nat} {n : Node}
    (h : WFC S lo hi n) : n.is_leaf = true ↔ n.height = 1 := by
  cases h with
  | leaf _ _ _ => simp [height_leaf]
  | node _ _ _ hp _ _ _ =>
    constructor
    · intro hl
      simp at hl
    · intro hh
      cases hps : ‹List Node› with
      | nil => simp [hps] at hp
      | cons c t =>
        rw [hps, Node.height_cons] at hh
        have := height_pos c
        omega

theorem WFC.leaf_eq_of_height {S S' : Nat} {lo hi lo' hi' : Option Nat} {m n : Node}
    (hm : WFC S lo hi m) (hn : WFC S' lo' hi' n) (hh : m.height = n.height) :
    m.is_leaf = n.is_leaf := by
  have h1 := hm.leaf_iff_height
  have h2 := hn.leaf_iff_height
  cases hml : m.is_leaf with
  | true =>
    have := h1.mp hml
    rw [hh] at this
    exact (h2.mpr this).symm
  | false =>
    cases hnl : n.is_leaf with
    | true =>
      have := h2.mp hnl
      rw [← hh] at this
      rw [h1.mpr this] at hml
      cases hml
    | false => rfl

theorem interleave_append :
    ∀ {lks : List KeyVal} {lps : List Node}, lps.length = lks.length + 1 →
    ∀ (kv : KeyVal) (rks : List KeyVal) (rps : List Node),
    interleave (lks ++ kv :: rks) (lps ++ rps) =
      interleave lks lps ++ kv :: interleave rks rps
  | [], [c], _, kv, rks, rps => by
    cases rps with
    | nil =>
      cases rks with
      | nil => simp
      | cons kv₁ t => simp
    | cons c₁ t => simp
  | [], [], h, _, _, _ => by simp at h
  | [], _ :: _ :: _, h, _, _, _ => by simp at h
  | kv₀ :: lks, [], h, _, _, _ => by simp at h
  | kv₀ :: lks, c₀ :: lps, h, kv, rks, rps => by
    rw [List.cons_append, List.cons_append, interleave_cons_cons, interleave_cons_cons,
      interleave_append (by simpa using h) kv rks rps]
    simp

theorem take_one_of_ne_nil {α : Type} {l : List α} (d : α) (h : l ≠ []) :
    l.take 1 = [l.getD 0 d] := by
  cases l with
  | nil => exact absurd rfl h
  | cons a t => rfl

theorem headD_append_left {α : Type} {l : List α} (l' : List α) (d : α) (h : l ≠ []) :
    (l ++ l').headD d = l.headD d := by
  cases l with
  | nil => exact absurd rfl h
  | cons a t => rfl

theorem tailSeg_set_child_lt {ks : List KeyVal} (cs : List Node) {j r : Nat} (x : Node)
    (h : j < r) :
    tailSeg ks (cs.set j x) r = tailSeg ks cs r := by
  rw [tailSeg, tailSeg, drop_set_of_lt cs x (by omega)]

/-- In-order sequence after replacing separator `r`, child `r` and
child `r + 1` (a rotation). -/
theorem interleave_set_sep2 {ks : List KeyVal} {cs : List Node}
    (hlen : cs.length = ks.length + 1) {r : Nat} (hr : r < ks.length)
    (kv' : KeyVal) (l' r' : Node) :
    interleave (ks.set r kv') ((cs.set r l').set (r + 1) r') =
      segsTo ks cs r ++ (l'.toList ++ kv' :: (r'.toList ++ tailSeg ks cs (r + 1))) := by
  rw [interleave_set_sep_childR (by rw [List.length_set]; exact hlen) hr kv' r',
    segsTo_congr rfl (take_set_of_le cs l' le_rfl),
    getD_set_self cs r l' nilNode (by omega),
    tailSeg_set_child_lt cs l' (by omega)]

/-- The in-order sequence split around separator `r` and both its
adjacent children. -/
theorem interleave_decomp_two {ks : List KeyVal} {cs : List Node}
    (hlen : cs.length = ks.length + 1) {r : Nat} (hr : r < ks.length) :
    interleave ks cs =
      segsTo ks cs r ++
        ((cs.getD r nilNode).toList ++ ks.getD r dKV ::
          ((cs.getD (r + 1) nilNode).toList ++ tailSeg ks cs (r + 1))) := by
  rw [interleave_decomp hlen r (by omega), tailSeg_eq_cons cs hr,
    drop_cons_self cs nilNode (show r + 1 < cs.length by omega), interleave_drop_cons,
    List.append_assoc]

/-- In-order sequence after merging children `r` and `r + 1` into `m`
and removing separator `r`. -/
theorem interleave_merge {ks : List KeyVal} {cs : List Node}
    (hlen : cs.length = ks.length + 1) {r : Nat} (hr : r < ks.length) (m : Node) :
    interleave (ks.eraseIdx r) ((cs.eraseIdx (r + 1)).set r m) =
      segsTo ks cs r ++ (m.toList ++ tailSeg ks cs (r + 1)) := by
  have hlen₁ : ((cs.eraseIdx (r + 1)).set r m).length = (ks.eraseIdx r).length + 1 := by
    rw [List.length_set, List.length_eraseIdx_of_lt (by omega),
      List.length_eraseIdx_of_lt (by omega)]
    omega
  have hr₁ : r ≤ (ks.eraseIdx r).length := by
    rw [List.length_eraseIdx_of_lt (by omega)]
    omega
  rw [interleave_decomp hlen₁ r hr₁,
    segsTo_congr (take_eraseIdx_le ks le_rfl)
      ((take_set_of_le _ m le_rfl).trans (take_eraseIdx_le cs (by omega))),
    getD_set_self _ r m nilNode (by rw [List.length_eraseIdx_of_lt (by omega)]; omega),
    List.append_assoc]
  congr 2
  rw [tailSeg, tailSeg, drop_eraseIdx_self ks r]
  have h1 : ((cs.eraseIdx (r + 1)).set r m).drop (r + 1) = cs.drop (r + 2) := by
    rw [drop_set_of_lt _ m (by omega), drop_eraseIdx_self cs (r + 1)]
  have h2 : (ks.eraseIdx r).drop (r + 1) = ks.drop (r + 2) := by
    have := congrArg (List.drop 1) (drop_eraseIdx_self ks r)
    rw [List.drop_drop, List.drop_drop] at this
    rw [show r + 1 + 1 = 1 + (r + 1) by omega, ← List.drop_drop,
      drop_eraseIdx_self ks r, List.drop_drop, show 1 + (r + 1) = r + 2 by omega]
  rw [h1, h2]

/-- Every separator entry occurs in the in-order interleaving. -/
theorem keys_mem_interleave : ∀ {ks : List KeyVal} {cs : List Node},
    cs.length = ks.length + 1 → ∀ kv ∈ ks, kv ∈ interleave ks cs
  | [], _, _, _, h => by simp at h
  | kv₀ :: ks, [], h, _, _ => by simp at h
  | kv₀ :: ks, c₀ :: cs, h, kv, hkv => by
    rw [interleave_cons_cons, List.mem_append, List.mem_cons]
    rcases List.mem_cons.mp hkv with rfl | hkv'
    · exact Or.inr (Or.inl rfl)
    · exact Or.inr (Or.inr (keys_mem_interleave (by simpa using h) kv hkv'))

/-! ## Window surgery on well-formedness derivations -/

/-- Replace separator `r` by a new entry `kv'` together with both its
adjacent children (a rotation step of `rebalance`). -/
theorem WFCs.setSepChildren {S : Nat} : ∀ {lo hi ks cs}, WFCs S lo hi ks cs →
    ∀ r (kv' : KeyVal) l' r', r < ks.length →
    WFC S (winLo lo ks r) (some kv'.key) l' →
    WFC S (some kv'.key) (winHi hi ks (r + 1)) r' →
    WFCs S lo hi (ks.set r kv') ((cs.set r l').set (r + 1) r')
  | _, _, _, _, .single _, r, _, _, _, hr, _, _ => by simp at hr
  | _, _, _, _, @WFCs.cons _ _ _ kv₀ ks₀ c₀ cs₀ _ hcs, 0, kv', l', r', _, hl, hr' => by
    cases ks₀ with
    | nil =>
      rcases hcs.nil_inv with ⟨c₂, rfl, _⟩
      rw [List.set_cons_zero, List.set_cons_zero, List.set_cons_succ, List.set_cons_zero]
      refine .cons (by simpa using hl) (.single ?_)
      rw [winHi, if_pos (by simp)] at hr'
      exact hr'
    | cons kv₁ ks₁ =>
      rcases hcs.cons_inv with ⟨c₂, cs₁, rfl, _, hcs₁⟩
      rw [List.set_cons_zero, List.set_cons_zero, List.set_cons_succ, List.set_cons_zero]
      refine .cons (by simpa using hl) (.cons ?_ hcs₁)
      rw [winHi, if_neg (by simp only [List.length_cons]; omega)] at hr'
      simpa using hr'
  | _, _, _, _, .cons hc hcs, r + 1, kv', l', r', hr, hl, hr' => by
    rw [winLo_cons] at hl
    rw [winHi_cons] at hr'
    rw [List.set_cons_succ, List.set_cons_succ, List.set_cons_succ]
    exact .cons hc (WFCs.setSepChildren hcs r kv' l' r' (by simpa using hr) hl hr')

mutual

/-- Tighten the upper window bound of a subtree to any bound above all
of its entries. -/
theorem WFC.narrow_hi {S : Nat} : ∀ {lo hi n}, WFC S lo hi n → ∀ {hi' : Option Nat},
    (∀ kv ∈ n.toList, hiGt hi' kv.key) → WFC S lo hi' n
  | _, _, _, .leaf hs hb hl, hi', hn =>
    .leaf hs (fun kv hkv => ⟨(hb kv hkv).1, hn kv (by simpa using hkv)⟩) hl
  | _, _, _, @WFC.node _ lo hi ks ps hs hb hl hp hm hh hcs, hi', hn =>
    .node hs
      (fun kv hkv => ⟨(hb kv hkv).1,
        hn kv (by rw [Node.toList_internal]; exact keys_mem_interleave hp kv hkv)⟩)
      hl hp hm hh
      (WFCs.narrowHiAll hcs (fun kv hkv => hn kv (by rwa [Node.toList_internal])))

theorem WFCs.narrowHiAll {S : Nat} : ∀ {lo hi ks cs}, WFCs S lo hi ks cs →
    ∀ {hi' : Option Nat}, (∀ kv ∈ interleave ks cs, hiGt hi' kv.key) →
    WFCs S lo hi' ks cs
  | _, _, _, _, .single hc, hi', hn =>
    .single (WFC.narrow_hi hc (fun kv hkv => hn kv (by simpa using hkv)))
  | _, _, _, _, .cons hc hcs, hi', hn =>
    .cons hc (WFCs.narrowHiAll hcs (fun kv hkv => hn kv (by
      rw [interleave_cons_cons, List.mem_append, List.mem_cons]
      exact Or.inr (Or.inr hkv))))

end

mutual

/-- Tighten the lower window bound of a subtree to any bound below all
of its entries. -/
theorem WFC.narrow_lo {S : Nat} : ∀ {lo hi n}, WFC S lo hi n → ∀ {lo' : Option Nat},
    (∀ kv ∈ n.toList, loLt lo' kv.key) → WFC S lo' hi n
  | _, _, _, .leaf hs hb hl, lo', hn =>
    .leaf hs (fun kv hkv => ⟨hn kv (by simpa using hkv), (hb kv hkv).2⟩) hl
  | _, _, _, @WFC.node _ lo hi ks ps hs hb hl hp hm hh hcs, lo', hn =>
    .node hs
      (fun kv hkv => ⟨hn kv (by
        rw [Node.toList_internal]
        exact keys_mem_interleave hp kv hkv), (hb kv hkv).2⟩)
      hl hp hm hh
      (WFCs.narrowLoAll hcs (fun kv hkv => hn kv (by rwa [Node.toList_internal])))

theorem WFCs.narrowLoAll {S : Nat} : ∀ {lo hi ks cs}, WFCs S lo hi ks cs →
    ∀ {lo' : Option Nat}, (∀ kv ∈ interleave ks cs, loLt lo' kv.key) →
    WFCs S lo' hi ks cs
  | _, _, _, _, .single hc, lo', hn =>
    .single (WFC.narrow_lo hc (fun kv hkv => hn kv (by simpa using hkv)))
  | _, _, _, _, .cons hc hcs, lo', hn =>
    .cons (WFC.narrow_lo hc (fun kv hkv => hn kv (by
      rw [interleave_cons_cons, List.mem_append]
      exact Or.inl hkv))) hcs

end

/-! ## The four repair steps of `rebalance` -/

theorem getD_zero_eq_headD {α : Type} (l : List α) (d : α) : l.getD 0 d = l.headD d := by
  cases l with
  | nil => rfl
  | cons a t => rfl

theorem headD_mem {α : Type} {l : List α} (d : α) (h : l ≠ []) : l.headD d ∈ l := by
  cases l with
  | nil => exact absurd rfl h
  | cons a t => exact List.mem_cons_self _ _

theorem mem_of_mem_dropLast {α : Type} {l : List α} {x : α} (h : x ∈ l.dropLast) :
    x ∈ l :=
  (List.dropLast_sublist l).subset h

theorem headD_dropLast {α : Type} (l : List α) (d : α) (h : 2 ≤ l.length) :
    l.dropLast.headD d = l.headD d := by
  rw [List.dropLast_eq_take, headD_take l d (by omega)]

/-- Rotation from the right sibling: the separator moves down to the end
of the deficient left child, the right sibling's first entry moves up,
and for internal children the right sibling's first child moves across. -/
theorem rot_right_pack {S : Nat} {wlo whi : Option Nat} {sep : KeyVal} :
    ∀ {left right : Node}, WFC S wlo (some sep.key) left →
    WFC S (some sep.key) whi right →
    1 ≤ S → left.keys.length + 1 ≤ 2 * S → S < right.keys.length →
    left.height = right.height → loLt wlo sep.key →
    ∀ {kv' : KeyVal} {left' right' : Node},
    kv' = right.keys.getD 0 dKV →
    left' = Node.mk left.is_leaf (left.keys ++ [sep])
      (if left.is_leaf then left.pivots else left.pivots ++ right.pivots.take 1) →
    right' = Node.mk right.is_leaf (right.keys.drop 1)
      (if left.is_leaf then right.pivots else right.pivots.drop 1) →
    WFC S wlo (some kv'.key) left' ∧ WFC S (some kv'.key) whi right' ∧
    left'.toList ++ kv' :: right'.toList = left.toList ++ sep :: right.toList ∧
    left'.keys.length = left.keys.length + 1 ∧
    right'.keys.length = right.keys.length - 1 ∧
    left'.height = left.height ∧ right'.height = right.height ∧
    sep.key < kv'.key ∧ hiGt whi kv'.key
  | _, _, @WFC.leaf _ _ _ lks hsl hbl hll, @WFC.leaf _ _ _ rks hsr hbr hlr,
      hS, hlk, hrk, _, hseplo, kv', left', right', hkv, hl', hr' => by
    subst hkv hl' hr'
    simp only [Node.keys_mk, Node.pivots_mk, Node.is_leaf_mk, if_pos rfl] at *
    have hrne : rks ≠ [] := by
      intro h
      rw [h] at hrk
      simp at hrk
    have hkvmem : rks.getD 0 dKV ∈ rks := getD_mem dKV (by omega)
    have hsklt : sep.key < (rks.getD 0 dKV).key := by
      have := (hbr _ hkvmem).1
      rwa [loLt_some] at this
    refine ⟨?_, ?_, ?_, by simp, by simp, by rw [height_leaf, height_leaf],
      by rw [height_leaf, height_leaf], hsklt, (hbr _ hkvmem).2⟩
    · refine .leaf ?_ ?_ (by simp; omega)
      · rw [SortedK, List.pairwise_append]
        refine ⟨hsl, by simp, ?_⟩
        intro a ha b hb
        rcases List.mem_singleton.mp hb with rfl
        have := (hbl a ha).2
        rwa [hiGt_some] at this
      · intro x hx
        rw [List.mem_append] at hx
        rcases hx with hx | hx
        · have h1 := (hbl x hx).2
          rw [hiGt_some] at h1
          exact ⟨(hbl x hx).1, by rw [hiGt_some]; omega⟩
        · rcases List.mem_singleton.mp hx with rfl
          exact ⟨hseplo, by rw [hiGt_some]; omega⟩
    · refine .leaf (List.Pairwise.sublist (List.drop_sublist _ _) hsr) ?_
        (by rw [List.length_drop]; omega)
      intro x hx
      refine ⟨?_, (hbr x ((List.drop_sublist _ _).subset hx)).2⟩
      rw [loLt_some]
      exact sorted_drop_bound hsr (by omega) x (by simpa using hx)
    · rw [Node.toList_leaf, Node.toList_leaf, Node.toList_leaf, Node.toList_leaf,
        List.append_assoc, List.cons_append, List.nil_append, List.drop_one,
        getD_zero_eq_headD, headD_cons_tail dKV hrne]
  | _, _, @WFC.leaf _ _ _ lks hsl hbl hll, @WFC.node _ _ _ rks rps hsr hbr hlr hpr hmr hhr hcsr,
      hS, hlk, hrk, hhe, hseplo, kv', left', right', hkv, hl', hr' => by
    exfalso
    have h1 : (Node.mk true lks []).height = 1 := height_leaf _ _
    have hne : rps ≠ [] := by
      intro h
      rw [h] at hpr
      simp at hpr
    have h2 := @height_children (rks) _ _ hne hhr
    have := height_pos (rps.headD nilNode)
    omega
  | _, _, @WFC.node _ _ _ lks lps hsl hbl hll hpl hml hhl hcsl, @WFC.leaf _ _ _ rks hsr hbr hlr,
      hS, hlk, hrk, hhe, hseplo, kv', left', right', hkv, hl', hr' => by
    exfalso
    have h1 : (Node.mk true rks []).height = 1 := height_leaf _ _
    have hne : lps ≠ [] := by
      intro h
      rw [h] at hpl
      simp at hpl
    have h2 := @height_children (lks) _ _ hne hhl
    have := height_pos (lps.headD nilNode)
    omega
  | _, _, @WFC.node _ _ _ lks lps hsl hbl hll hpl hml hhl hcsl,
      @WFC.node _ _ _ rks rps hsr hbr hlr hpr hmr hhr hcsr,
      hS, hlk, hrk, hhe, hseplo, kv', left', right', hkv, hl', hr' => by
    subst hkv hl' hr'
    simp only [Node.keys_mk, Node.pivots_mk, Node.is_leaf_mk, if_neg (by simp : ¬false = true)]
      at *
    cases hrks : rks with
    | nil =>
      rw [hrks] at hrk
      simp at hrk
    | cons kv0 rtl =>
      subst hrks
      rcases hcsr.cons_inv with ⟨rp0, rptl, rfl, hrp0, hcsr'⟩
      have hlne : lps ≠ [] := by
        intro h
        rw [h] at hpl
        simp at hpl
      have hrtlne : rptl ≠ [] := by
        simp only [List.length_cons] at hpr
        intro h
        rw [h] at hpr
        simp at hpr
      have hkvmem : (kv0 :: rtl).getD 0 dKV ∈ kv0 :: rtl := List.mem_cons_self _ _
      have hsklt : sep.key < ((kv0 :: rtl).getD 0 dKV).key := by
        have := (hbr _ hkvmem).1
        rwa [loLt_some] at this
      have hLh := @height_children (lks) _ _ hlne hhl
      have hRh := @height_children (kv0 :: rtl) _ _ (by simp) hhr
      rw [List.headD_cons] at hRh
      have hrp0h : rp0.height = (lps.headD nilNode).height := by omega
      refine ⟨?_, ?_, ?_, by simp, by simp, ?_, ?_, hsklt, (hbr _ hkvmem).2⟩
      · -- the grown left node
        refine .node ?_ ?_ (by simp; omega) (by simp; omega) ?_ ?_ ?_
        · rw [SortedK, List.pairwise_append]
          refine ⟨hsl, by simp, ?_⟩
          intro a ha b hb
          rcases List.mem_singleton.mp hb with rfl
          have := (hbl a ha).2
          rwa [hiGt_some] at this
        · intro x hx
          rw [List.mem_append] at hx
          rcases hx with hx | hx
          · have h1 := (hbl x hx).2
            rw [hiGt_some] at h1
            exact ⟨(hbl x hx).1, by rw [hiGt_some]; simp only [List.getD_cons_zero] at *; omega⟩
          · rcases List.mem_singleton.mp hx with rfl
            exact ⟨hseplo, by rw [hiGt_some]; simpa using hsklt⟩
        · intro c hc
          rw [List.mem_append] at hc
          rcases hc with hc | hc
          · exact hml c hc
          · rcases List.mem_singleton.mp (by simpa using hc) with rfl
            exact hmr _ (List.mem_cons_self _ _)
        · intro c hc
          rw [headD_append_left _ nilNode hlne]
          rw [List.mem_append] at hc
          rcases hc with hc | hc
          · exact hhl c hc
          · rcases List.mem_singleton.mp (by simpa using hc) with rfl
            exact hrp0h
        · have htake : (rp0 :: rptl).take 1 = [rp0] := rfl
          rw [htake]
          exact WFCs.snoc hcsl (by simpa using hrp0)
      · -- the shrunk right node
        refine .node (List.Pairwise.sublist (List.drop_sublist _ _) hsr) ?_
          (by rw [List.length_drop]; omega) (by simp at hpr ⊢; omega) ?_ ?_ ?_
        · intro x hx
          refine ⟨?_, (hbr x ((List.drop_sublist _ _).subset hx)).2⟩
          rw [loLt_some]
          exact sorted_drop_bound hsr (by simp) x (by simpa using hx)
        · intro c hc
          exact hmr c ((List.drop_sublist _ _).subset hc)
        · intro c hc
          simp only [List.drop_one, List.tail_cons] at hc ⊢
          have h1 := hhr c (List.mem_cons_of_mem _ hc)
          have h2 := hhr (rptl.headD nilNode) (List.mem_cons_of_mem _ (headD_mem _ hrtlne))
          simp only [List.headD_cons] at h1 h2
          omega
        · simpa using hcsr'
      · -- in-order sequences agree
        rw [Node.toList_internal, Node.toList_internal, Node.toList_internal,
          Node.toList_internal]
        have htake : (rp0 :: rptl).take 1 = [rp0] := rfl
        rw [htake, show lks ++ [sep] = lks ++ sep :: [] from rfl,
          interleave_append hpl sep [] [rp0], interleave_nil_cons]
        simp only [List.drop_one, List.tail_cons, List.getD_cons_zero,
          interleave_cons_cons]
        simp
      · -- left height preserved
        have hall : ∀ x ∈ lps ++ (rp0 :: rptl).take 1,
            x.height = (lps.headD nilNode).height := by
          intro x hx
          rw [List.mem_append] at hx
          rcases hx with hx | hx
          · exact hhl x hx
          · rcases List.mem_singleton.mp (by simpa using hx) with rfl
            exact hrp0h
        rw [@height_children (lks ++ [sep]) _ _ (by simp) hall, hLh]
      · -- right height preserved
        simp only [List.drop_one, List.tail_cons]
        have hall : ∀ x ∈ rptl, x.height = (rptl.headD nilNode).height := by
          intro x hx
          have h1 := hhr x (List.mem_cons_of_mem _ hx)
          have h2 := hhr (rptl.headD nilNode) (List.mem_cons_of_mem _ (headD_mem _ hrtlne))
          simp only [List.headD_cons] at h1 h2
          omega
        rw [@height_children (rtl) _ _ hrtlne hall, hRh]
        have h2 := hhr (rptl.headD nilNode) (List.mem_cons_of_mem _ (headD_mem _ hrtlne))
        simp only [List.headD_cons] at h2
        omega

/-- Rotation from the left sibling: the separator moves down to the
front of the deficient right child, the left sibling's last entry moves
up, and for internal children the left sibling's last child moves
across. -/
theorem rot_left_pack {S : Nat} {wlo whi : Option Nat} {sep : KeyVal} :
    ∀ {left right : Node}, WFC S wlo (some sep.key) left →
    WFC S (some sep.key) whi right →
    1 ≤ S → S < left.keys.length → right.keys.length + 1 ≤ 2 * S →
    left.height = right.height → hiGt whi sep.key →
    ∀ {kv' : KeyVal} {left' right' : Node},
    kv' = left.keys.getLastD dKV →
    left' = Node.mk left.is_leaf left.keys.dropLast
      (if right.is_leaf then left.pivots else left.pivots.dropLast) →
    right' = Node.mk right.is_leaf (sep :: right.keys)
      (if right.is_leaf then right.pivots
       else left.pivots.getLastD nilNode :: right.pivots) →
    WFC S wlo (some kv'.key) left' ∧ WFC S (some kv'.key) whi right' ∧
    left'.toList ++ kv' :: right'.toList = left.toList ++ sep :: right.toList ∧
    left'.keys.length = left.keys.length - 1 ∧
    right'.keys.length = right.keys.length + 1 ∧
    left'.height = left.height ∧ right'.height = right.height ∧
    loLt wlo kv'.key ∧ kv'.key < sep.key
  | _, _, @WFC.leaf _ _ _ lks hsl hbl hll, @WFC.leaf _ _ _ rks hsr hbr hlr,
      hS, hlk, hrk, _, hsephi, kv', left', right', hkv, hl', hr' => by
    subst hkv hl' hr'
    simp only [Node.keys_mk, Node.pivots_mk, Node.is_leaf_mk, if_pos rfl] at *
    have hlne : lks ≠ [] := by
      intro h
      rw [h] at hlk
      simp at hlk
    have hkvmem : lks.getLastD dKV ∈ lks := getLastD_mem dKV hlne
    have hkvsep : (lks.getLastD dKV).key < sep.key := by
      have := (hbl _ hkvmem).2
      rwa [hiGt_some] at this
    refine ⟨?_, ?_, ?_, by simp, by simp, by rw [height_leaf, height_leaf],
      by rw [height_leaf, height_leaf], (hbl _ hkvmem).1, hkvsep⟩
    · refine .leaf (sorted_dropLast hsl) ?_ (by rw [List.length_dropLast]; omega)
      intro x hx
      refine ⟨(hbl x (mem_of_mem_dropLast hx)).1, ?_⟩
      rw [hiGt_some]
      exact sorted_dropLast_lt_last hsl hlne x hx
    · refine .leaf ?_ ?_ (by simp; omega)
      · rw [SortedK, List.pairwise_cons]
        refine ⟨?_, hsr⟩
        intro b hb
        have := (hbr b hb).1
        rwa [loLt_some] at this
      · intro x hx
        rcases List.mem_cons.mp hx with rfl | hx'
        · exact ⟨by rw [loLt_some]; exact hkvsep, hsephi⟩
        · have h1 := (hbr x hx').1
          rw [loLt_some] at h1
          exact ⟨by rw [loLt_some]; omega, (hbr x hx').2⟩
    · rw [Node.toList_leaf, Node.toList_leaf, Node.toList_leaf, Node.toList_leaf]
      conv_rhs => rw [← dropLast_append_getLastD dKV hlne]
      simp
  | _, _, @WFC.leaf _ _ _ lks hsl hbl hll, @WFC.node _ _ _ rks rps hsr hbr hlr hpr hmr hhr hcsr,
      hS, hlk, hrk, hhe, hsephi, kv', left', right', hkv, hl', hr' => by
    exfalso
    have h1 : (Node.mk true lks []).height = 1 := height_leaf _ _
    have hne : rps ≠ [] := by
      intro h
      rw [h] at hpr
      simp at hpr
    have h2 := @height_children (rks) _ _ hne hhr
    have := height_pos (rps.headD nilNode)
    omega
  | _, _, @WFC.node _ _ _ lks lps hsl hbl hll hpl hml hhl hcsl, @WFC.leaf _ _ _ rks hsr hbr hlr,
      hS, hlk, hrk, hhe, hsephi, kv', left', right', hkv, hl', hr' => by
    exfalso
    have h1 : (Node.mk true rks []).height = 1 := height_leaf _ _
    have hne : lps ≠ [] := by
      intro h
      rw [h] at hpl
      simp at hpl
    have h2 := @height_children (lks) _ _ hne hhl
    have := height_pos (lps.headD nilNode)
    omega
  | _, _, @WFC.node _ _ _ lks lps hsl hbl hll hpl hml hhl hcsl,
      @WFC.node _ _ _ rks rps hsr hbr hlr hpr hmr hhr hcsr,
      hS, hlk, hrk, hhe, hsephi, kv', left', right', hkv, hl', hr' => by
    subst hkv hl' hr'
    simp only [Node.keys_mk, Node.pivots_mk, Node.is_leaf_mk, if_neg (by simp : ¬false = true)]
      at *
    have hlksne : lks ≠ [] := by
      intro h
      rw [h] at hlk
      simp at hlk
    have hlne : lps ≠ [] := by
      intro h
      rw [h] at hpl
      simp at hpl
    have hrne : rps ≠ [] := by
      intro h
      rw [h] at hpr
      simp at hpr
    have hlps2 : 2 ≤ lps.length := by
      rw [hpl]
      have : 0 < lks.length := List.length_pos.mpr hlksne
      omega
    obtain ⟨hcsl', hlast⟩ := hcsl.unsnoc (List.length_pos.mpr hlksne)
    have hkvmem : lks.getLastD dKV ∈ lks := getLastD_mem dKV hlksne
    have hkvsep : (lks.getLastD dKV).key < sep.key := by
      have := (hbl _ hkvmem).2
      rwa [hiGt_some] at this
    have hLh := @height_children (lks) _ _ hlne hhl
    have hRh := @height_children (rks) _ _ hrne hhr
    have hlch : (lps.getLastD nilNode).height = (lps.headD nilNode).height :=
      hhl _ (getLastD_mem _ hlne)
    refine ⟨?_, ?_, ?_, by simp, by simp, ?_, ?_, (hbl _ hkvmem).1, hkvsep⟩
    · -- the shrunk left node
      refine .node (sorted_dropLast hsl) ?_ (by rw [List.length_dropLast]; omega)
        (by rw [List.length_dropLast, List.length_dropLast]; omega) ?_ ?_ hcsl'
      · intro x hx
        refine ⟨(hbl x (mem_of_mem_dropLast hx)).1, ?_⟩
        rw [hiGt_some]
        exact sorted_dropLast_lt_last hsl hlksne x hx
      · intro c hc
        exact hml c (mem_of_mem_dropLast hc)
      · intro c hc
        rw [headD_dropLast _ _ hlps2]
        exact hhl c (mem_of_mem_dropLast hc)
    · -- the grown right node
      refine .node ?_ ?_ (by simp; omega) (by simp; omega) ?_ ?_ (.cons hlast hcsr)
      · rw [SortedK, List.pairwise_cons]
        refine ⟨?_, hsr⟩
        intro b hb
        have := (hbr b hb).1
        rwa [loLt_some] at this
      · intro x hx
        rcases List.mem_cons.mp hx with rfl | hx'
        · exact ⟨by rw [loLt_some]; exact hkvsep, hsephi⟩
        · have h1 := (hbr x hx').1
          rw [loLt_some] at h1
          exact ⟨by rw [loLt_some]; omega, (hbr x hx').2⟩
      · intro c hc
        rcases List.mem_cons.mp hc with rfl | hc'
        · exact hml _ (getLastD_mem _ hlne)
        · exact hmr c hc'
      · intro c hc
        rw [List.headD_cons]
        rcases List.mem_cons.mp hc with rfl | hc'
        · rfl
        · have := hhr c hc'
          omega
    · -- in-order sequences agree
      rw [Node.toList_internal, Node.toList_internal, Node.toList_internal,
        Node.toList_internal, interleave_cons_cons]
      conv_rhs => rw [← dropLast_append_getLastD dKV hlksne,
        ← dropLast_append_getLastD nilNode hlne]
      have hlend : lps.dropLast.length = lks.dropLast.length + 1 := by
        rw [List.length_dropLast, List.length_dropLast]
        have : 0 < lks.length := List.length_pos.mpr hlksne
        omega
      rw [show lks.dropLast ++ [lks.getLastD dKV] =
            lks.dropLast ++ lks.getLastD dKV :: [] from rfl,
        interleave_append hlend _ [] [lps.getLastD nilNode], interleave_nil_cons]
      simp
    · -- left height preserved
      have hpsdne : lps.dropLast ≠ [] := by
        rw [← List.length_pos_iff_ne_nil, List.length_dropLast]
        omega
      have hall2 : ∀ x ∈ lps.dropLast,
          x.height = (lps.dropLast.headD nilNode).height := by
        intro x hx
        rw [headD_dropLast _ _ hlps2]
        exact hhl x (mem_of_mem_dropLast hx)
      rw [@height_children (lks.dropLast) _ _ hpsdne hall2, headD_dropLast _ _ hlps2, hLh]
    · -- right height preserved
      rw [Node.height_cons]
      omega

/-- Merging two adjacent children around their separator into a single
node. -/
theorem merge_pack {S : Nat} {wlo whi : Option Nat} {sep : KeyVal} :
    ∀ {left right : Node}, WFC S wlo (some sep.key) left →
    WFC S (some sep.key) whi right →
    left.keys.length + right.keys.length + 1 ≤ 2 * S →
    left.height = right.height → loLt wlo sep.key → hiGt whi sep.key →
    ∀ {m : Node},
    m = Node.mk left.is_leaf (left.keys ++ sep :: right.keys)
      (if left.is_leaf then left.pivots else left.pivots ++ right.pivots) →
    WFC S wlo whi m ∧ m.toList = left.toList ++ sep :: right.toList ∧
    m.keys.length = left.keys.length + right.keys.length + 1 ∧
    m.height = left.height ∧ m.is_leaf = left.is_leaf
  | _, _, @WFC.leaf _ _ _ lks hsl hbl hll, @WFC.leaf _ _ _ rks hsr hbr hlr,
      hlr2, _, hseplo, hsephi, m, hm => by
    subst hm
    simp only [Node.keys_mk, Node.pivots_mk, Node.is_leaf_mk, if_pos rfl] at *
    refine ⟨?_, by rw [Node.toList_leaf, Node.toList_leaf, Node.toList_leaf],
      by simp only [List.length_append, List.length_cons]; omega,
      by rw [height_leaf, height_leaf], trivial⟩
    refine .leaf ?_ ?_ (by simp; omega)
    · rw [SortedK, List.pairwise_append]
      refine ⟨hsl, ?_, ?_⟩
      · rw [List.pairwise_cons]
        refine ⟨?_, hsr⟩
        intro b hb
        have := (hbr b hb).1
        rwa [loLt_some] at this
      · intro a ha b hb
        have h1 := (hbl a ha).2
        rw [hiGt_some] at h1
        rcases List.mem_cons.mp hb with rfl | hb'
        · exact h1
        · have h2 := (hbr b hb').1
          rw [loLt_some] at h2
          omega
    · intro x hx
      rw [List.mem_append] at hx
      rcases hx with hx | hx
      · have h1 := (hbl x hx).2
        rw [hiGt_some] at h1
        exact ⟨(hbl x hx).1, hiGt_trans hsephi (by omega)⟩
      · rcases List.mem_cons.mp hx with rfl | hx'
        · exact ⟨hseplo, hsephi⟩
        · have h2 := (hbr x hx').1
          rw [loLt_some] at h2
          exact ⟨loLt_trans hseplo (by omega), (hbr x hx').2⟩
  | _, _, @WFC.leaf _ _ _ lks hsl hbl hll, @WFC.node _ _ _ rks rps hsr hbr hlr hpr hmr hhr hcsr,
      hlr2, hhe, hseplo, hsephi, m, hm => by
    exfalso
    have h1 : (Node.mk true lks []).height = 1 := height_leaf _ _
    have hne : rps ≠ [] := by
      intro h
      rw [h] at hpr
      simp at hpr
    have h2 := @height_children (rks) _ _ hne hhr
    have := height_pos (rps.headD nilNode)
    omega
  | _, _, @WFC.node _ _ _ lks lps hsl hbl hll hpl hml hhl hcsl, @WFC.leaf _ _ _ rks hsr hbr hlr,
      hlr2, hhe, hseplo, hsephi, m, hm => by
    exfalso
    have h1 : (Node.mk true rks []).height = 1 := height_leaf _ _
    have hne : lps ≠ [] := by
      intro h
      rw [h] at hpl
      simp at hpl
    have h2 := @height_children (lks) _ _ hne hhl
    have := height_pos (lps.headD nilNode)
    omega
  | _, _, @WFC.node _ _ _ lks lps hsl hbl hll hpl hml hhl hcsl,
      @WFC.node _ _ _ rks rps hsr hbr hlr hpr hmr hhr hcsr,
      hlr2, hhe, hseplo, hsephi, m, hm => by
    subst hm
    simp only [Node.keys_mk, Node.pivots_mk, Node.is_leaf_mk, if_neg (by simp : ¬false = true)]
      at *
    have hlne : lps ≠ [] := by
      intro h
      rw [h] at hpl
      simp at hpl
    have hrne : rps ≠ [] := by
      intro h
      rw [h] at hpr
      simp at hpr
    have hLh := @height_children (lks) _ _ hlne hhl
    have hRh := @height_children (rks) _ _ hrne hhr
    refine ⟨?_, ?_, by simp only [Node.keys_mk, List.length_append, List.length_cons]; omega,
      ?_, trivial⟩
    · refine .node ?_ ?_ (by simp; omega) (by simp; omega) ?_ ?_
        (WFCs.append hcsl hcsr)
      · rw [SortedK, List.pairwise_append]
        refine ⟨hsl, ?_, ?_⟩
        · rw [List.pairwise_cons]
          refine ⟨?_, hsr⟩
          intro b hb
          have := (hbr b hb).1
          rwa [loLt_some] at this
        · intro a ha b hb
          have h1 := (hbl a ha).2
          rw [hiGt_some] at h1
          rcases List.mem_cons.mp hb with rfl | hb'
          · exact h1
          · have h2 := (hbr b hb').1
            rw [loLt_some] at h2
            omega
      · intro x hx
        rw [List.mem_append] at hx
        rcases hx with hx | hx
        · have h1 := (hbl x hx).2
          rw [hiGt_some] at h1
          exact ⟨(hbl x hx).1, hiGt_trans hsephi (by omega)⟩
        · rcases List.mem_cons.mp hx with rfl | hx'
          · exact ⟨hseplo, hsephi⟩
          · have h2 := (hbr x hx').1
            rw [loLt_some] at h2
            exact ⟨loLt_trans hseplo (by omega), (hbr x hx').2⟩
      · intro c hc
        rw [List.mem_append] at hc
        rcases hc with hc | hc
        · exact hml c hc
        · exact hmr c hc
      · intro c hc
        rw [headD_append_left _ nilNode hlne]
        rw [List.mem_append] at hc
        rcases hc with hc | hc
        · exact hhl c hc
        · have := hhr c hc
          omega
    · rw [Node.toList_internal, Node.toList_internal, Node.toList_internal,
        interleave_append hpl sep rks rps]
    · have hall : ∀ x ∈ lps ++ rps, x.height = (lps.headD nilNode).height := by
        intro x hx
        rw [List.mem_append] at hx
        rcases hx with hx | hx
        · exact hhl x hx
        · have := hhr x hx
          omega
      rw [@height_children (lks ++ sep :: rks) _ _ (by simp [hlne]) hall, hLh]

/-- Master specification of one `Node::rebalance` call: child `i` may be
one entry short of the minimum (all other invariants intact); afterwards
the node is well-formed, its in-order sequence is unchanged, its height
is unchanged, and it lost at most one of its own entries. -/
theorem rebalance_wf {S : Nat} {lo hi : Option Nat} {ks : List KeyVal} {ps : List Node}
    {i : Nat} (hS : 1 ≤ S)
    (hs : SortedK ks) (hb : ∀ kv ∈ ks, loLt lo kv.key ∧ hiGt hi kv.key)
    (hlen : ks.length ≤ 2 * S) (hcnt : ps.length = ks.length + 1)
    (hks1 : 1 ≤ ks.length) (hilt : i < ps.length)
    (hmins : ∀ j, j < ps.length → j ≠ i → S ≤ (ps.getD j nilNode).keys.length)
    (hdef : S - 1 ≤ (ps.getD i nilNode).keys.length)
    (hhts : ∀ c ∈ ps, c.height = (ps.headD nilNode).height)
    (hcs : WFCs S lo hi ks ps) :
    WFC S lo hi (Node.rebalance S (.mk false ks ps) i) ∧
    (Node.rebalance S (.mk false ks ps) i).toList = interleave ks ps ∧
    (Node.rebalance S (.mk false ks ps) i).is_leaf = false ∧
    (Node.rebalance S (.mk false ks ps) i).height = (Node.mk false ks ps).height ∧
    ks.length - 1 ≤ (Node.rebalance S (.mk false ks ps) i).keys.length ∧
    (Node.rebalance S (.mk false ks ps) i).keys.length ≤ ks.length := by
  have hne : ps ≠ [] := by
    intro h
    rw [h] at hcnt
    simp at hcnt
  rw [Node.rebalance]
  simp only [Node.is_leaf_mk, Node.keys_mk, Node.pivots_mk]
  by_cases hc1 : S ≤ (ps.getD i nilNode).keys.length
  · -- no action needed
    rw [if_pos hc1]
    refine ⟨?_, by rw [Node.toList_internal], rfl, rfl, by simp, by simp⟩
    exact .node hs hb hlen hcnt
      (forall_mem_of_getD nilNode (fun j hj => by
        by_cases hji : j = i
        · subst hji
          exact hc1
        · exact hmins j hj hji)) hhts hcs
  rw [if_neg hc1]
  by_cases hc2 : i + 1 < ps.length ∧ S < (ps.getD (i + 1) nilNode).keys.length
  · -- rotate from the right sibling
    rw [if_pos hc2]
    obtain ⟨hc2a, hc2b⟩ := hc2
    have hikl : i < ks.length := by omega
    have hWl := hcs.get i (by omega)
    have hWr := hcs.get (i + 1) (by omega)
    rw [winHi, if_neg (by omega)] at hWl
    rw [winLo, if_neg (by omega)] at hWr
    simp only [Nat.add_sub_cancel] at hWr
    have hheq : (ps.getD i nilNode).height = (ps.getD (i + 1) nilNode).height := by
      have h1 := hhts _ (getD_mem nilNode hilt)
      have h2 := hhts _ (getD_mem nilNode hc2a)
      omega
    have hseplo : loLt (winLo lo ks i) ((ks.getD i dKV).key) :=
      winLo_lt_self hs (fun kv hkv => (hb kv hkv).1) hikl
    obtain ⟨hWL', hWR', hTeq, hKl', hKr', hHl', hHr', hkgt, hkhi⟩ :=
      rot_right_pack hWl hWr hS (by omega) hc2b hheq hseplo rfl rfl rfl
    have hall : ∀ {L R : Node}, L.height = (ps.getD i nilNode).height →
        R.height = (ps.getD (i + 1) nilNode).height →
        ∀ c ∈ (ps.set i L).set (i + 1) R, c.height = (ps.headD nilNode).height := by
      intro L R hL hR
      rw [set_set_adj ps _ _ (by omega)]
      intro c hc
      rw [List.mem_append, List.mem_cons, List.mem_cons] at hc
      rcases hc with hc | rfl | rfl | hc
      · exact hhts c ((List.take_sublist _ _).subset hc)
      · rw [hL]
        exact hhts _ (getD_mem nilNode hilt)
      · rw [hR]
        exact hhts _ (getD_mem nilNode hc2a)
      · exact hhts c ((List.drop_sublist _ _).subset hc)
    have hne' : ∀ {L R : Node}, ((ps.set i L).set (i + 1) R) ≠ [] := by
      intro L R
      rw [← List.length_pos_iff_ne_nil, List.length_set, List.length_set]
      omega
    refine ⟨?_, ?_, rfl, ?_, ?_, ?_⟩
    · refine .node ?_ ?_ (by rw [List.length_set]; exact hlen)
        (by rw [List.length_set, List.length_set, List.length_set]; exact hcnt)
        ?_ (heights_head (hall hHl' hHr') hne') (hcs.setSepChildren i _ _ _ hikl hWL' hWR')
      · refine sorted_set_key hs hikl ?_ ?_
        · intro i' hi'
          exact lt_trans (hs.get_lt hi' hikl) hkgt
        · intro j hji hj
          rw [winHi] at hkhi
          by_cases hE : i + 1 = ks.length
          · omega
          · rw [if_neg hE, hiGt_some] at hkhi
            rcases Nat.eq_or_lt_of_le (show i + 1 ≤ j by omega) with heq | hlt2
            · rw [← heq]
              exact hkhi
            · exact lt_trans hkhi (hs.get_lt hlt2 hj)
      · intro x hx
        rcases List.mem_or_eq_of_mem_set hx with hx' | rfl
        · exact hb x hx'
        · refine ⟨loLt_trans (hb _ (getD_mem dKV hikl)).1 (le_of_lt hkgt), ?_⟩
          exact hiGt_of_winHi hkhi (fun y hy => (hb y hy).2) (by omega)
      · rw [set_set_adj ps _ _ (by omega)]
        intro c hc
        rw [List.mem_append, List.mem_cons, List.mem_cons] at hc
        rcases hc with hc | rfl | rfl | hc
        · have hT : ∀ x ∈ ps.take i, S ≤ x.keys.length :=
            forall_mem_take_of_getD nilNode (fun j hj1 hj2 => hmins j hj1 (by omega))
          exact hT c hc
        · omega
        · omega
        · have hT : ∀ x ∈ ps.drop (i + 2), S ≤ x.keys.length :=
            forall_mem_drop_of_getD nilNode (fun j hj1 hj2 => hmins j hj2 (by omega))
          exact hT c hc
    · rw [Node.toList_internal, interleave_set_sep2 hcnt hikl,
        interleave_decomp_two hcnt hikl]
      have h2 := congrArg (· ++ tailSeg ks ps (i + 1)) hTeq
      simp only [List.append_assoc, List.cons_append] at h2 ⊢
      rw [h2]
    · rw [height_children hne' (hall hHl' hHr'), height_children hne hhts]
    · rw [Node.keys_mk, List.length_set]
      omega
    · rw [Node.keys_mk, List.length_set]
  rw [if_neg hc2]
  by_cases hc3 : i ≠ 0 ∧ S < (ps.getD (i - 1) nilNode).keys.length
  · -- rotate from the left sibling
    rw [if_pos hc3]
    obtain ⟨hc3a, hc3b⟩ := hc3
    obtain ⟨j, rfl⟩ : ∃ j, i = j + 1 := ⟨i - 1, by omega⟩
    simp only [Nat.add_sub_cancel] at hc3b ⊢
    have hjlt : j < ks.length := by omega
    have hWl := hcs.get j (by omega)
    have hWr := hcs.get (j + 1) (by omega)
    rw [winHi, if_neg (by omega)] at hWl
    rw [winLo, if_neg (by omega)] at hWr
    simp only [Nat.add_sub_cancel] at hWr
    have hheq : (ps.getD j nilNode).height = (ps.getD (j + 1) nilNode).height := by
      have h1 := hhts _ (getD_mem nilNode (show j < ps.length by omega))
      have h2 := hhts _ (getD_mem nilNode hilt)
      omega
    have hsephi : hiGt (winHi hi ks (j + 1)) ((ks.getD j dKV).key) :=
      winHi_gt_self hs (fun kv hkv => (hb kv hkv).2) hjlt
    obtain ⟨hWL', hWR', hTeq, hKl', hKr', hHl', hHr', hklo, hkls⟩ :=
      rot_left_pack hWl hWr hS hc3b (by omega) hheq hsephi rfl rfl rfl
    rw [List.set_comm _ _ ps (by omega : j + 1 ≠ j)]
    have hall : ∀ {L R : Node}, L.height = (ps.getD j nilNode).height →
        R.height = (ps.getD (j + 1) nilNode).height →
        ∀ c ∈ (ps.set j L).set (j + 1) R, c.height = (ps.headD nilNode).height := by
      intro L R hL hR
      rw [set_set_adj ps _ _ (by omega)]
      intro c hc
      rw [List.mem_append, List.mem_cons, List.mem_cons] at hc
      rcases hc with hc | rfl | rfl | hc
      · exact hhts c ((List.take_sublist _ _).subset hc)
      · rw [hL]
        exact hhts _ (getD_mem nilNode (by omega))
      · rw [hR]
        exact hhts _ (getD_mem nilNode hilt)
      · exact hhts c ((List.drop_sublist _ _).subset hc)
    have hne' : ∀ {L R : Node}, ((ps.set j L).set (j + 1) R) ≠ [] := by
      intro L R
      rw [← List.length_pos_iff_ne_nil, List.length_set, List.length_set]
      omega
    refine ⟨?_, ?_, rfl, ?_, ?_, ?_⟩
    · refine .node ?_ ?_ (by rw [List.length_set]; exact hlen)
        (by rw [List.length_set, List.length_set, List.length_set]; exact hcnt)
        ?_ (heights_head (hall hHl' hHr') hne') (hcs.setSepChildren j _ _ _ hjlt hWL' hWR')
      · refine sorted_set_key hs hjlt ?_ ?_
        · intro i' hi'
          rw [winLo] at hklo
          have hj0 : j ≠ 0 := by omega
          rw [if_neg hj0, loLt_some] at hklo
          have : i' = j - 1 ∨ i' < j - 1 := by omega
          rcases this with heq | hlt2
          · rw [heq]
            exact hklo
          · exact lt_trans (hs.get_lt hlt2 (by omega)) hklo
        · intro j' hjj' hj'
          exact lt_trans hkls (hs.get_lt hjj' hj')
      · intro x hx
        rcases List.mem_or_eq_of_mem_set hx with hx' | rfl
        · exact hb x hx'
        · refine ⟨loLt_of_winLo hklo (fun y hy => (hb y hy).1) (by omega), ?_⟩
          exact hiGt_trans (hb _ (getD_mem dKV hjlt)).2 (le_of_lt hkls)
      · rw [set_set_adj ps _ _ (by omega)]
        intro c hc
        rw [List.mem_append, List.mem_cons, List.mem_cons] at hc
        rcases hc with hc | rfl | rfl | hc
        · have hT : ∀ x ∈ ps.take j, S ≤ x.keys.length :=
            forall_mem_take_of_getD nilNode (fun j' hj1 hj2 => hmins j' hj1 (by omega))
          exact hT c hc
        · omega
        · omega
        · have hT : ∀ x ∈ ps.drop (j + 2), S ≤ x.keys.length :=
            forall_mem_drop_of_getD nilNode (fun j' hj1 hj2 => hmins j' hj2 (by omega))
          exact hT c hc
    · rw [Node.toList_internal, interleave_set_sep2 hcnt hjlt,
        interleave_decomp_two hcnt hjlt]
      have h2 := congrArg (· ++ tailSeg ks ps (j + 1)) hTeq
      simp only [List.append_assoc, List.cons_append] at h2 ⊢
      rw [h2]
    · rw [height_children hne' (hall hHl' hHr'), height_children hne hhts]
    · rw [Node.keys_mk, List.length_set]
      omega
    · rw [Node.keys_mk, List.length_set]
  rw [if_neg hc3]
  by_cases hc4 : i + 1 < ps.length
  · -- merge with the right sibling
    rw [if_pos hc4]
    have hikl : i < ks.length := by omega
    have hWl := hcs.get i (by omega)
    have hWr := hcs.get (i + 1) (by omega)
    rw [winHi, if_neg (by omega)] at hWl
    rw [winLo, if_neg (by omega)] at hWr
    simp only [Nat.add_sub_cancel] at hWr
    have hheq : (ps.getD i nilNode).height = (ps.getD (i + 1) nilNode).height := by
      have h1 := hhts _ (getD_mem nilNode hilt)
      have h2 := hhts _ (getD_mem nilNode hc4)
      omega
    have hrS : (ps.getD (i + 1) nilNode).keys.length = S := by
      have h1 := hmins (i + 1) hc4 (by omega)
      have h2 : ¬S < (ps.getD (i + 1) nilNode).keys.length := by
        intro h
        exact hc2 ⟨hc4, h⟩
      omega
    have hseplo : loLt (winLo lo ks i) ((ks.getD i dKV).key) :=
      winLo_lt_self hs (fun kv hkv => (hb kv hkv).1) hikl
    have hsephi : hiGt (winHi hi ks (i + 1)) ((ks.getD i dKV).key) :=
      winHi_gt_self hs (fun kv hkv => (hb kv hkv).2) hikl
    obtain ⟨hWM, hTm, hKm, hHm, hLm⟩ :=
      merge_pack hWl hWr (by omega) hheq hseplo hsephi rfl
    have hall : ∀ {M : Node}, M.height = (ps.getD i nilNode).height →
        ∀ c ∈ (ps.eraseIdx (i + 1)).set i M, c.height = (ps.headD nilNode).height := by
      intro M hM
      rw [erase_set_adj ps _ (by omega)]
      intro c hc
      rw [List.mem_append, List.mem_cons] at hc
      rcases hc with hc | rfl | hc
      · exact hhts c ((List.take_sublist _ _).subset hc)
      · rw [hM]
        exact hhts _ (getD_mem nilNode hilt)
      · exact hhts c ((List.drop_sublist _ _).subset hc)
    have hne' : ∀ {M : Node}, ((ps.eraseIdx (i + 1)).set i M) ≠ [] := by
      intro M
      rw [← List.length_pos_iff_ne_nil, List.length_set,
        List.length_eraseIdx_of_lt (by omega)]
      omega
    refine ⟨?_, ?_, rfl, ?_, ?_, ?_⟩
    · refine .node (sorted_eraseIdx hs i) (fun x hx => hb x (mem_of_mem_eraseIdx hx))
        (by rw [List.length_eraseIdx_of_lt (by omega)]; omega)
        (by rw [List.length_set, List.length_eraseIdx_of_lt (by omega),
              List.length_eraseIdx_of_lt (by omega), hcnt]; omega)
        ?_ (heights_head (hall hHm) hne') (hcs.mergeChild i _ hikl hWM)
      · rw [erase_set_adj ps _ (by omega)]
        intro c hc
        rw [List.mem_append, List.mem_cons] at hc
        rcases hc with hc | rfl | hc
        · have hT : ∀ x ∈ ps.take i, S ≤ x.keys.length :=
            forall_mem_take_of_getD nilNode (fun j hj1 hj2 => hmins j hj1 (by omega))
          exact hT c hc
        · simp only [Node.keys_mk] at hKm ⊢
          omega
        · have hT : ∀ x ∈ ps.drop (i + 2), S ≤ x.keys.length :=
            forall_mem_drop_of_getD nilNode (fun j hj1 hj2 => hmins j hj2 (by omega))
          exact hT c hc
    · rw [Node.toList_internal, interleave_merge hcnt hikl, hTm,
        interleave_decomp_two hcnt hikl]
      simp [List.append_assoc]
    · rw [height_children hne' (hall hHm), height_children hne hhts]
    · rw [Node.keys_mk, List.length_eraseIdx_of_lt (by omega)]
    · rw [Node.keys_mk, List.length_eraseIdx_of_lt (by omega)]
      omega
  · -- merge with the left sibling
    rw [if_neg hc4]
    have hi0 : i ≠ 0 := by
      intro h
      subst h
      exact hc4 (by omega)
    obtain ⟨j, rfl⟩ : ∃ j, i = j + 1 := ⟨i - 1, by omega⟩
    simp only [Nat.add_sub_cancel]
    have hjlt : j < ks.length := by omega
    have hWl := hcs.get j (by omega)
    have hWr := hcs.get (j + 1) (by omega)
    rw [winHi, if_neg (by omega)] at hWl
    rw [winLo, if_neg (by omega)] at hWr
    simp only [Nat.add_sub_cancel] at hWr
    have hheq : (ps.getD j nilNode).height = (ps.getD (j + 1) nilNode).height := by
      have h1 := hhts _ (getD_mem nilNode (show j < ps.length by omega))
      have h2 := hhts _ (getD_mem nilNode hilt)
      omega
    have hlS : (ps.getD j nilNode).keys.length = S := by
      have h1 := hmins j (by omega) (by omega)
      have h2 : ¬S < (ps.getD j nilNode).keys.length := by
        intro h
        exact hc3 ⟨by omega, by simpa using h⟩
      omega
    have hseplo : loLt (winLo lo ks j) ((ks.getD j dKV).key) :=
      winLo_lt_self hs (fun kv hkv => (hb kv hkv).1) hjlt
    have hsephi : hiGt (winHi hi ks (j + 1)) ((ks.getD j dKV).key) :=
      winHi_gt_self hs (fun kv hkv => (hb kv hkv).2) hjlt
    obtain ⟨hWM, hTm, hKm, hHm, hLm⟩ :=
      merge_pack hWl hWr (by omega) hheq hseplo hsephi rfl
    have hall : ∀ {M : Node}, M.height = (ps.getD j nilNode).height →
        ∀ c ∈ (ps.eraseIdx (j + 1)).set j M, c.height = (ps.headD nilNode).height := by
      intro M hM
      rw [erase_set_adj ps _ (by omega)]
      intro c hc
      rw [List.mem_append, List.mem_cons] at hc
      rcases hc with hc | rfl | hc
      · exact hhts c ((List.take_sublist _ _).subset hc)
      · rw [hM]
        exact hhts _ (getD_mem nilNode (by omega))
      · exact hhts c ((List.drop_sublist _ _).subset hc)
    have hne' : ∀ {M : Node}, ((ps.eraseIdx (j + 1)).set j M) ≠ [] := by
      intro M
      rw [← List.length_pos_iff_ne_nil, List.length_set,
        List.length_eraseIdx_of_lt (by omega)]
      omega
    refine ⟨?_, ?_, rfl, ?_, ?_, ?_⟩
    · refine .node (sorted_eraseIdx hs j) (fun x hx => hb x (mem_of_mem_eraseIdx hx))
        (by rw [List.length_eraseIdx_of_lt (by omega)]; omega)
        (by rw [List.length_set, List.length_eraseIdx_of_lt (by omega),
              List.length_eraseIdx_of_lt (by omega), hcnt]; omega)
        ?_ (heights_head (hall hHm) hne') (hcs.mergeChild j _ hjlt hWM)
      · rw [erase_set_adj ps _ (by omega)]
        intro c hc
        rw [List.mem_append, List.mem_cons] at hc
        rcases hc with hc | rfl | hc
        · have hT : ∀ x ∈ ps.take j, S ≤ x.keys.length :=
            forall_mem_take_of_getD nilNode (fun j' hj1 hj2 => hmins j' hj1 (by omega))
          exact hT c hc
        · simp only [Node.keys_mk] at hKm ⊢
          omega
        · have hT : ∀ x ∈ ps.drop (j + 2), S ≤ x.keys.length :=
            forall_mem_drop_of_getD nilNode (fun j' hj1 hj2 => hmins j' hj2 (by omega))
          exact hT c hc
    · rw [Node.toList_internal, interleave_merge hcnt hjlt, hTm,
        interleave_decomp_two hcnt hjlt]
      simp [List.append_assoc]
    · rw [height_children hne' (hall hHm), height_children hne hhts]
    · rw [Node.keys_mk, List.length_eraseIdx_of_lt (by omega)]
    · rw [Node.keys_mk, List.length_eraseIdx_of_lt (by omega)]
      omega

/-! ## The list-level deletion model -/

/-- Remove the (unique, on sorted lists) entry with key `k`. -/
def delList (l : List KeyVal) (k : Nat) : List KeyVal :=
  l.filter (fun kv => kv.key != k)

theorem delList_of_no_match {l : List KeyVal} {k : Nat} (h : ∀ kv ∈ l, kv.key ≠ k) :
    delList l k = l := by
  rw [delList, List.filter_eq_self]
  intro a ha
  simpa using h a ha

theorem delList_append (A B : List KeyVal) (k : Nat) :
    delList (A ++ B) k = delList A k ++ delList B k := by
  rw [delList, delList, delList, List.filter_append]

theorem delList_cons_self {kv : KeyVal} {k : Nat} (h : kv.key = k) (t : List KeyVal) :
    delList (kv :: t) k = delList t k := by
  rw [delList, List.filter_cons, if_neg (by simp [h]), delList]

theorem delList_cons_ne {kv : KeyVal} {k : Nat} (h : kv.key ≠ k) (t : List KeyVal) :
    delList (kv :: t) k = kv :: delList t k := by
  rw [delList, List.filter_cons, if_pos (by simpa using h), delList]

theorem delList_mem {l : List KeyVal} {k : Nat} {x : KeyVal} (h : x ∈ delList l k) :
    x ∈ l :=
  (List.filter_sublist l).subset h

theorem delList_sorted {l : List KeyVal} (hs : SortedK l) (k : Nat) :
    SortedK (delList l k) :=
  List.Pairwise.sublist (List.filter_sublist l) hs

theorem valAt_delList_self (l : List KeyVal) (k : Nat) : valAt (delList l k) k = none := by
  refine valAt_of_no_match ?_
  intro kv hkv
  have := List.of_mem_filter hkv
  simpa using this

theorem valAt_delList_ne (l : List KeyVal) {k k' : Nat} (h : k' ≠ k) :
    valAt (delList l k) k' = valAt l k' := by
  induction l with
  | nil => rfl
  | cons kv t ih =>
    by_cases hk : kv.key = k
    · rw [delList_cons_self hk, valAt_cons_ne (by omega), ih]
    · rw [delList_cons_ne hk]
      by_cases hk' : kv.key = k'
      · rw [valAt_cons_self hk', valAt_cons_self hk']
      · rw [valAt_cons_ne hk', valAt_cons_ne hk', ih]

theorem hasKey_pos {l : List KeyVal} {k : Nat} (h : hasKey l k = true) : 1 ≤ l.length := by
  cases l with
  | nil => cases h
  | cons kv t => simp

theorem delList_length {l : List KeyVal} (hs : SortedK l) (k : Nat) :
    (delList l k).length = if hasKey l k then l.length - 1 else l.length := by
  induction l with
  | nil => rfl
  | cons kv t ih =>
    rcases List.pairwise_cons.mp hs with ⟨hlt, hs'⟩
    by_cases hk : kv.key = k
    · have hhk : hasKey (kv :: t) k = true := by
        rw [hasKey, List.any_cons]
        simp [hk]
      have hnot : ∀ x ∈ t, x.key ≠ k := by
        intro x hx
        have := hlt x hx
        omega
      rw [delList_cons_self hk, delList_of_no_match hnot, hhk, if_pos rfl]
      simp
    · have hhk : hasKey (kv :: t) k = hasKey t k := by
        rw [hasKey, hasKey, List.any_cons]
        have : (kv.key == k) = false := by simpa using hk
        rw [this, Bool.false_or]
      rw [delList_cons_ne hk, hhk, List.length_cons, ih hs']
      by_cases ht : hasKey t k = true
      · have := hasKey_pos ht
        rw [ht, if_pos rfl, if_pos rfl]
        simp
        omega
      · rw [eq_false_of_ne_true ht]
        simp

theorem delList_erase {ks : List KeyVal} (hs : SortedK ks) {k : Nat}
    (hh : hasKey ks k = true) : ks.eraseIdx (rankOf ks k) = delList ks k := by
  induction ks with
  | nil => cases hh
  | cons kv t ih =>
    rcases List.pairwise_cons.mp hs with ⟨hlt, hs'⟩
    rcases Nat.lt_trichotomy kv.key k with hm | hm | hm
    · have hr : rankOf (kv :: t) k = rankOf t k + 1 := by
        rw [rankOf, List.countP_cons]
        simp [hm, rankOf]
      have hht : hasKey t k = true := by
        rw [hasKey, List.any_cons] at hh
        rcases Bool.or_eq_true_iff.mp hh with h | h
        · simp at h
          omega
        · exact h
      rw [hr, List.eraseIdx_cons_succ, delList_cons_ne (by omega), ih hs' hht]
    · have hr : rankOf (kv :: t) k = 0 := by
        rw [rankOf, List.countP_eq_zero]
        intro x hx
        rcases List.mem_cons.mp hx with rfl | hx'
        · simp
          omega
        · have := hlt x hx'
          simp
          omega
      have hnot : ∀ x ∈ t, x.key ≠ k := by
        intro x hx
        have := hlt x hx
        omega
      rw [hr, List.eraseIdx_cons_zero, delList_cons_self hm, delList_of_no_match hnot]
    · exfalso
      have : hasKey (kv :: t) k = false := by
        rw [hasKey, List.any_eq_false]
        intro x hx
        rcases List.mem_cons.mp hx with rfl | hx'
        · simp
          omega
        · have := hlt x hx'
          simp
          omega
      rw [this] at hh
      cases hh

/-! ## Donor-path helpers -/

theorem getLastD_append_of_ne_nil {α : Type} :
    ∀ (A : List α) {B : List α} (d : α), B ≠ [] → (A ++ B).getLastD d = B.getLastD d
  | [], _, _, _ => rfl
  | a :: A, B, d, h => by
    rw [List.cons_append, List.getLastD_cons, getLastD_append_of_ne_nil A a h]
    exact getLastD_of_ne_nil h a d

theorem drop_one_append_of_ne_nil {α : Type} {A : List α} (B : List α) (h : A ≠ []) :
    (A ++ B).drop 1 = A.drop 1 ++ B := by
  cases A with
  | nil => exact absurd rfl h
  | cons a t => simp

theorem getLast?_eq_getLastD {α : Type} :
    ∀ {l : List α} (d : α), l ≠ [] → l.getLast? = some (l.getLastD d)
  | [], _, h => absurd rfl h
  | [_], _, _ => rfl
  | a :: b :: t, d, _ => by
    rw [List.getLast?_cons_cons, getLast?_eq_getLastD a (by simp)]
    conv_rhs => rw [List.getLastD_cons]

theorem WFC.toList_ne_nil {S : Nat} {lo hi : Option Nat} {n : Node} (h : WFC S lo hi n)
    (hk : 1 ≤ n.keys.length) : n.toList ≠ [] := by
  intro he
  have h1 := h.toList_length
  rw [he] at h1
  obtain ⟨il, ks, ps⟩ := n
  rw [Node.size_mk] at h1
  simp only [Node.keys_mk] at hk
  simp at h1
  omega

/-- The leaf reached by always following the leftmost (or rightmost)
child, as walked by `remove_most_leftright`. -/
def spineLeaf (lm : Bool) : Node → Node
  | .mk true ks ps => .mk true ks ps
  | .mk false ks ps =>
    match h : ps[if lm then 0 else ps.length - 1]? with
    | some c => spineLeaf lm c
    | none => .mk false ks ps  -- Rust panics here (index out of bounds)
decreasing_by
  exact Node.sizeOf_lt_of_getElem? h

theorem spineLeaf_leaf (lm : Bool) (ks ps) :
    spineLeaf lm (.mk true ks ps) = .mk true ks ps := by
  rw [spineLeaf]

theorem spineLeaf_node {lm : Bool} {ks ps} {c : Node}
    (h : ps[if lm then 0 else ps.length - 1]? = some c) :
    spineLeaf lm (.mk false ks ps) = spineLeaf lm c := by
  rw [spineLeaf, h]

theorem headD_set_of_pos {α : Type} (l : List α) {i : Nat} (x d : α) (h : 0 < i) :
    (l.set i x).headD d = l.headD d := by
  cases l with
  | nil => simp
  | cons a t =>
    cases i with
    | zero => omega
    | succ j => simp

theorem Node.remove_unfold_leaf (S : Nat) (lm force : Bool) (ks : List KeyVal)
    (ps : List Node) :
    Node.remove_most_leftright S lm force (.mk true ks ps) =
      if S < ks.length || force then
        (if lm then
          match ks with
          | [] => none
          | kv :: rest => some (kv, .mk true rest ps)
        else
          match ks.getLast? with
          | some kv => some (kv, .mk true ks.dropLast ps)
          | none => none)
      else none := by
  rw [Node.remove_most_leftright.eq_def]
  simp only []
  rw [if_neg (by simp)]

theorem Node.remove_unfold_nodeR {S : Nat} {force : Bool} {ks : List KeyVal}
    {ps : List Node} {c : Node} (h : ps[ps.length - 1]? = some c) :
    Node.remove_most_leftright S false force (.mk false ks ps) =
      match Node.remove_most_leftright S false force c with
      | some (kv, c') => some (kv, .mk false ks (ps.set (ps.length - 1) c'))
      | none => none := by
  rw [Node.remove_most_leftright.eq_def]
  simp only []
  rw [if_pos trivial]
  simp only [Bool.false_eq_true, if_false]
  split
  · next c' hc' =>
    simp only [Bool.false_eq_true, if_false] at hc'
    rw [h] at hc'
    cases hc'
    rfl
  · next hc' =>
    simp only [Bool.false_eq_true, if_false] at hc'
    rw [h] at hc'
    cases hc'

theorem Node.remove_unfold_nodeL {S : Nat} {force : Bool} {ks : List KeyVal}
    {ps : List Node} {c : Node} (h : ps[0]? = some c) :
    Node.remove_most_leftright S true force (.mk false ks ps) =
      match Node.remove_most_leftright S true force c with
      | some (kv, c') => some (kv, .mk false ks (ps.set 0 c'))
      | none => none := by
  rw [Node.remove_most_leftright.eq_def]
  simp only []
  rw [if_pos trivial]
  simp only [if_true]
  split
  · next c' hc' =>
    simp only [if_true] at hc'
    rw [h] at hc'
    cases hc'
    rfl
  · next hc' =>
    simp only [if_true] at hc'
    rw [h] at hc'
    cases hc'

theorem Node.rml_unfold_leaf (S : Nat) (lm : Bool) (ks : List KeyVal) (ps : List Node) :
    Node.rebalance_most_leftright S lm (.mk true ks ps) = .mk true ks ps := by
  rw [Node.rebalance_most_leftright.eq_def]
  simp only []
  rw [if_pos trivial]

theorem Node.rml_unfold_nodeR {S : Nat} {ks : List KeyVal}
    {ps : List Node} {c : Node} (h : ps[ps.length - 1]? = some c) :
    Node.rebalance_most_leftright S false (.mk false ks ps) =
      Node.rebalance S (.mk false ks (ps.set (ps.length - 1)
        (Node.rebalance_most_leftright S false c))) (ps.length - 1) := by
  rw [Node.rebalance_most_leftright.eq_def]
  simp only []
  rw [if_neg (by simp)]
  simp only [Bool.false_eq_true, if_false]
  split
  · next c' hc' =>
    simp only [Bool.false_eq_true, if_false] at hc'
    rw [h] at hc'
    cases hc'
    rfl
  · next hc' =>
    simp only [Bool.false_eq_true, if_false] at hc'
    rw [h] at hc'
    cases hc'

theorem Node.rml_unfold_nodeL {S : Nat} {ks : List KeyVal}
    {ps : List Node} {c : Node} (h : ps[0]? = some c) :
    Node.rebalance_most_leftright S true (.mk false ks ps) =
      Node.rebalance S (.mk false ks (ps.set 0
        (Node.rebalance_most_leftright S true c))) 0 := by
  rw [Node.rebalance_most_leftright.eq_def]
  simp only []
  rw [if_neg (by simp)]
  simp only [if_true]
  split
  · next c' hc' =>
    simp only [if_true] at hc'
    rw [h] at hc'
    cases hc'
    rfl
  · next hc' =>
    simp only [if_true] at hc'
    rw [h] at hc'
    cases hc'

/-- Non-forced removal of the rightmost entry: succeeds exactly when the
rightmost leaf holds more than `S` entries, and then removes the last
in-order entry while preserving full well-formedness. -/
theorem remove_nonforce_right {S : Nat} : ∀ {lo hi n}, WFC S lo hi n → 1 ≤ S →
    ((spineLeaf false n).keys.length ≤ S →
      Node.remove_most_leftright S false false n = none) ∧
    (S < (spineLeaf false n).keys.length →
      ∃ kv n', Node.remove_most_leftright S false false n = some (kv, n') ∧
        WFC S lo hi n' ∧ n'.height = n.height ∧ n'.is_leaf = n.is_leaf ∧
        n'.toList = n.toList.dropLast ∧ kv = n.toList.getLastD dKV ∧
        n.keys.length - 1 ≤ n'.keys.length ∧ n'.keys.length ≤ n.keys.length ∧
        (S ≤ n.keys.length → S ≤ n'.keys.length))
  | _, _, _, @WFC.leaf _ lo hi ks hs hb hl, hS => by
    rw [spineLeaf_leaf]
    simp only [Node.keys_mk]
    constructor
    · intro hle
      rw [Node.remove_unfold_leaf, if_neg (by simp; omega)]
    · intro hgt
      have hkne : ks ≠ [] := by
        intro h
        rw [h] at hgt
        simp at hgt
      rw [Node.remove_unfold_leaf, if_pos (by simp; omega),
        if_neg (by simp), getLast?_eq_getLastD dKV hkne]
      refine ⟨ks.getLastD dKV, .mk true ks.dropLast [], rfl, ?_, ?_, rfl, ?_, ?_, ?_, ?_, ?_⟩
      · refine .leaf (sorted_dropLast hs) ?_ (by rw [List.length_dropLast]; omega)
        intro x hx
        exact hb x (mem_of_mem_dropLast hx)
      · rw [height_leaf, height_leaf]
      · rw [Node.toList_leaf, Node.toList_leaf]
      · rw [Node.toList_leaf]
      · simp only [Node.keys_mk, List.length_dropLast]
        omega
      · simp only [Node.keys_mk, List.length_dropLast]
        omega
      · simp only [Node.keys_mk, List.length_dropLast]
        omega
  | _, _, _, @WFC.node _ lo hi ks ps hs hb hl hp hm hh hcs, hS => by
    have hpne : ps ≠ [] := by
      intro h
      rw [h] at hp
      simp at hp
    have hplen : ps.length - 1 = ks.length := by omega
    have hlt : ks.length < ps.length := by omega
    have hc : ps[ps.length - 1]? = some (ps.getD ks.length nilNode) := by
      rw [hplen, getD_eq _ _ hlt]
      exact List.getElem?_eq_getElem hlt
    have hWc := hcs.get ks.length le_rfl
    rw [winHi, if_pos rfl] at hWc
    have hspine : spineLeaf false (Node.mk false ks ps) =
        spineLeaf false (ps.getD ks.length nilNode) :=
      spineLeaf_node hc
    have IH := remove_nonforce_right hWc hS
    have hcmem : ps.getD ks.length nilNode ∈ ps := getD_mem nilNode hlt
    have hckeys : S ≤ (ps.getD ks.length nilNode).keys.length := hm _ hcmem
    have hcne : (ps.getD ks.length nilNode).toList ≠ [] :=
      hWc.toList_ne_nil (le_trans hS hckeys)
    rw [hspine]
    constructor
    · intro hle
      rw [Node.remove_unfold_nodeR hc, IH.1 hle]
    · intro hgt
      obtain ⟨kv, c', hrm, hWc', hH', hL', hT', hkv, hk1, hk2, hk3⟩ := IH.2 hgt
      have hWc'' : WFC S (winLo lo ks ks.length) (winHi hi ks ks.length) c' := by
        rw [winHi, if_pos rfl]
        exact hWc'
      refine ⟨kv, .mk false ks (ps.set ks.length c'), ?_, ?_, ?_, rfl, ?_, ?_, ?_, ?_, ?_⟩
      · rw [Node.remove_unfold_nodeR hc, hrm, hplen]
      · refine .node hs hb hl (by rw [List.length_set]; exact hp) ?_ ?_
          (hcs.set ks.length c' le_rfl hWc'')
        · intro x hx
          rcases List.mem_or_eq_of_mem_set hx with hx' | rfl
          · exact hm x hx'
          · exact hk3 hckeys
        · intro x hx
          have hxh : x.height = (ps.headD nilNode).height := by
            rcases List.mem_or_eq_of_mem_set hx with hx' | rfl
            · exact hh x hx'
            · rw [hH']
              exact hh _ hcmem
          have hhd : ((ps.set ks.length c').headD nilNode).height =
              (ps.headD nilNode).height := by
            by_cases h0 : ks.length = 0
            · cases ps with
              | nil => exact absurd rfl hpne
              | cons p t =>
                rw [h0, List.set_cons_zero, List.headD_cons, List.headD_cons, hH', h0,
                  List.getD_cons_zero]
            · rw [headD_set_of_pos ps c' nilNode (by omega)]
          rw [hxh, hhd]
      · have hall : ∀ x ∈ ps.set ks.length c', x.height = (ps.headD nilNode).height := by
          intro x hx
          rcases List.mem_or_eq_of_mem_set hx with hx' | rfl
          · exact hh x hx'
          · rw [hH']
            exact hh _ hcmem
        rw [height_children (by rw [← List.length_pos_iff_ne_nil, List.length_set]; omega)
          hall, height_children hpne hh]
      · rw [Node.toList_internal, Node.toList_internal, interleave_set_child hp le_rfl,
          interleave_decomp hp ks.length le_rfl, tailSeg_len]
        simp only [List.append_nil]
        rw [hT', List.dropLast_append_of_ne_nil _ hcne]
      · rw [Node.toList_internal, interleave_decomp hp ks.length le_rfl, tailSeg_len]
        simp only [List.append_nil]
        rw [getLastD_append_of_ne_nil _ dKV hcne]
        exact hkv
      · simp only [Node.keys_mk]
        omega
      · simp only [Node.keys_mk]
        omega
      · simp only [Node.keys_mk]
        omega
  termination_by lo hi n _ => sizeOf n
  decreasing_by
    rw [getD_eq _ _ hlt]
    exact Node.sizeOf_lt_of_mem (List.getElem_mem _)

/-- Non-forced removal of the leftmost entry: succeeds exactly when the
leftmost leaf holds more than `S` entries, and then removes the first
in-order entry while preserving full well-formedness. -/
theorem remove_nonforce_left {S : Nat} : ∀ {lo hi n}, WFC S lo hi n → 1 ≤ S →
    ((spineLeaf true n).keys.length ≤ S →
      Node.remove_most_leftright S true false n = none) ∧
    (S < (spineLeaf true n).keys.length →
      ∃ kv n', Node.remove_most_leftright S true false n = some (kv, n') ∧
        WFC S lo hi n' ∧ n'.height = n.height ∧ n'.is_leaf = n.is_leaf ∧
        n'.toList = n.toList.drop 1 ∧ kv = n.toList.headD dKV ∧
        n.keys.length - 1 ≤ n'.keys.length ∧ n'.keys.length ≤ n.keys.length ∧
        (S ≤ n.keys.length → S ≤ n'.keys.length))
  | _, _, _, @WFC.leaf _ lo hi ks hs hb hl, hS => by
    rw [spineLeaf_leaf]
    simp only [Node.keys_mk]
    constructor
    · intro hle
      rw [Node.remove_unfold_leaf, if_neg (by simp; omega)]
    · intro hgt
      cases ks with
      | nil => simp at hgt
      | cons kv rest =>
        simp only [List.length_cons] at hgt
        rw [Node.remove_unfold_leaf, if_pos (by simp; omega), if_pos (by simp)]
        refine ⟨kv, .mk true rest [], rfl, ?_, ?_, rfl, ?_, ?_, ?_, ?_, ?_⟩
        · rcases List.pairwise_cons.mp hs with ⟨_, hs'⟩
          refine .leaf hs' ?_ (by simp only [List.length_cons] at hl; omega)
          intro x hx
          exact hb x (List.mem_cons_of_mem _ hx)
        · rw [height_leaf, height_leaf]
        · rw [Node.toList_leaf, Node.toList_leaf, List.drop_one, List.tail_cons]
        · rw [Node.toList_leaf, List.headD_cons]
        · simp
        · simp
        · intro h
          simp only [Node.keys_mk, List.length_cons] at h ⊢
          omega
  | _, _, _, @WFC.node _ lo hi ks ps hs hb hl hp hm hh hcs, hS => by
    have hpne : ps ≠ [] := by
      intro h
      rw [h] at hp
      simp at hp
    have hlt : 0 < ps.length := by omega
    have hc : ps[0]? = some (ps.getD 0 nilNode) := by
      rw [getD_eq _ _ hlt]
      exact List.getElem?_eq_getElem hlt
    have hWc := hcs.get 0 (by omega)
    rw [winLo, if_pos rfl] at hWc
    have hspine : spineLeaf true (Node.mk false ks ps) =
        spineLeaf true (ps.getD 0 nilNode) :=
      spineLeaf_node hc
    have IH := remove_nonforce_left hWc hS
    have hcmem : ps.getD 0 nilNode ∈ ps := getD_mem nilNode hlt
    have hckeys : S ≤ (ps.getD 0 nilNode).keys.length := hm _ hcmem
    have hcne : (ps.getD 0 nilNode).toList ≠ [] :=
      hWc.toList_ne_nil (le_trans hS hckeys)
    rw [hspine]
    constructor
    · intro hle
      rw [Node.remove_unfold_nodeL hc, IH.1 hle]
    · intro hgt
      obtain ⟨kv, c', hrm, hWc', hH', hL', hT', hkv, hk1, hk2, hk3⟩ := IH.2 hgt
      have hWc'' : WFC S (winLo lo ks 0) (winHi hi ks 0) c' := by
        rw [winLo, if_pos rfl]
        exact hWc'
      refine ⟨kv, .mk false ks (ps.set 0 c'), ?_, ?_, ?_, rfl, ?_, ?_, ?_, ?_, ?_⟩
      · rw [Node.remove_unfold_nodeL hc, hrm]
      · refine .node hs hb hl (by rw [List.length_set]; exact hp) ?_ ?_
          (hcs.set 0 c' (by omega) hWc'')
        · intro x hx
          rcases List.mem_or_eq_of_mem_set hx with hx' | rfl
          · exact hm x hx'
          · exact hk3 hckeys
        · intro x hx
          have hxh : x.height = (ps.headD nilNode).height := by
            rcases List.mem_or_eq_of_mem_set hx with hx' | rfl
            · exact hh x hx'
            · rw [hH']
              exact hh _ hcmem
          have hhd : ((ps.set 0 c').headD nilNode).height =
              (ps.headD nilNode).height := by
            cases ps with
            | nil => exact absurd rfl hpne
            | cons p t =>
              rw [List.set_cons_zero, List.headD_cons, List.headD_cons, hH',
                List.getD_cons_zero]
          rw [hxh, hhd]
      · have hall : ∀ x ∈ ps.set 0 c', x.height = (ps.headD nilNode).height := by
          intro x hx
          rcases List.mem_or_eq_of_mem_set hx with hx' | rfl
          · exact hh x hx'
          · rw [hH']
            exact hh _ hcmem
        rw [height_children (by rw [← List.length_pos_iff_ne_nil, List.length_set]; omega)
          hall, height_children hpne hh]
      · rw [Node.toList_internal, Node.toList_internal, interleave_set_child hp (by omega),
          interleave_decomp hp 0 (by omega), segsTo_zero]
        simp only [List.nil_append]
        rw [hT', ← drop_one_append_of_ne_nil _ hcne]
      · rw [Node.toList_internal, interleave_decomp hp 0 (by omega), segsTo_zero]
        simp only [List.nil_append]
        rw [headD_append_left _ dKV hcne]
        exact hkv
      · simp only [Node.keys_mk]
        omega
      · simp only [Node.keys_mk]
        omega
      · simp only [Node.keys_mk]
        omega
  termination_by lo hi n _ => sizeOf n
  decreasing_by
    rw [getD_eq _ _ hlt]
    exact Node.sizeOf_lt_of_mem (List.getElem_mem _)

/-- Forced removal of the rightmost entry followed by the
`rebalance_most_leftright` walk back up the same spine: always succeeds
on a nonempty well-formed subtree, removes the last in-order entry, and
restores full well-formedness (the top node may shed one entry). -/
theorem remove_force_right {S : Nat} : ∀ {lo hi n}, WFC S lo hi n → 1 ≤ S →
    1 ≤ n.keys.length →
    ∃ kv n', Node.remove_most_leftright S false true n = some (kv, n') ∧
      WFC S lo hi (Node.rebalance_most_leftright S false n') ∧
      (Node.rebalance_most_leftright S false n').height = n.height ∧
      (Node.rebalance_most_leftright S false n').is_leaf = n.is_leaf ∧
      (Node.rebalance_most_leftright S false n').toList = n.toList.dropLast ∧
      kv = n.toList.getLastD dKV ∧
      n.keys.length - 1 ≤ (Node.rebalance_most_leftright S false n').keys.length ∧
      (Node.rebalance_most_leftright S false n').keys.length ≤ n.keys.length
  | _, _, _, @WFC.leaf _ lo hi ks hs hb hl, hS, hk1 => by
    simp only [Node.keys_mk] at hk1
    have hkne : ks ≠ [] := by
      rw [← List.length_pos_iff_ne_nil]
      omega
    rw [Node.remove_unfold_leaf, if_pos (by simp), if_neg (by simp),
      getLast?_eq_getLastD dKV hkne]
    refine ⟨ks.getLastD dKV, .mk true ks.dropLast [], rfl, ?_, ?_, ?_, ?_, ?_, ?_, ?_⟩
    · rw [Node.rml_unfold_leaf]
      refine .leaf (sorted_dropLast hs) ?_ (by rw [List.length_dropLast]; omega)
      intro x hx
      exact hb x (mem_of_mem_dropLast hx)
    · rw [Node.rml_unfold_leaf, height_leaf, height_leaf]
    · rw [Node.rml_unfold_leaf]
      rfl
    · rw [Node.rml_unfold_leaf, Node.toList_leaf, Node.toList_leaf]
    · rw [Node.toList_leaf]
    · rw [Node.rml_unfold_leaf]
      simp only [Node.keys_mk, List.length_dropLast]
      omega
    · rw [Node.rml_unfold_leaf]
      simp only [Node.keys_mk, List.length_dropLast]
      omega
  | _, _, _, @WFC.node _ lo hi ks ps hs hb hl hp hm hh hcs, hS, hk1 => by
    simp only [Node.keys_mk] at hk1
    have hpne : ps ≠ [] := by
      intro h
      rw [h] at hp
      simp at hp
    have hplen : ps.length - 1 = ks.length := by omega
    have hlt : ks.length < ps.length := by omega
    have hc : ps[ps.length - 1]? = some (ps.getD ks.length nilNode) := by
      rw [hplen, getD_eq _ _ hlt]
      exact List.getElem?_eq_getElem hlt
    have hWc := hcs.get ks.length le_rfl
    rw [winHi, if_pos rfl] at hWc
    have hcmem : ps.getD ks.length nilNode ∈ ps := getD_mem nilNode hlt
    have hckeys : S ≤ (ps.getD ks.length nilNode).keys.length := hm _ hcmem
    have hcne : (ps.getD ks.length nilNode).toList ≠ [] :=
      hWc.toList_ne_nil (le_trans hS hckeys)
    obtain ⟨kv, c', hrm, hWc2, hH2, hL2, hT2, hkv, hkk1, hkk2⟩ :=
      remove_force_right hWc hS (le_trans hS hckeys)
    obtain ⟨C, hC⟩ : ∃ C, Node.rebalance_most_leftright S false c' = C := ⟨_, rfl⟩
    rw [hC] at hWc2 hH2 hL2 hT2 hkk1 hkk2
    have hsetlen : (ps.set ks.length c').length - 1 = ks.length := by
      rw [List.length_set]
      omega
    have hset : (ps.set ks.length c')[(ps.set ks.length c').length - 1]? = some c' := by
      rw [hsetlen]
      have h1 : (ps.set ks.length c').getD ks.length nilNode = c' :=
        getD_set_self ps _ c' nilNode hlt
      rw [getD_eq _ _ (by rw [List.length_set]; omega)] at h1
      rw [List.getElem?_eq_getElem (by rw [List.length_set]; omega), h1]
    have hrml : Node.rebalance_most_leftright S false
          (.mk false ks (ps.set ks.length c')) =
        Node.rebalance S (.mk false ks (ps.set ks.length C)) ks.length := by
      rw [Node.rml_unfold_nodeR hset, hsetlen, List.set_set, hC]
    have hWc2' : WFC S (winLo lo ks ks.length) (winHi hi ks ks.length) C := by
      rw [winHi, if_pos rfl]
      exact hWc2
    have hcnt' : (ps.set ks.length C).length = ks.length + 1 := by
      rw [List.length_set]
      exact hp
    have hilt' : ks.length < (ps.set ks.length C).length := by
      rw [List.length_set]
      omega
    have hmins' : ∀ j, j < (ps.set ks.length C).length → j ≠ ks.length →
        S ≤ ((ps.set ks.length C).getD j nilNode).keys.length := by
      intro j hj hji
      rw [getD_set_ne _ _ _ (by omega)]
      rw [List.length_set] at hj
      exact hm _ (getD_mem nilNode hj)
    have hdef' : S - 1 ≤ ((ps.set ks.length C).getD ks.length nilNode).keys.length := by
      rw [getD_set_self ps _ _ nilNode hlt]
      omega
    have hall : ∀ x ∈ ps.set ks.length C, x.height = (ps.headD nilNode).height := by
      intro x hx
      rcases List.mem_or_eq_of_mem_set hx with hx' | rfl
      · exact hh x hx'
      · rw [hH2]
        exact hh _ hcmem
    have hhts' : ∀ x ∈ ps.set ks.length C,
        x.height = ((ps.set ks.length C).headD nilNode).height := by
      intro x hx
      have hhd : ((ps.set ks.length C).headD nilNode).height =
          (ps.headD nilNode).height := by
        by_cases h0 : ks.length = 0
        · cases ps with
          | nil => exact absurd rfl hpne
          | cons p t =>
            rw [h0, List.set_cons_zero, List.headD_cons, List.headD_cons, hH2, h0,
              List.getD_cons_zero]
        · rw [headD_set_of_pos ps _ nilNode (by omega)]
      rw [hhd]
      exact hall x hx
    obtain ⟨hRW, hRT, hRL, hRH, hRk1, hRk2⟩ :=
      rebalance_wf hS hs hb hl hcnt' hk1 hilt' hmins' hdef' hhts'
        (hcs.set ks.length C le_rfl hWc2')
    refine ⟨kv, .mk false ks (ps.set ks.length c'), ?_, ?_, ?_, ?_, ?_, ?_, ?_, ?_⟩
    · rw [Node.remove_unfold_nodeR hc, hrm, hplen]
    · rw [hrml]
      exact hRW
    · rw [hrml, hRH]
      rw [height_children (by rw [← List.length_pos_iff_ne_nil, List.length_set]; omega)
        hall, height_children hpne hh]
    · rw [hrml, hRL]
      rfl
    · rw [hrml, hRT, Node.toList_internal, interleave_set_child hp le_rfl,
        interleave_decomp hp ks.length le_rfl, tailSeg_len]
      simp only [List.append_nil]
      rw [hT2, List.dropLast_append_of_ne_nil _ hcne]
    · rw [Node.toList_internal, interleave_decomp hp ks.length le_rfl, tailSeg_len]
      simp only [List.append_nil]
      rw [getLastD_append_of_ne_nil _ dKV hcne]
      exact hkv
    · rw [hrml]
      simp only [Node.keys_mk] at hRk1 ⊢
      omega
    · rw [hrml]
      simp only [Node.keys_mk] at hRk2 ⊢
      omega
  termination_by lo hi n _ _ => sizeOf n
  decreasing_by
    rw [getD_eq _ _ hlt]
    exact Node.sizeOf_lt_of_mem (List.getElem_mem _)

/-- Forced removal of the leftmost entry followed by the
`rebalance_most_leftright` walk back up the same spine. -/
theorem remove_force_left {S : Nat} : ∀ {lo hi n}, WFC S lo hi n → 1 ≤ S →
    1 ≤ n.keys.length →
    ∃ kv n', Node.remove_most_leftright S true true n = some (kv, n') ∧
      WFC S lo hi (Node.rebalance_most_leftright S true n') ∧
      (Node.rebalance_most_leftright S true n').height = n.height ∧
      (Node.rebalance_most_leftright S true n').is_leaf = n.is_leaf ∧
      (Node.rebalance_most_leftright S true n').toList = n.toList.drop 1 ∧
      kv = n.toList.headD dKV ∧
      n.keys.length - 1 ≤ (Node.rebalance_most_leftright S true n').keys.length ∧
      (Node.rebalance_most_leftright S true n').keys.length ≤ n.keys.length
  | _, _, _, @WFC.leaf _ lo hi ks hs hb hl, hS, hk1 => by
    simp only [Node.keys_mk] at hk1
    cases ks with
    | nil => simp at hk1
    | cons kv rest =>
      rw [Node.remove_unfold_leaf, if_pos (by simp), if_pos (by simp)]
      refine ⟨kv, .mk true rest [], rfl, ?_, ?_, ?_, ?_, ?_, ?_, ?_⟩
      · rw [Node.rml_unfold_leaf]
        rcases List.pairwise_cons.mp hs with ⟨_, hs'⟩
        refine .leaf hs' ?_ (by simp only [List.length_cons] at hl; omega)
        intro x hx
        exact hb x (List.mem_cons_of_mem _ hx)
      · rw [Node.rml_unfold_leaf, height_leaf, height_leaf]
      · rw [Node.rml_unfold_leaf]
        rfl
      · rw [Node.rml_unfold_leaf, Node.toList_leaf, Node.toList_leaf, List.drop_one,
          List.tail_cons]
      · rw [Node.toList_leaf, List.headD_cons]
      · rw [Node.rml_unfold_leaf]
        simp
      · rw [Node.rml_unfold_leaf]
        simp
  | _, _, _, @WFC.node _ lo hi ks ps hs hb hl hp hm hh hcs, hS, hk1 => by
    simp only [Node.keys_mk] at hk1
    have hpne : ps ≠ [] := by
      intro h
      rw [h] at hp
      simp at hp
    have hlt : 0 < ps.length := by omega
    have hc : ps[0]? = some (ps.getD 0 nilNode) := by
      rw [getD_eq _ _ hlt]
      exact List.getElem?_eq_getElem hlt
    have hWc := hcs.get 0 (by omega)
    rw [winLo, if_pos rfl] at hWc
    have hcmem : ps.getD 0 nilNode ∈ ps := getD_mem nilNode hlt
    have hckeys : S ≤ (ps.getD 0 nilNode).keys.length := hm _ hcmem
    have hcne : (ps.getD 0 nilNode).toList ≠ [] :=
      hWc.toList_ne_nil (le_trans hS hckeys)
    obtain ⟨kv, c', hrm, hWc2, hH2, hL2, hT2, hkv, hkk1, hkk2⟩ :=
      remove_force_left hWc hS (le_trans hS hckeys)
    obtain ⟨C, hC⟩ : ∃ C, Node.rebalance_most_leftright S true c' = C := ⟨_, rfl⟩
    rw [hC] at hWc2 hH2 hL2 hT2 hkk1 hkk2
    have hset : (ps.set 0 c')[0]? = some c' := by
      have h1 : (ps.set 0 c').getD 0 nilNode = c' := getD_set_self ps _ c' nilNode hlt
      rw [getD_eq _ _ (by rw [List.length_set]; omega)] at h1
      rw [List.getElem?_eq_getElem (by rw [List.length_set]; omega), h1]
    have hrml : Node.rebalance_most_leftright S true (.mk false ks (ps.set 0 c')) =
        Node.rebalance S (.mk false ks (ps.set 0 C)) 0 := by
      rw [Node.rml_unfold_nodeL hset, List.set_set, hC]
    have hWc2' : WFC S (winLo lo ks 0) (winHi hi ks 0) C := by
      rw [winLo, if_pos rfl]
      exact hWc2
    have hcnt' : (ps.set 0 C).length = ks.length + 1 := by
      rw [List.length_set]
      exact hp
    have hilt' : 0 < (ps.set 0 C).length := by
      rw [List.length_set]
      omega
    have hmins' : ∀ j, j < (ps.set 0 C).length → j ≠ 0 →
        S ≤ ((ps.set 0 C).getD j nilNode).keys.length := by
      intro j hj hji
      rw [getD_set_ne _ _ _ (by omega)]
      rw [List.length_set] at hj
      exact hm _ (getD_mem nilNode hj)
    have hdef' : S - 1 ≤ ((ps.set 0 C).getD 0 nilNode).keys.length := by
      rw [getD_set_self ps _ _ nilNode hlt]
      omega
    have hall : ∀ x ∈ ps.set 0 C, x.height = (ps.headD nilNode).height := by
      intro x hx
      rcases List.mem_or_eq_of_mem_set hx with hx' | rfl
      · exact hh x hx'
      · rw [hH2]
        exact hh _ hcmem
    have hhts' : ∀ x ∈ ps.set 0 C,
        x.height = ((ps.set 0 C).headD nilNode).height := by
      intro x hx
      have hhd : ((ps.set 0 C).headD nilNode).height = (ps.headD nilNode).height := by
        cases ps with
        | nil => exact absurd rfl hpne
        | cons p t =>
          rw [List.set_cons_zero, List.headD_cons, List.headD_cons, hH2,
            List.getD_cons_zero]
      rw [hhd]
      exact hall x hx
    obtain ⟨hRW, hRT, hRL, hRH, hRk1, hRk2⟩ :=
      rebalance_wf hS hs hb hl hcnt' hk1 hilt' hmins' hdef' hhts'
        (hcs.set 0 C (by omega) hWc2')
    refine ⟨kv, .mk false ks (ps.set 0 c'), ?_, ?_, ?_, ?_, ?_, ?_, ?_, ?_⟩
    · rw [Node.remove_unfold_nodeL hc, hrm]
    · rw [hrml]
      exact hRW
    · rw [hrml, hRH]
      rw [height_children (by rw [← List.length_pos_iff_ne_nil, List.length_set]; omega)
        hall, height_children hpne hh]
    · rw [hrml, hRL]
      rfl
    · rw [hrml, hRT, Node.toList_internal, interleave_set_child hp (by omega),
        interleave_decomp hp 0 (by omega), segsTo_zero]
      simp only [List.nil_append]
      rw [hT2, ← drop_one_append_of_ne_nil _ hcne]
    · rw [Node.toList_internal, interleave_decomp hp 0 (by omega), segsTo_zero]
      simp only [List.nil_append]
      rw [headD_append_left _ dKV hcne]
      exact hkv
    · rw [hrml]
      simp only [Node.keys_mk] at hRk1 ⊢
      omega
    · rw [hrml]
      simp only [Node.keys_mk] at hRk2 ⊢
      omega
  termination_by lo hi n _ _ => sizeOf n
  decreasing_by
    rw [getD_eq _ _ hlt]
    exact Node.sizeOf_lt_of_mem (List.getElem_mem _)

/-! ## Helpers for the `delete` master theorem -/

/-- Deleting key `k` in the in-order sequence only touches the middle
block of the decomposition at `k`'s child slot. -/
theorem delList_inter_child {S : Nat} {lo hi : Option Nat} {ks : List KeyVal}
    {cs : List Node} (h : WFCs S lo hi ks cs) (hs : SortedK ks)
    (hb : ∀ kv ∈ ks, loLt lo kv.key ∧ hiGt hi kv.key) {r : Nat} (hr : r ≤ ks.length)
    {k : Nat} (hklo : loLt (winLo lo ks r) k) (hkhi : hiGt (winHi hi ks r) k) :
    delList (interleave ks cs) k =
      segsTo ks cs r ++ (delList ((cs.getD r nilNode).toList) k ++ tailSeg ks cs r) := by
  have h1 : delList (segsTo ks cs r) k = segsTo ks cs r :=
    delList_of_no_match (fun a ha => by
      have := segsTo_bound h hs r hr a ha k hklo
      omega)
  have h2 : delList (tailSeg ks cs r) k = tailSeg ks cs r :=
    delList_of_no_match (fun b hb' => by
      have := tailSeg_bound h hs hb r hr b hb' k hkhi
      omega)
  rw [interleave_decomp h.len r hr, List.append_assoc, delList_append, delList_append,
    h1, h2]

/-- Deleting the key of separator `r` from the in-order sequence removes
exactly that separator's entry. -/
theorem delList_inter_sep {S : Nat} {lo hi : Option Nat} {ks : List KeyVal}
    {cs : List Node} (h : WFCs S lo hi ks cs) (hs : SortedK ks)
    (hb : ∀ kv ∈ ks, loLt lo kv.key ∧ hiGt hi kv.key) {r : Nat} (hr : r < ks.length) :
    delList (interleave ks cs) ((ks.getD r dKV).key) =
      segsTo ks cs r ++ ((cs.getD r nilNode).toList ++
        ((cs.getD (r + 1) nilNode).toList ++ tailSeg ks cs (r + 1))) := by
  have hklo : loLt (winLo lo ks r) ((ks.getD r dKV).key) :=
    winLo_lt_self hs (fun kv hkv => (hb kv hkv).1) hr
  have hkhi : hiGt (winHi hi ks (r + 1)) ((ks.getD r dKV).key) :=
    winHi_gt_self hs (fun kv hkv => (hb kv hkv).2) hr
  have hWc := h.get r (le_of_lt hr)
  rw [winHi, if_neg (by omega)] at hWc
  have hWr := h.get (r + 1) (by omega)
  rw [winLo, if_neg (by omega)] at hWr
  simp only [Nat.add_sub_cancel] at hWr
  have h1 : delList (segsTo ks cs r) ((ks.getD r dKV).key) = segsTo ks cs r :=
    delList_of_no_match (fun a ha => by
      have := segsTo_bound h hs r (le_of_lt hr) a ha _ hklo
      omega)
  have h2 : delList ((cs.getD r nilNode).toList) ((ks.getD r dKV).key) =
      (cs.getD r nilNode).toList :=
    delList_of_no_match (fun a ha => by
      have := (WFC.toList_bdd hWc a ha).2
      rw [hiGt_some] at this
      omega)
  have h3 : delList ((cs.getD (r + 1) nilNode).toList) ((ks.getD r dKV).key) =
      (cs.getD (r + 1) nilNode).toList :=
    delList_of_no_match (fun a ha => by
      have := (WFC.toList_bdd hWr a ha).1
      rw [loLt_some] at this
      omega)
  have h4 : delList (tailSeg ks cs (r + 1)) ((ks.getD r dKV).key) =
      tailSeg ks cs (r + 1) :=
    delList_of_no_match (fun b hb' => by
      have := tailSeg_bound h hs hb (r + 1) (by omega) b hb' _ hkhi
      omega)
  rw [interleave_decomp_two h.len hr, delList_append, delList_append, h1, h2,
    delList_cons_self rfl, delList_append, h3, h4]

/-- Replacing separator `r` with a smaller key that still clears the
window keeps the separators sorted. -/
theorem sorted_set_sep_lt {ks : List KeyVal} (hs : SortedK ks) {r : Nat}
    (hr : r < ks.length) {kv : KeyVal} {lo : Option Nat}
    (hkvlo : loLt (winLo lo ks r) kv.key) (hkvlt : kv.key < (ks.getD r dKV).key) :
    SortedK (ks.set r kv) := by
  refine sorted_set_key hs hr ?_ ?_
  · intro i' hi'
    rw [winLo] at hkvlo
    have hr0 : r ≠ 0 := by omega
    rw [if_neg hr0, loLt_some] at hkvlo
    have : i' = r - 1 ∨ i' < r - 1 := by omega
    rcases this with heq | hlt2
    · rw [heq]
      exact hkvlo
    · exact lt_trans (hs.get_lt hlt2 (by omega)) hkvlo
  · intro j hjr hj
    exact lt_trans hkvlt (hs.get_lt hjr hj)

/-- Replacing separator `r` with a larger key that still clears the
window keeps the separators sorted. -/
theorem sorted_set_sep_gt {ks : List KeyVal} (hs : SortedK ks) {r : Nat}
    (hr : r < ks.length) {kv : KeyVal} {hi : Option Nat}
    (hkgt : (ks.getD r dKV).key < kv.key) (hkvhi : hiGt (winHi hi ks (r + 1)) kv.key) :
    SortedK (ks.set r kv) := by
  refine sorted_set_key hs hr ?_ ?_
  · intro i' hi'
    exact lt_trans (hs.get_lt hi' hr) hkgt
  · intro j hjr hj
    rw [winHi] at hkvhi
    by_cases hE : r + 1 = ks.length
    · omega
    · rw [if_neg hE, hiGt_some] at hkvhi
      rcases Nat.eq_or_lt_of_le (show r + 1 ≤ j by omega) with heq | hlt2
      · rw [← heq]
        exact hkvhi
      · exact lt_trans hkvhi (hs.get_lt hlt2 hj)

/-- Replace separator `r` and child `r`, leaving child `r + 1` in place. -/
theorem WFCs.setSepChildL {S : Nat} {lo hi : Option Nat} {ks : List KeyVal}
    {cs : List Node} (hcs : WFCs S lo hi ks cs) {i : Nat} {kv : KeyVal} {X : Node}
    (hi_ : i < ks.length)
    (hX : WFC S (winLo lo ks i) (some kv.key) X)
    (hR : WFC S (some kv.key) (winHi hi ks (i + 1)) (cs.getD (i + 1) nilNode)) :
    WFCs S lo hi (ks.set i kv) (cs.set i X) := by
  have hlen := hcs.len
  have h := hcs.setSepChildren i kv X (cs.getD (i + 1) nilNode) hi_ hX hR
  have h1 : (cs.set i X).getD (i + 1) nilNode = cs.getD (i + 1) nilNode :=
    getD_set_ne _ _ _ (by omega)
  rw [← h1, set_getD_self _ nilNode (by rw [List.length_set]; omega)] at h
  exact h

/-- Replace separator `r` and child `r + 1`, leaving child `r` in place. -/
theorem WFCs.setSepChildR2 {S : Nat} {lo hi : Option Nat} {ks : List KeyVal}
    {cs : List Node} (hcs : WFCs S lo hi ks cs) {i : Nat} {kv : KeyVal} {Y : Node}
    (hi_ : i < ks.length)
    (hL : WFC S (winLo lo ks i) (some kv.key) (cs.getD i nilNode))
    (hY : WFC S (some kv.key) (winHi hi ks (i + 1)) Y) :
    WFCs S lo hi (ks.set i kv) (cs.set (i + 1) Y) := by
  have hlen := hcs.len
  have h := hcs.setSepChildren i kv (cs.getD i nilNode) Y hi_ hL hY
  rwa [set_getD_self cs nilNode (by omega)] at h

theorem heights_set_all {ps : List Node} {i : Nat} (hi_ : i < ps.length)
    (hh : ∀ c ∈ ps, c.height = (ps.headD nilNode).height) {X : Node}
    (hX : X.height = (ps.getD i nilNode).height) :
    ∀ x ∈ ps.set i X, x.height = (ps.headD nilNode).height := by
  intro x hx
  rcases List.mem_or_eq_of_mem_set hx with hx' | rfl
  · exact hh x hx'
  · rw [hX]
    exact hh _ (getD_mem nilNode hi_)

theorem heights_set {ps : List Node} {i : Nat} (hi_ : i < ps.length)
    (hh : ∀ c ∈ ps, c.height = (ps.headD nilNode).height) {X : Node}
    (hX : X.height = (ps.getD i nilNode).height) :
    ∀ x ∈ ps.set i X, x.height = ((ps.set i X).headD nilNode).height := by
  have hpne : ps ≠ [] := by
    rw [← List.length_pos_iff_ne_nil]
    omega
  have hall := heights_set_all hi_ hh hX
  intro x hx
  have hhd : ((ps.set i X).headD nilNode).height = (ps.headD nilNode).height := by
    by_cases h0 : i = 0
    · subst h0
      cases ps with
      | nil => exact absurd rfl hpne
      | cons p t =>
        rw [List.set_cons_zero, List.headD_cons, List.headD_cons, hX,
          List.getD_cons_zero]
    · rw [headD_set_of_pos ps _ nilNode (by omega)]
  rw [hhd]
  exact hall x hx

/-! ## Unfold equations for `Node::delete` -/

theorem Node.delete_unfold_ok_leaf {S : Nat} {ks : List KeyVal} {ps : List Node}
    {k i : Nat} (h : find_index ks k = .ok i) :
    Node.delete S k (.mk true ks ps) =
      (.mk true (ks.eraseIdx i) ps, some (ks.getD i dKV).value) := by
  rw [Node.delete.eq_def]
  simp only []
  rw [h]
  rfl

theorem Node.delete_unfold_err_leaf {S : Nat} {ks : List KeyVal} {ps : List Node}
    {k i : Nat} (h : find_index ks k = .error i) :
    Node.delete S k (.mk true ks ps) = (.mk true ks ps, none) := by
  rw [Node.delete.eq_def]
  simp only []
  rw [h]
  rfl

theorem Node.delete_unfold_err_node {S : Nat} {ks : List KeyVal} {ps : List Node}
    {k i : Nat} {c : Node} (h : find_index ks k = .error i) (hc : ps[i]? = some c) :
    Node.delete S k (.mk false ks ps) =
      (Node.rebalance S (.mk false ks (ps.set i (Node.delete S k c).1)) i,
        (Node.delete S k c).2) := by
  rw [Node.delete.eq_def]
  simp only []
  rw [h]
  simp only [Bool.false_eq_true, if_false]
  split
  · next c' hc' =>
    rw [hc] at hc'
    cases hc'
    rfl
  · next hc' =>
    rw [hc] at hc'
    cases hc'

theorem Node.delete_unfold_ok_left {S : Nat} {ks : List KeyVal} {ps : List Node}
    {k i : Nat} {kv : KeyVal} {left' : Node} (h : find_index ks k = .ok i)
    (hL : Node.remove_most_leftright S false false (ps.getD i nilNode) =
      some (kv, left')) :
    Node.delete S k (.mk false ks ps) =
      (.mk false (ks.set i kv) (ps.set i left'), some (ks.getD i dKV).value) := by
  rw [Node.delete.eq_def]
  simp only []
  rw [h]
  simp only [Bool.false_eq_true, if_false]
  rw [hL]

theorem Node.delete_unfold_ok_right {S : Nat} {ks : List KeyVal} {ps : List Node}
    {k i : Nat} {kv : KeyVal} {right' : Node} (h : find_index ks k = .ok i)
    (hL : Node.remove_most_leftright S false false (ps.getD i nilNode) = none)
    (hR : Node.remove_most_leftright S true false (ps.getD (i + 1) nilNode) =
      some (kv, right')) :
    Node.delete S k (.mk false ks ps) =
      (.mk false (ks.set i kv) (ps.set (i + 1) right'),
        some (ks.getD i dKV).value) := by
  rw [Node.delete.eq_def]
  simp only []
  rw [h]
  simp only [Bool.false_eq_true, if_false]
  rw [hL, hR]

theorem Node.delete_unfold_ok_forceL {S : Nat} {ks : List KeyVal} {ps : List Node}
    {k i : Nat} {kv : KeyVal} {c' : Node} (h : find_index ks k = .ok i)
    (hpar : (i % 2 == 0) = true)
    (hL : Node.remove_most_leftright S false false (ps.getD i nilNode) = none)
    (hR : Node.remove_most_leftright S true false (ps.getD (i + 1) nilNode) = none)
    (hF : Node.remove_most_leftright S false true (ps.getD i nilNode) =
      some (kv, c')) :
    Node.delete S k (.mk false ks ps) =
      (Node.rebalance S (.mk false (ks.set i kv)
          (ps.set i (Node.rebalance_most_leftright S false c'))) i,
        some (ks.getD i dKV).value) := by
  rw [Node.delete.eq_def]
  simp only []
  rw [h]
  simp only [Bool.false_eq_true, if_false]
  rw [hL, hR, hpar]
  simp only [if_true, Bool.not_true]
  rw [hF]

theorem Node.delete_unfold_ok_forceR {S : Nat} {ks : List KeyVal} {ps : List Node}
    {k i : Nat} {kv : KeyVal} {c' : Node} (h : find_index ks k = .ok i)
    (hpar : (i % 2 == 0) = false)
    (hL : Node.remove_most_leftright S false false (ps.getD i nilNode) = none)
    (hR : Node.remove_most_leftright S true false (ps.getD (i + 1) nilNode) = none)
    (hF : Node.remove_most_leftright S true true (ps.getD (i + 1) nilNode) =
      some (kv, c')) :
    Node.delete S k (.mk false ks ps) =
      (Node.rebalance S (.mk false (ks.set i kv)
          (ps.set (i + 1) (Node.rebalance_most_leftright S true c'))) (i + 1),
        some (ks.getD i dKV).value) := by
  rw [Node.delete.eq_def]
  simp only []
  rw [h]
  simp only [Bool.false_eq_true, if_false]
  rw [hL, hR, hpar]
  simp only [Bool.false_eq_true, if_false, Bool.not_false]
  rw [hF]

theorem height_internal_headD {ks : List KeyVal} {ps : List Node} (h : ps ≠ []) :
    (Node.mk false ks ps).height = (ps.headD nilNode).height + 1 := by
  cases ps with
  | nil => exact absurd rfl h
  | cons c t => rw [Node.height_cons, List.headD_cons]

theorem headD_set_height {ps : List Node} {i : Nat} (hi_ : i < ps.length) {X : Node}
    (hX : X.height = (ps.getD i nilNode).height) :
    ((ps.set i X).headD nilNode).height = (ps.headD nilNode).height := by
  by_cases h0 : i = 0
  · subst h0
    cases ps with
    | nil => simp at hi_
    | cons p t =>
      rw [List.set_cons_zero, List.headD_cons, List.headD_cons, hX,
        List.getD_cons_zero]
  · rw [headD_set_of_pos ps _ nilNode (by omega)]

/-! ## The `delete` master theorem -/

/-- Specification of one `Node::delete` call on a well-formed subtree:
the removed value is the one bound to the key in the in-order sequence,
the node kind and height are preserved, the result is well-formed in the
same window, its in-order sequence is the old one minus the key, and the
entry count drops by at most one. -/
def DeleteSpec (S : Nat) (lo hi : Option Nat) (n : Node) (k : Nat)
    (out : Node × Option Nat) : Prop :=
  out.2 = valAt n.toList k ∧
  out.1.is_leaf = n.is_leaf ∧
  out.1.height = n.height ∧
  WFC S lo hi out.1 ∧
  out.1.toList = delList n.toList k ∧
  n.keys.length - 1 ≤ out.1.keys.length ∧
  out.1.keys.length ≤ n.keys.length

theorem delete_wf {S : Nat} : ∀ {lo hi n}, WFC S lo hi n →
    (n.is_leaf = false → 1 ≤ n.keys.length) → 1 ≤ S → ∀ k,
    loLt lo k → hiGt hi k → DeleteSpec S lo hi n k (Node.delete S k n)
  | _, _, _, @WFC.leaf _ lo hi ks hs hb hl, _, hS, k, hklo, hkhi => by
    rw [DeleteSpec]
    cases hhk : hasKey ks k with
    | false =>
      rw [Node.delete_unfold_err_leaf (by rw [find_index_eq hs, hhk]; rfl)]
      have hno : ∀ kv ∈ ks, kv.key ≠ k := by
        intro kv hkv hek
        rw [hasKey, List.any_eq_false] at hhk
        have := hhk kv hkv
        simp [hek] at this
      refine ⟨?_, rfl, rfl, .leaf hs hb hl, ?_, Nat.sub_le ks.length 1, le_rfl⟩
      · rw [Node.toList_leaf, valAt_sorted hs, hhk]
        rfl
      · rw [Node.toList_leaf, delList_of_no_match hno]
    | true =>
      obtain ⟨hrlt, hrkey⟩ := hasKey_rank hs hhk
      rw [Node.delete_unfold_ok_leaf (by rw [find_index_eq hs, hhk]; rfl)]
      refine ⟨?_, rfl, rfl, ?_, ?_, ?_, ?_⟩
      · rw [Node.toList_leaf, valAt_sorted hs, hhk, if_pos rfl]
      · refine .leaf (sorted_eraseIdx hs _)
          (fun kv hkv => hb kv (mem_of_mem_eraseIdx hkv)) ?_
        rw [List.length_eraseIdx_of_lt hrlt]
        omega
      · rw [Node.toList_leaf, Node.toList_leaf, delList_erase hs hhk]
      · simp only [Node.keys_mk]
        rw [List.length_eraseIdx_of_lt hrlt]
      · simp only [Node.keys_mk]
        rw [List.length_eraseIdx_of_lt hrlt]
        omega
  | _, _, _, @WFC.node _ lo hi ks ps hs hb hl hp hm hh hcs, hkk, hS, k, hklo, hkhi => by
    have hks1 : 1 ≤ ks.length := by simpa using hkk rfl
    have hne : ps ≠ [] := by
      rw [← List.length_pos_iff_ne_nil]
      omega
    rw [DeleteSpec]
    have hval := WFCs.valAt_inter hcs hs hb k hklo hkhi
    cases hhk : hasKey ks k with
    | false =>
      have hrle : rankOf ks k ≤ ks.length := rankOf_le_length ks k
      have hrlt : rankOf ks k < ps.length := by omega
      have hget : ps[rankOf ks k]? = some (ps.getD (rankOf ks k) nilNode) := by
        rw [getD_eq _ _ hrlt]
        exact List.getElem?_eq_getElem hrlt
      have hWc := hcs.get (rankOf ks k) hrle
      have hwlo : loLt (winLo lo ks (rankOf ks k)) k := rank_winLo hs hklo
      have hwhi : hiGt (winHi hi ks (rankOf ks k)) k := rank_winHi hs hhk hkhi
      have hkk' : (ps.getD (rankOf ks k) nilNode).is_leaf = false →
          1 ≤ (ps.getD (rankOf ks k) nilNode).keys.length :=
        fun _ => le_trans hS (hm _ (getD_mem nilNode hrlt))
      have IH := delete_wf hWc hkk' hS k hwlo hwhi
      rw [DeleteSpec] at IH
      obtain ⟨hv, hlf, hht, hW', hTL, hk1, hk2⟩ := IH
      obtain ⟨C, hC⟩ : ∃ C, (Node.delete S k (ps.getD (rankOf ks k) nilNode)).1 = C :=
        ⟨_, rfl⟩
      rw [hC] at hlf hht hW' hTL hk1 hk2
      rw [Node.delete_unfold_err_node (by rw [find_index_eq hs, hhk]; rfl) hget, hC]
      have hcnt' : (ps.set (rankOf ks k) C).length = ks.length + 1 := by
        rw [List.length_set]
        exact hp
      have hilt' : rankOf ks k < (ps.set (rankOf ks k) C).length := by
        rw [List.length_set]
        exact hrlt
      have hmins' : ∀ j, j < (ps.set (rankOf ks k) C).length → j ≠ rankOf ks k →
          S ≤ ((ps.set (rankOf ks k) C).getD j nilNode).keys.length := by
        intro j hj hji
        rw [List.length_set] at hj
        rw [getD_set_ne _ _ _ (Ne.symm hji)]
        exact hm _ (getD_mem nilNode hj)
      have hdef' : S - 1 ≤
          ((ps.set (rankOf ks k) C).getD (rankOf ks k) nilNode).keys.length := by
        rw [getD_set_self _ _ _ _ hrlt]
        have := hm _ (getD_mem nilNode hrlt)
        omega
      have hhts' : ∀ x ∈ ps.set (rankOf ks k) C,
          x.height = ((ps.set (rankOf ks k) C).headD nilNode).height :=
        heights_set hrlt hh hht
      have hcs' : WFCs S lo hi ks (ps.set (rankOf ks k) C) := hcs.set _ C hrle hW'
      obtain ⟨hRw, hRt, hRl, hRh, hRk1, hRk2⟩ :=
        rebalance_wf hS hs hb hl hcnt' hks1 hilt' hmins' hdef' hhts' hcs'
      refine ⟨?_, ?_, ?_, hRw, ?_, hRk1, hRk2⟩
      · exact hv.trans (by rw [Node.toList_internal, hval.2 hhk])
      · exact hRl
      · exact hRh.trans (by
          rw [height_internal_headD
              (by rw [← List.length_pos_iff_ne_nil, List.length_set]; omega),
            height_internal_headD hne, headD_set_height hrlt hht])
      · exact hRt.trans (by
          rw [interleave_set_child hp hrle C, hTL, Node.toList_internal,
            delList_inter_child hcs hs hb hrle hwlo hwhi])
    | true =>
      obtain ⟨hrlt0, hrkey0⟩ := hasKey_rank hs hhk
      obtain ⟨i, hidef⟩ : ∃ i, rankOf ks k = i := ⟨_, rfl⟩
      rw [hidef] at hrlt0 hrkey0
      have hfi : find_index ks k = .ok i := by
        rw [find_index_eq hs, hhk, if_pos rfl, hidef]
      have hvOk : valAt (interleave ks ps) k = some ((ks.getD i dKV).value) := by
        rw [hval.1 hhk, valAt_sorted hs, hhk, if_pos rfl, hidef]
      have hi1lt : i + 1 < ps.length := by omega
      have hWl := hcs.get i (le_of_lt hrlt0)
      have hWhiEq : winHi hi ks i = some k := by
        rw [winHi, if_neg (by omega), hrkey0]
      rw [hWhiEq] at hWl
      have hWr := hcs.get (i + 1) (by omega)
      have hWloEq : winLo lo ks (i + 1) = some k := by
        rw [winLo, if_neg (by omega)]
        simp only [Nat.add_sub_cancel]
        rw [hrkey0]
      rw [hWloEq] at hWr
      have hmL : S ≤ (ps.getD i nilNode).keys.length :=
        hm _ (getD_mem nilNode (by omega))
      have hmR : S ≤ (ps.getD (i + 1) nilNode).keys.length :=
        hm _ (getD_mem nilNode hi1lt)
      have hlneL : (ps.getD i nilNode).toList ≠ [] := hWl.toList_ne_nil (by omega)
      have hlneR : (ps.getD (i + 1) nilNode).toList ≠ [] := hWr.toList_ne_nil (by omega)
      have hjoinL : ∀ Y : List KeyVal,
          (ps.getD i nilNode).toList.dropLast ++
            (ps.getD i nilNode).toList.getLastD dKV :: Y =
          (ps.getD i nilNode).toList ++ Y := by
        intro Y
        conv_rhs => rw [← dropLast_append_getLastD dKV hlneL]
        rw [List.append_assoc, List.singleton_append]
      have hjoinR : (ps.getD (i + 1) nilNode).toList.headD dKV ::
            (ps.getD (i + 1) nilNode).toList.drop 1 =
          (ps.getD (i + 1) nilNode).toList := by
        rw [List.drop_one, headD_cons_tail dKV hlneR]
      have hLmem : (ps.getD i nilNode).toList.getLastD dKV ∈
          (ps.getD i nilNode).toList := getLastD_mem dKV hlneL
      have hLlt : ((ps.getD i nilNode).toList.getLastD dKV).key < k := by
        have := (hWl.toList_bdd _ hLmem).2
        rwa [hiGt_some] at this
      have hLlo : loLt (winLo lo ks i)
          (((ps.getD i nilNode).toList.getLastD dKV).key) :=
        (hWl.toList_bdd _ hLmem).1
      have hRmem : (ps.getD (i + 1) nilNode).toList.headD dKV ∈
          (ps.getD (i + 1) nilNode).toList := headD_mem dKV hlneR
      have hRgt : k < ((ps.getD (i + 1) nilNode).toList.headD dKV).key := by
        have := (hWr.toList_bdd _ hRmem).1
        rwa [loLt_some] at this
      have hRhi : hiGt (winHi hi ks (i + 1))
          (((ps.getD (i + 1) nilNode).toList.headD dKV).key) :=
        (hWr.toList_bdd _ hRmem).2
      by_cases hspl : S < (spineLeaf false (ps.getD i nilNode)).keys.length
      · -- non-forced removal from the left subtree's maximum
        obtain ⟨kv, left', hrm, hWl', hH', hLf', hTl', hkv, hc1, hc2, hcS⟩ :=
          (remove_nonforce_right hWl hS).2 hspl
        subst hkv
        rw [Node.delete_unfold_ok_left hfi hrm]
        have hkvlt : ((ps.getD i nilNode).toList.getLastD dKV).key <
            (ks.getD i dKV).key := by
          rw [hrkey0]
          exact hLlt
        have hWn : WFC S (winLo lo ks i)
            (some (((ps.getD i nilNode).toList.getLastD dKV).key)) left' := by
          refine hWl'.narrow_hi ?_
          rw [hTl']
          exact sorted_dropLast_lt_last (hWl.toList_sorted) hlneL
        have hWrm : WFC S (some (((ps.getD i nilNode).toList.getLastD dKV).key))
            (winHi hi ks (i + 1)) (ps.getD (i + 1) nilNode) :=
          hWr.mono (fun x hx => by rw [loLt_some] at hx ⊢; omega) (fun _ hx => hx)
        have hcs' := hcs.setSepChildL hrlt0 hWn hWrm
        refine ⟨?_, rfl, ?_, ?_, ?_, ?_, ?_⟩
        · rw [Node.toList_internal, hvOk]
        · rw [height_internal_headD
              (by rw [← List.length_pos_iff_ne_nil, List.length_set]; omega),
            height_internal_headD hne, headD_set_height (by omega) hH']
        · refine WFC.node (sorted_set_sep_lt hs hrlt0 hLlo hkvlt) ?_
            (by rw [List.length_set]; exact hl)
            (by rw [List.length_set, List.length_set]; exact hp) ?_
            (heights_set (by omega) hh hH') hcs'
          · intro x hx
            rcases List.mem_or_eq_of_mem_set hx with hx' | rfl
            · exact hb x hx'
            · exact ⟨loLt_of_winLo hLlo (fun kv' h' => (hb kv' h').1) (by omega),
                hiGt_trans hkhi (le_of_lt hLlt)⟩
          · intro c hc
            rcases List.mem_or_eq_of_mem_set hc with hc' | rfl
            · exact hm c hc'
            · exact hcS hmL
        · rw [Node.toList_internal, Node.toList_internal,
            interleave_set_sep_child hp hrlt0 _ left',
            drop_cons_self ps nilNode hi1lt, interleave_drop_cons, hTl', hjoinL,
            ← hrkey0, delList_inter_sep hcs hs hb hrlt0]
        · simp only [Node.keys_mk, List.length_set]
          omega
        · simp only [Node.keys_mk, List.length_set]
          omega
      · by_cases hspr : S < (spineLeaf true (ps.getD (i + 1) nilNode)).keys.length
        · -- non-forced removal from the right subtree's minimum
          obtain ⟨kv, right', hrm, hWr', hH', hLf', hTl', hkv, hc1, hc2, hcS⟩ :=
            (remove_nonforce_left hWr hS).2 hspr
          subst hkv
          rw [Node.delete_unfold_ok_right hfi
            ((remove_nonforce_right hWl hS).1 (by omega)) hrm]
          have hkgt : (ks.getD i dKV).key <
              ((ps.getD (i + 1) nilNode).toList.headD dKV).key := by
            rw [hrkey0]
            exact hRgt
          have hWn : WFC S (some (((ps.getD (i + 1) nilNode).toList.headD dKV).key))
              (winHi hi ks (i + 1)) right' := by
            refine hWr'.narrow_lo ?_
            rw [hTl', List.drop_one]
            exact sorted_tail_gt_head (hWr.toList_sorted)
          have hWlm : WFC S (winLo lo ks i)
              (some (((ps.getD (i + 1) nilNode).toList.headD dKV).key))
              (ps.getD i nilNode) :=
            hWl.mono (fun _ hx => hx) (fun x hx => by rw [hiGt_some] at hx ⊢; omega)
          have hcs' := hcs.setSepChildR2 hrlt0 hWlm hWn
          refine ⟨?_, rfl, ?_, ?_, ?_, ?_, ?_⟩
          · rw [Node.toList_internal, hvOk]
          · rw [height_internal_headD
                (by rw [← List.length_pos_iff_ne_nil, List.length_set]; omega),
              height_internal_headD hne, headD_set_height hi1lt hH']
          · refine WFC.node (sorted_set_sep_gt hs hrlt0 hkgt hRhi) ?_
              (by rw [List.length_set]; exact hl)
              (by rw [List.length_set, List.length_set]; exact hp) ?_
              (heights_set hi1lt hh hH') hcs'
            · intro x hx
              rcases List.mem_or_eq_of_mem_set hx with hx' | rfl
              · exact hb x hx'
              · exact ⟨loLt_trans hklo (le_of_lt hRgt),
                  hiGt_of_winHi hRhi (fun kv' h' => (hb kv' h').2) (by omega)⟩
            · intro c hc
              rcases List.mem_or_eq_of_mem_set hc with hc' | rfl
              · exact hm c hc'
              · exact hcS hmR
          · rw [Node.toList_internal, Node.toList_internal,
              interleave_set_sep_childR hp hrlt0 _ right', hTl',
              ← List.cons_append, hjoinR, ← hrkey0, delList_inter_sep hcs hs hb hrlt0]
          · simp only [Node.keys_mk, List.length_set]
            omega
          · simp only [Node.keys_mk, List.length_set]
            omega
        · -- forced removal, donor side chosen by parity of the entry index
          have hnoL : Node.remove_most_leftright S false false (ps.getD i nilNode) =
              none := (remove_nonforce_right hWl hS).1 (by omega)
          have hnoR : Node.remove_most_leftright S true false
              (ps.getD (i + 1) nilNode) = none :=
            (remove_nonforce_left hWr hS).1 (by omega)
          cases hpar : (i % 2 == 0) with
          | true =>
            obtain ⟨kv, c', hrm, hWC, hCh, hCl, hCt, hkv, hc1, hc2⟩ :=
              remove_force_right hWl hS (by omega)
            subst hkv
            obtain ⟨C, hC⟩ : ∃ C, Node.rebalance_most_leftright S false c' = C :=
              ⟨_, rfl⟩
            rw [hC] at hWC hCh hCl hCt hc1 hc2
            rw [Node.delete_unfold_ok_forceL hfi hpar hnoL hnoR hrm, hC]
            have hkvlt : ((ps.getD i nilNode).toList.getLastD dKV).key <
                (ks.getD i dKV).key := by
              rw [hrkey0]
              exact hLlt
            have hWn : WFC S (winLo lo ks i)
                (some (((ps.getD i nilNode).toList.getLastD dKV).key)) C := by
              refine hWC.narrow_hi ?_
              rw [hCt]
              exact sorted_dropLast_lt_last (hWl.toList_sorted) hlneL
            have hWrm : WFC S (some (((ps.getD i nilNode).toList.getLastD dKV).key))
                (winHi hi ks (i + 1)) (ps.getD (i + 1) nilNode) :=
              hWr.mono (fun x hx => by rw [loLt_some] at hx ⊢; omega) (fun _ hx => hx)
            have hcs' := hcs.setSepChildL hrlt0 hWn hWrm
            have hs' := sorted_set_sep_lt hs hrlt0 hLlo hkvlt
            have hb' : ∀ x ∈ ks.set i ((ps.getD i nilNode).toList.getLastD dKV),
                loLt lo x.key ∧ hiGt hi x.key := by
              intro x hx
              rcases List.mem_or_eq_of_mem_set hx with hx' | rfl
              · exact hb x hx'
              · exact ⟨loLt_of_winLo hLlo (fun kv' h' => (hb kv' h').1) (by omega),
                  hiGt_trans hkhi (le_of_lt hLlt)⟩
            have hlen' : (ks.set i ((ps.getD i nilNode).toList.getLastD dKV)).length ≤
                2 * S := by
              rw [List.length_set]
              exact hl
            have hcnt' : (ps.set i C).length =
                (ks.set i ((ps.getD i nilNode).toList.getLastD dKV)).length + 1 := by
              rw [List.length_set, List.length_set]
              exact hp
            have hks1' :
                1 ≤ (ks.set i ((ps.getD i nilNode).toList.getLastD dKV)).length := by
              rw [List.length_set]
              omega
            have hilt' : i < (ps.set i C).length := by
              rw [List.length_set]
              omega
            have hmins' : ∀ j, j < (ps.set i C).length → j ≠ i →
                S ≤ ((ps.set i C).getD j nilNode).keys.length := by
              intro j hj hji
              rw [List.length_set] at hj
              rw [getD_set_ne _ _ _ (Ne.symm hji)]
              exact hm _ (getD_mem nilNode hj)
            have hdef' : S - 1 ≤ ((ps.set i C).getD i nilNode).keys.length := by
              rw [getD_set_self _ _ _ _ (by omega)]
              omega
            have hhts' := heights_set (show i < ps.length by omega) hh hCh
            obtain ⟨hRw, hRt, hRl, hRh, hRk1, hRk2⟩ :=
              rebalance_wf hS hs' hb' hlen' hcnt' hks1' hilt' hmins' hdef' hhts' hcs'
            refine ⟨?_, ?_, ?_, hRw, ?_, ?_, ?_⟩
            · rw [Node.toList_internal, hvOk]
            · exact hRl
            · exact hRh.trans (by
                rw [height_internal_headD
                    (by rw [← List.length_pos_iff_ne_nil, List.length_set]; omega),
                  height_internal_headD hne, headD_set_height (by omega) hCh])
            · exact hRt.trans (by
                rw [interleave_set_sep_child hp hrlt0 _ C,
                  drop_cons_self ps nilNode hi1lt, interleave_drop_cons, hCt, hjoinL,
                  Node.toList_internal, ← hrkey0, delList_inter_sep hcs hs hb hrlt0])
            · have h := hRk1
              rw [List.length_set] at h
              exact h
            · have h := hRk2
              rw [List.length_set] at h
              exact h
          | false =>
            obtain ⟨kv, c', hrm, hWC, hCh, hCl, hCt, hkv, hc1, hc2⟩ :=
              remove_force_left hWr hS (by omega)
            subst hkv
            obtain ⟨C, hC⟩ : ∃ C, Node.rebalance_most_leftright S true c' = C :=
              ⟨_, rfl⟩
            rw [hC] at hWC hCh hCl hCt hc1 hc2
            rw [Node.delete_unfold_ok_forceR hfi hpar hnoL hnoR hrm, hC]
            have hkgt : (ks.getD i dKV).key <
                ((ps.getD (i + 1) nilNode).toList.headD dKV).key := by
              rw [hrkey0]
              exact hRgt
            have hWn : WFC S (some (((ps.getD (i + 1) nilNode).toList.headD dKV).key))
                (winHi hi ks (i + 1)) C := by
              refine hWC.narrow_lo ?_
              rw [hCt, List.drop_one]
              exact sorted_tail_gt_head (hWr.toList_sorted)
            have hWlm : WFC S (winLo lo ks i)
                (some (((ps.getD (i + 1) nilNode).toList.headD dKV).key))
                (ps.getD i nilNode) :=
              hWl.mono (fun _ hx => hx) (fun x hx => by rw [hiGt_some] at hx ⊢; omega)
            have hcs' := hcs.setSepChildR2 hrlt0 hWlm hWn
            have hs' := sorted_set_sep_gt hs hrlt0 hkgt hRhi
            have hb' : ∀ x ∈ ks.set i ((ps.getD (i + 1) nilNode).toList.headD dKV),
                loLt lo x.key ∧ hiGt hi x.key := by
              intro x hx
              rcases List.mem_or_eq_of_mem_set hx with hx' | rfl
              · exact hb x hx'
              · exact ⟨loLt_trans hklo (le_of_lt hRgt),
                  hiGt_of_winHi hRhi (fun kv' h' => (hb kv' h').2) (by omega)⟩
            have hlen' :
                (ks.set i ((ps.getD (i + 1) nilNode).toList.headD dKV)).length ≤
                2 * S := by
              rw [List.length_set]
              exact hl
            have hcnt' : (ps.set (i + 1) C).length =
                (ks.set i ((ps.getD (i + 1) nilNode).toList.headD dKV)).length + 1 := by
              rw [List.length_set, List.length_set]
              exact hp
            have hks1' : 1 ≤
                (ks.set i ((ps.getD (i + 1) nilNode).toList.headD dKV)).length := by
              rw [List.length_set]
              omega
            have hilt' : i + 1 < (ps.set (i + 1) C).length := by
              rw [List.length_set]
              omega
            have hmins' : ∀ j, j < (ps.set (i + 1) C).length → j ≠ i + 1 →
                S ≤ ((ps.set (i + 1) C).getD j nilNode).keys.length := by
              intro j hj hji
              rw [List.length_set] at hj
              rw [getD_set_ne _ _ _ (Ne.symm hji)]
              exact hm _ (getD_mem nilNode hj)
            have hdef' : S - 1 ≤ ((ps.set (i + 1) C).getD (i + 1) nilNode).keys.length := by
              rw [getD_set_self _ _ _ _ hi1lt]
              omega
            have hhts' := heights_set hi1lt hh hCh
            obtain ⟨hRw, hRt, hRl, hRh, hRk1, hRk2⟩ :=
              rebalance_wf hS hs' hb' hlen' hcnt' hks1' hilt' hmins' hdef' hhts' hcs'
            refine ⟨?_, ?_, ?_, hRw, ?_, ?_, ?_⟩
            · rw [Node.toList_internal, hvOk]
            · exact hRl
            · exact hRh.trans (by
                rw [height_internal_headD
                    (by rw [← List.length_pos_iff_ne_nil, List.length_set]; omega),
                  height_internal_headD hne, headD_set_height hi1lt hCh])
            · exact hRt.trans (by
                rw [interleave_set_sep_childR hp hrlt0 _ C, hCt,
                  ← List.cons_append, hjoinR, Node.toList_internal, ← hrkey0,
                  delList_inter_sep hcs hs hb hrlt0])
            · have h := hRk1
              rw [List.length_set] at h
              exact h
            · have h := hRk2
              rw [List.length_set] at h
              exact h
  termination_by lo hi n _ => sizeOf n
  decreasing_by
    rw [getD_eq _ _ hrlt]
    exact Node.sizeOf_lt_of_mem (List.getElem_mem _)

theorem WFC.pivots_length {S : Nat} {lo hi : Option Nat} {n : Node} (h : WFC S lo hi n)
    (hlf : n.is_leaf = false) : n.pivots.length = n.keys.length + 1 := by
  cases h with
  | leaf _ _ _ => simp at hlf
  | node _ _ _ hp _ _ _ => simpa using hp

/-- Collapsing an internal root left with a single child. -/
theorem WFC.collapse {S : Nat} {n : Node} (hW : WFC S none none n)
    (hlf : n.is_leaf = false) (hp1 : n.pivots.length = 1) :
    WFC S none none (n.pivots.getD 0 nilNode) ∧
    S ≤ (n.pivots.getD 0 nilNode).keys.length ∧
    (n.pivots.getD 0 nilNode).toList = n.toList ∧
    (n.pivots.getD 0 nilNode).height + 1 = n.height := by
  obtain ⟨il, ks, ps⟩ := n
  simp only [Node.is_leaf_mk] at hlf
  subst hlf
  simp only [Node.pivots_mk] at hp1 ⊢
  cases hW with
  | node hs hb hl hp hm hh hcs =>
    have hks : ks = [] := List.length_eq_zero.mp (by omega)
    subst hks
    obtain ⟨c, hceq, hWc⟩ := WFCs.nil_inv hcs
    subst hceq
    refine ⟨by simpa using hWc, hm _ (by simp), ?_, ?_⟩
    · simp only [List.getD_cons_zero, Node.toList_internal, interleave_nil_cons]
    · rw [Node.height_cons]
      simp

/-- `BTree::delete` on a well-formed root: the removed value is the one
bound to the key, the in-order sequence loses exactly the key, the root
stays well-formed, and the height shrinks by one exactly when the
post-delete root is internal with a single child. -/
theorem BTree.delete_spec {S : Nat} {t : Node} (h : WFRoot S t) (hS : 1 ≤ S) (k : Nat) :
    WFRoot S (BTree.delete S t k).1 ∧
    (BTree.delete S t k).2 = valAt t.toList k ∧
    (BTree.delete S t k).1.toList = delList t.toList k ∧
    ((¬((Node.delete S k t).1.is_leaf = false ∧
          (Node.delete S k t).1.pivots.length = 1) ∧
        (BTree.delete S t k).1 = (Node.delete S k t).1 ∧
        (BTree.delete S t k).1.height = t.height) ∨
      (((Node.delete S k t).1.is_leaf = false ∧
          (Node.delete S k t).1.pivots.length = 1) ∧
        (BTree.delete S t k).1 = (Node.delete S k t).1.pivots.getD 0 nilNode ∧
        (BTree.delete S t k).1.height + 1 = t.height)) := by
  obtain ⟨hWt, hkk⟩ := h
  have hD := delete_wf hWt hkk hS k trivial trivial
  rw [DeleteSpec] at hD
  obtain ⟨hv, hlf, hht, hW, hTL, hk1, hk2⟩ := hD
  rw [BTree.delete]
  by_cases hcond : (Node.delete S k t).1.is_leaf = false ∧
      (Node.delete S k t).1.pivots.length = 1
  · obtain ⟨hWc, hSc, hTc, hHc⟩ := WFC.collapse hW hcond.1 hcond.2
    rw [if_pos hcond]
    exact ⟨⟨hWc, fun _ => le_trans hS hSc⟩, hv, hTc.trans hTL,
      .inr ⟨hcond, rfl, hHc.trans hht⟩⟩
  · rw [if_neg hcond]
    refine ⟨⟨hW, ?_⟩, hv, hTL, .inl ⟨hcond, rfl, hht⟩⟩
    intro hlf2
    show 1 ≤ (Node.delete S k t).1.keys.length
    by_contra hk0
    apply hcond
    exact ⟨hlf2, by rw [hW.pivots_length hlf2]; omega⟩

/-! ## Bridge from `WFC` to the five structural invariants -/

theorem allNodes_mk (p : Node → Bool) (il : Bool) (ks : List KeyVal) (ps : List Node) :
    allNodes p (.mk il ks ps) = (p (.mk il ks ps) && ps.all (fun c => allNodes p c)) := by
  rw [allNodes, attach_all_eq]

theorem allKeyList_mk (il : Bool) (ks : List KeyVal) (ps : List Node) :
    (Node.mk il ks ps).allKeyList =
      ks.map (fun kv => kv.key) ++ (ps.map Node.allKeyList).flatten := by
  rw [Node.allKeyList, attach_map_eq]

theorem leafDepths_mk_false (ks : List KeyVal) (ps : List Node) (d : Nat) :
    leafDepths (.mk false ks ps) d = (ps.map (fun c => leafDepths c (d + 1))).flatten := by
  rw [leafDepths]
  congr 1
  exact attach_map_eq ps (fun c => leafDepths c (d + 1))

theorem occOK_mk (S : Nat) (root il : Bool) (ks : List KeyVal) (ps : List Node) :
    occOK S root (.mk il ks ps) =
      ((if root then
          if il then decide (ks.length ≤ 2 * S)
          else decide (1 ≤ ks.length ∧ ks.length ≤ 2 * S)
        else decide (S ≤ ks.length ∧ ks.length ≤ 2 * S)) &&
       ps.all (fun c => occOK S false c)) := by
  rw [occOK, attach_all_eq]

mutual

theorem WFC.inv_sorted {S : Nat} : ∀ {lo hi n}, WFC S lo hi n → invSorted n = true
  | _, _, _, .leaf hs _ _ => by
    rw [invSorted, allNodes_mk]
    simp [sortedB_iff.mpr hs]
  | _, _, _, .node hs _ _ _ _ _ hcs => by
    rw [invSorted, allNodes_mk]
    simp only [Bool.and_eq_true, List.all_eq_true]
    have hall := WFCs.inv_sorted_all hcs
    rw [List.all_eq_true] at hall
    exact ⟨by simpa using sortedB_iff.mpr hs, hall⟩

theorem WFCs.inv_sorted_all {S : Nat} : ∀ {lo hi ks cs}, WFCs S lo hi ks cs →
    cs.all (fun c => allNodes (fun m => sortedB m.keys) c) = true
  | _, _, _, _, .single hc => by
    have h1 : allNodes (fun m => sortedB m.keys) _ = true := WFC.inv_sorted hc
    rw [List.all_cons, List.all_nil, h1]
    rfl
  | _, _, _, _, .cons hc hcs => by
    have h1 : allNodes (fun m => sortedB m.keys) _ = true := WFC.inv_sorted hc
    rw [List.all_cons, h1, WFCs.inv_sorted_all hcs]
    rfl

end

mutual

theorem WFC.inv_ccount {S : Nat} : ∀ {lo hi n}, WFC S lo hi n → invChildCount n = true
  | _, _, _, .leaf _ _ _ => by
    rw [invChildCount, allNodes_mk]
    simp
  | _, _, _, .node _ _ _ hp _ _ hcs => by
    rw [invChildCount, allNodes_mk]
    simp only [Bool.and_eq_true, List.all_eq_true]
    have hall := WFCs.inv_ccount_all hcs
    rw [List.all_eq_true] at hall
    exact ⟨by simp [hp], hall⟩

theorem WFCs.inv_ccount_all {S : Nat} : ∀ {lo hi ks cs}, WFCs S lo hi ks cs →
    cs.all (fun c =>
      allNodes (fun m => m.is_leaf || decide (m.pivots.length = m.keys.length + 1)) c) =
      true
  | _, _, _, _, .single hc => by
    have h1 : allNodes
        (fun m => m.is_leaf || decide (m.pivots.length = m.keys.length + 1)) _ = true :=
      WFC.inv_ccount hc
    rw [List.all_cons, List.all_nil, h1]
    rfl
  | _, _, _, _, .cons hc hcs => by
    have h1 : allNodes
        (fun m => m.is_leaf || decide (m.pivots.length = m.keys.length + 1)) _ = true :=
      WFC.inv_ccount hc
    rw [List.all_cons, h1, WFCs.inv_ccount_all hcs]
    rfl

end

mutual

theorem WFC.allKeyList_bdd {S : Nat} : ∀ {lo hi n}, WFC S lo hi n →
    ∀ x ∈ n.allKeyList, loLt lo x ∧ hiGt hi x
  | _, _, _, @WFC.leaf _ lo hi ks hs hb hl, x, hx => by
    rw [allKeyList_mk] at hx
    simp only [List.map_nil, List.flatten_nil, List.append_nil, List.mem_map] at hx
    obtain ⟨kv, hkv, rfl⟩ := hx
    exact hb kv hkv
  | _, _, _, @WFC.node _ lo hi ks ps hs hb hl hp hm hh hcs, x, hx => by
    rw [allKeyList_mk, List.mem_append] at hx
    rcases hx with hx | hx
    · obtain ⟨kv, hkv, rfl⟩ := List.mem_map.mp hx
      exact hb kv hkv
    · exact WFCs.allKeyList_bdd_flat hcs hs hb x hx

theorem WFCs.allKeyList_bdd_flat {S : Nat} : ∀ {lo hi ks cs}, WFCs S lo hi ks cs →
    SortedK ks → (∀ kv ∈ ks, loLt lo kv.key ∧ hiGt hi kv.key) →
    ∀ x ∈ (cs.map Node.allKeyList).flatten, loLt lo x ∧ hiGt hi x
  | _, _, _, _, .single hc, _, _, x, hx => by
    simp only [List.map_cons, List.map_nil, List.flatten_cons, List.flatten_nil,
      List.append_nil] at hx
    exact WFC.allKeyList_bdd hc x hx
  | _, _, _, _, @WFCs.cons _ _ _ kv₀ ks₀ c₀ cs₀ hc hcs, hs, hb, x, hx => by
    rcases List.pairwise_cons.mp hs with ⟨hlt, hs'⟩
    have hb₀ := hb _ (List.mem_cons_self _ _)
    simp only [List.map_cons, List.flatten_cons, List.mem_append] at hx
    rcases hx with hx | hx
    · have := WFC.allKeyList_bdd hc x hx
      exact ⟨this.1, hiGt_trans hb₀.2 (le_of_lt this.2)⟩
    · have := WFCs.allKeyList_bdd_flat hcs hs'
        (fun kv' hkv' => ⟨hlt kv' hkv', (hb kv' (List.mem_cons_of_mem _ hkv')).2⟩) x hx
      exact ⟨loLt_trans hb₀.1 (le_of_lt this.1), this.2⟩

end

theorem allKeyList_bdd_of_mem {S : Nat} {lo hi : Option Nat} {ks : List KeyVal}
    {cs : List Node} (hcs : WFCs S lo hi ks cs) (hs : SortedK ks)
    (hb : ∀ kv ∈ ks, loLt lo kv.key ∧ hiGt hi kv.key) :
    ∀ c ∈ cs, ∀ x ∈ c.allKeyList, loLt lo x ∧ hiGt hi x := by
  intro c hc x hx
  refine WFCs.allKeyList_bdd_flat hcs hs hb x ?_
  rw [List.mem_flatten]
  exact ⟨c.allKeyList, List.mem_map.mpr ⟨c, hc, rfl⟩, hx⟩

mutual

theorem WFC.inv_sep {S : Nat} : ∀ {lo hi n}, WFC S lo hi n → invSep n = true
  | _, _, _, .leaf _ _ _ => by
    rw [invSep, allNodes_mk]
    simp
  | _, _, _, @WFC.node _ lo hi ks ps hs hb hl hp hm hh hcs => by
    rw [invSep, allNodes_mk]
    simp only [Bool.and_eq_true, List.all_eq_true, Node.is_leaf_mk, Bool.false_or,
      List.mem_range, Bool.and_eq_true, decide_eq_true_eq, Node.keys_mk, Node.pivots_mk]
    have hall := WFCs.inv_sep_all hcs
    rw [List.all_eq_true] at hall
    refine ⟨?_, hall⟩
    intro i hilt
    have hWi := hcs.get i (le_of_lt hilt)
    rw [winHi, if_neg (by omega)] at hWi
    have hWi1 := hcs.get (i + 1) (by omega)
    rw [winLo, if_neg (by omega)] at hWi1
    simp only [Nat.add_sub_cancel] at hWi1
    constructor
    · intro x hx
      have := (WFC.allKeyList_bdd hWi x hx).2
      rwa [hiGt_some] at this
    · intro x hx
      have := (WFC.allKeyList_bdd hWi1 x hx).1
      rwa [loLt_some] at this

theorem WFCs.inv_sep_all {S : Nat} : ∀ {lo hi ks cs}, WFCs S lo hi ks cs →
    cs.all (fun c =>
      allNodes (fun m =>
        m.is_leaf ||
        (List.range m.keys.length).all (fun i =>
          ((m.pivots.getD i nilNode).allKeyList.all
            (fun k => decide (k < (m.keys.getD i dKV).key))) &&
          ((m.pivots.getD (i + 1) nilNode).allKeyList.all
            (fun k => decide ((m.keys.getD i dKV).key < k))))) c) = true
  | _, _, _, _, .single hc => by
    have h1 : allNodes (fun m =>
        m.is_leaf ||
        (List.range m.keys.length).all (fun i =>
          ((m.pivots.getD i nilNode).allKeyList.all
            (fun k => decide (k < (m.keys.getD i dKV).key))) &&
          ((m.pivots.getD (i + 1) nilNode).allKeyList.all
            (fun k => decide ((m.keys.getD i dKV).key < k))))) _ = true :=
      WFC.inv_sep hc
    rw [List.all_cons, List.all_nil, h1]
    rfl
  | _, _, _, _, .cons hc hcs => by
    have h1 : allNodes (fun m =>
        m.is_leaf ||
        (List.range m.keys.length).all (fun i =>
          ((m.pivots.getD i nilNode).allKeyList.all
            (fun k => decide (k < (m.keys.getD i dKV).key))) &&
          ((m.pivots.getD (i + 1) nilNode).allKeyList.all
            (fun k => decide ((m.keys.getD i dKV).key < k))))) _ = true :=
      WFC.inv_sep hc
    rw [List.all_cons, h1, WFCs.inv_sep_all hcs]
    rfl

end

mutual

theorem WFC.leafDepths_const {S : Nat} : ∀ {lo hi n}, WFC S lo hi n →
    ∀ d, ∀ x ∈ leafDepths n d, x + 1 = d + n.height
  | _, _, _, .leaf _ _ _, d, x, hx => by
    rw [leafDepths] at hx
    rcases List.mem_singleton.mp hx with rfl
    rw [height_leaf]
  | _, _, _, @WFC.node _ lo hi ks ps hs hb hl hp hm hh hcs, d, x, hx => by
    have hne : ps ≠ [] := by
      intro h0
      rw [h0] at hp
      simp at hp
    rw [leafDepths_mk_false, List.mem_flatten] at hx
    obtain ⟨l, hl', hxl⟩ := hx
    obtain ⟨c, hc, rfl⟩ := List.mem_map.mp hl'
    have hall := WFCs.leafDepths_const_all hcs (d + 1)
    rw [List.all_eq_true] at hall
    have hrec := hall c hc
    rw [List.all_eq_true] at hrec
    have hx' := hrec x hxl
    rw [beq_iff_eq] at hx'
    rw [hh c hc] at hx'
    rw [height_internal_headD hne]
    omega

theorem WFCs.leafDepths_const_all {S : Nat} : ∀ {lo hi ks cs}, WFCs S lo hi ks cs →
    ∀ d, cs.all (fun c => (leafDepths c d).all (fun x => x + 1 == d + c.height)) = true
  | _, _, _, _, .single hc, d => by
    rw [List.all_cons, List.all_nil]
    have h1 : ∀ x ∈ leafDepths _ d, x + 1 = d + Node.height _ :=
      WFC.leafDepths_const hc d
    rw [List.all_eq_true.mpr (fun x hx => beq_iff_eq.mpr (h1 x hx))]
    rfl
  | _, _, _, _, .cons hc hcs, d => by
    rw [List.all_cons]
    have h1 : ∀ x ∈ leafDepths _ d, x + 1 = d + Node.height _ :=
      WFC.leafDepths_const hc d
    rw [List.all_eq_true.mpr (fun x hx => beq_iff_eq.mpr (h1 x hx)),
      WFCs.leafDepths_const_all hcs d]
    rfl

end

theorem WFC.leafDepths_ne_nil {S : Nat} : ∀ {lo hi n}, WFC S lo hi n →
    ∀ d, leafDepths n d ≠ []
  | _, _, _, .leaf _ _ _, d => by
    rw [leafDepths]
    simp
  | _, _, _, @WFC.node _ lo hi ks ps hs hb hl hp hm hh hcs, d => by
    cases hcs with
    | single hc =>
      rw [leafDepths_mk_false, List.map_cons, List.flatten_cons]
      intro h0
      rcases List.append_eq_nil.mp h0 with ⟨h1, _⟩
      exact WFC.leafDepths_ne_nil hc (d + 1) h1
    | cons hc hcs' =>
      rw [leafDepths_mk_false, List.map_cons, List.flatten_cons]
      intro h0
      rcases List.append_eq_nil.mp h0 with ⟨h1, _⟩
      exact WFC.leafDepths_ne_nil hc (d + 1) h1

theorem WFC.inv_depth {S : Nat} {lo hi : Option Nat} {n : Node} (h : WFC S lo hi n) :
    invDepth n = true := by
  rw [invDepth, List.all_eq_true]
  intro x hx
  have h1 := h.leafDepths_const 0 x hx
  have h2 := h.leafDepths_const 0 ((leafDepths n 0).headD 0)
    (headD_mem 0 (h.leafDepths_ne_nil 0))
  simp only [beq_iff_eq]
  omega

mutual

theorem WFC.occ_nonroot {S : Nat} : ∀ {lo hi n}, WFC S lo hi n →
    S ≤ n.keys.length → occOK S false n = true
  | _, _, _, .leaf hs hb hl, hk => by
    rw [occOK_mk]
    simp only [Node.keys_mk] at hk
    simp [hk, hl]
  | _, _, _, .node _ _ hl _ hm _ hcs, hk => by
    rw [occOK_mk]
    simp only [Node.keys_mk] at hk
    simp only [if_neg (by simp : ¬false = true), Bool.and_eq_true, decide_eq_true_eq]
    have hall := WFCs.occ_all hcs (fun c' hc' => hm c' hc')
    exact ⟨⟨hk, hl⟩, hall⟩

theorem WFCs.occ_all {S : Nat} : ∀ {lo hi ks cs}, WFCs S lo hi ks cs →
    (∀ c ∈ cs, S ≤ c.keys.length) → cs.all (fun c => occOK S false c) = true
  | _, _, _, _, .single hc, hmins => by
    rw [List.all_cons, List.all_nil,
      WFC.occ_nonroot hc (hmins _ (List.mem_singleton_self _))]
    rfl
  | _, _, _, _, .cons hc hcs, hmins => by
    rw [List.all_cons, WFC.occ_nonroot hc (hmins _ (List.mem_cons_self _ _)),
      WFCs.occ_all hcs (fun c' hc' => hmins c' (List.mem_cons_of_mem _ hc'))]
    rfl

end

theorem WFC.occ_root {S : Nat} {n : Node} (h : WFC S none none n)
    (hroot : n.is_leaf = false → 1 ≤ n.keys.length) : occOK S true n = true := by
  cases h with
  | leaf hs hb hl =>
    rw [occOK_mk]
    simp [hl]
  | node hs hb hl hp hm hh hcs =>
    rw [occOK_mk]
    have h1 := hroot rfl
    simp only [Node.keys_mk] at h1
    have hall := WFCs.occ_all hcs (fun c' hc' => hm c' hc')
    simp [h1, hl, hall]

/-- A well-formed root satisfies all five structural invariants. -/
theorem WFRoot.fiveInvariants_true {S : Nat} {t : Node} (h : WFRoot S t) :
    fiveInvariants S t = true := by
  rw [fiveInvariants, h.1.inv_sorted, h.1.inv_sep, h.1.inv_depth,
    WFC.occ_root h.1 h.2, h.1.inv_ccount]
  rfl

/-! ## Well-formedness along operation sequences -/

theorem WFRoot_new (S : Nat) : WFRoot S BTree.new := by
  refine ⟨.leaf ?_ ?_ ?_, ?_⟩
  · exact List.Pairwise.nil
  · intro kv hkv
    cases hkv
  · simp
  · intro h
    cases h

theorem applyOp_wf {S : Nat} {t : Node} (h : WFRoot S t) (hS : 1 ≤ S) (op : Op) :
    WFRoot S (applyOp S t op) := by
  cases op with
  | put k v => exact (BTree.put_spec h hS k v).1
  | del k => exact (BTree.delete_spec h hS k).1

theorem applyOps_wf {S : Nat} (hS : 1 ≤ S) :
    ∀ (ops : List Op) (t : Node), WFRoot S t → WFRoot S (applyOps S t ops)
  | [], t, h => h
  | op :: ops, t, h => applyOps_wf hS ops _ (applyOp_wf h hS op)

/-- `Node::level` (which follows child 0) computes start + height on a
well-formed subtree. -/
theorem WFC.level_eq {S : Nat} : ∀ {lo hi n}, WFC S lo hi n →
    ∀ d, Node.level n d = d + n.height
  | _, _, _, .leaf _ _ _, d => by
    rw [Node.level, height_leaf]
  | _, _, _, @WFC.node _ lo hi ks ps hs hb hl hp hm hh hcs, d => by
    cases hcs with
    | single hc =>
      rw [Node.level, Node.height_cons, WFC.level_eq hc (d + 1)]
      omega
    | cons hc hcs' =>
      rw [Node.level, Node.height_cons, WFC.level_eq hc (d + 1)]
      omega

/-! ## Structure preservation of value-overwriting `upsert` -/

/-- The tree with every stored value replaced by `0`: captures the
structure (node kinds, keys, child arrangement) while forgetting values. -/
def stripVals : Node → Node
  | .mk il ks ps =>
    .mk il (ks.map (fun kv => ⟨kv.key, 0⟩)) (ps.attach.map (fun c => stripVals c.1))
decreasing_by
  exact Node.sizeOf_lt_of_mem c.2

theorem stripVals_mk (il : Bool) (ks : List KeyVal) (ps : List Node) :
    stripVals (.mk il ks ps) =
      .mk il (ks.map (fun kv => ⟨kv.key, 0⟩)) (ps.map stripVals) := by
  rw [stripVals, attach_map_eq]

theorem map_set_self {α β : Type} : ∀ (l : List α) (f : α → β) {i : Nat} (d : α),
    i < l.length → ∀ {a : α}, f a = f (l.getD i d) → (l.set i a).map f = l.map f
  | [], _, _, _, h, _, _ => by simp at h
  | x :: t, f, 0, d, _, a, hfa => by
    simp only [List.getD_cons_zero] at hfa
    simp only [List.set_cons_zero, List.map_cons, hfa]
  | x :: t, f, i + 1, d, h, a, hfa => by
    simp only [List.getD_cons_succ] at hfa
    simp only [List.set_cons_succ, List.map_cons]
    rw [map_set_self t f d (by simpa using h) hfa]

/-- Upserting a key that is already present overwrites the value in
place: no split propagates and the tree structure is unchanged. -/
theorem upsert_found_structural {S : Nat} : ∀ {lo hi n}, WFC S lo hi n → ∀ k v,
    loLt lo k → hiGt hi k → valAt n.toList k ≠ none →
    (Node.upsert S k v n).2.1 = none ∧
    stripVals (Node.upsert S k v n).1 = stripVals n
  | _, _, _, @WFC.leaf _ lo hi ks hs hb hl, k, v, hklo, hkhi, hvne => by
    rw [Node.toList_leaf, valAt_sorted hs] at hvne
    cases hhk : hasKey ks k with
    | false =>
      rw [hhk] at hvne
      simp at hvne
    | true =>
      obtain ⟨hrlt, hrkey⟩ := hasKey_rank hs hhk
      rw [Node.upsert_unfold_ok (by rw [find_index_eq hs, hhk]; rfl)]
      refine ⟨rfl, ?_⟩
      rw [stripVals_mk, stripVals_mk]
      congr 1
      exact map_set_self ks _ dKV hrlt rfl
  | _, _, _, @WFC.node _ lo hi ks ps hs hb hl hp hm hh hcs, k, v, hklo, hkhi, hvne => by
    rw [Node.toList_internal] at hvne
    have hval := WFCs.valAt_inter hcs hs hb k hklo hkhi
    cases hhk : hasKey ks k with
    | true =>
      obtain ⟨hrlt, hrkey⟩ := hasKey_rank hs hhk
      rw [Node.upsert_unfold_ok (by rw [find_index_eq hs, hhk]; rfl)]
      refine ⟨rfl, ?_⟩
      rw [stripVals_mk, stripVals_mk]
      congr 1
      exact map_set_self ks _ dKV hrlt rfl
    | false =>
      rw [hval.2 hhk] at hvne
      have hrle : rankOf ks k ≤ ks.length := rankOf_le_length ks k
      have hrlt : rankOf ks k < ps.length := by omega
      have hget : ps[rankOf ks k]? = some (ps.getD (rankOf ks k) nilNode) := by
        rw [getD_eq _ _ hrlt]
        exact List.getElem?_eq_getElem hrlt
      have hWc := hcs.get (rankOf ks k) hrle
      have hwlo : loLt (winLo lo ks (rankOf ks k)) k := rank_winLo hs hklo
      have hwhi : hiGt (winHi hi ks (rankOf ks k)) k := rank_winHi hs hhk hkhi
      obtain ⟨hsp, hstr⟩ := upsert_found_structural hWc k v hwlo hwhi hvne
      rw [Node.upsert_unfold_node_none (by rw [find_index_eq hs, hhk]; rfl) hget hsp]
      refine ⟨rfl, ?_⟩
      rw [stripVals_mk, stripVals_mk]
      congr 1
      exact map_set_self ps stripVals nilNode hrlt hstr
  termination_by lo hi n _ => sizeOf n
  decreasing_by
    rw [getD_eq _ _ hrlt]
    exact Node.sizeOf_lt_of_mem (List.getElem_mem _)

/-! ## Spec model of the storage codec

The persistence adapter serializes the tree with a self-describing
binary format (bincode) and reads it back, failing on truncated or
malformed buffers.  The tree itself carries no serialization code, so
the codec is modelled here: a flat word encoding with the same
observable contract (exact round trip, failure on truncation). -/

def encNode : Node → List Nat
  | .mk il ks ps =>
    (if il then 1 else 0) :: ks.length ::
      (ks.flatMap (fun kv => [kv.key, kv.value]) ++
        ps.length :: (ps.attach.map (fun c => encNode c.1)).flatten)
decreasing_by
  exact Node.sizeOf_lt_of_mem c.2

theorem encNode_mk (il : Bool) (ks : List KeyVal) (ps : List Node) :
    encNode (.mk il ks ps) =
      (if il then 1 else 0) :: ks.length ::
        (ks.flatMap (fun kv => [kv.key, kv.value]) ++
          ps.length :: (ps.map encNode).flatten) := by
  rw [encNode, attach_map_eq]

def decKVs : Nat → List Nat → Option (List KeyVal × List Nat)
  | 0, l => some ([], l)
  | m + 1, k :: v :: rest =>
    match decKVs m rest with
    | some (kvs, rem) => some (⟨k, v⟩ :: kvs, rem)
    | none => none
  | _ + 1, _ => none

/-- Decode `m` consecutive nodes with the supplied single-node decoder. -/
def decNodesF (f : List Nat → Option (Node × List Nat)) :
    Nat → List Nat → Option (List Node × List Nat)
  | 0, l => some ([], l)
  | m + 1, l =>
    match f l with
    | some (c, rem) =>
      match decNodesF f m rem with
      | some (cs, rem2) => some (c :: cs, rem2)
      | none => none
    | none => none

def decNode : Nat → List Nat → Option (Node × List Nat)
  | 0, _ => none
  | fuel + 1, l =>
    match l with
    | il :: nk :: rest =>
      if il ≤ 1 then
        match decKVs nk rest with
        | some (kvs, np :: rem2) =>
          match decNodesF (fun l' => decNode fuel l') np rem2 with
          | some (cs, rem3) => some (.mk (il == 1) kvs cs, rem3)
          | none => none
        | _ => none
      else none
    | _ => none
termination_by fuel _ => fuel

/-- Spec model of the byte image produced by `write_to_file`. -/
def serialize (t : Node) : List Nat := encNode t

/-- Spec model of `read_from_file`: decode one tree and require the
buffer to be fully consumed. -/
def deserialize (l : List Nat) : Option Node :=
  match decNode (l.length + 1) l with
  | some (n, []) => some n
  | _ => none

theorem decKVs_enc : ∀ (ks : List KeyVal) (rest : List Nat),
    decKVs ks.length (ks.flatMap (fun kv => [kv.key, kv.value]) ++ rest) =
      some (ks, rest)
  | [], rest => by
    rw [List.flatMap_nil, List.nil_append, List.length_nil, decKVs]
  | kv :: t, rest => by
    rw [List.flatMap_cons, List.length_cons]
    simp only [List.cons_append, List.singleton_append, List.nil_append]
    rw [decKVs, decKVs_enc t rest]

theorem length_le_flatten_of_mem {α : Type} {l : List (List α)} {x : List α}
    (h : x ∈ l) : x.length ≤ l.flatten.length := by
  induction l with
  | nil => cases h
  | cons a t ih =>
    rw [List.flatten_cons, List.length_append]
    rcases List.mem_cons.mp h with rfl | h'
    · omega
    · have := ih h'
      omega

theorem decNode_unfold_cons (fuel a b : Nat) (rest : List Nat) :
    decNode (fuel + 1) (a :: b :: rest) =
      (if a ≤ 1 then
        match decKVs b rest with
        | some (kvs, np :: rem2) =>
          match decNodesF (fun l' => decNode fuel l') np rem2 with
          | some (cs, rem3) => some (.mk (a == 1) kvs cs, rem3)
          | none => none
        | _ => none
      else none) := by
  rw [decNode.eq_def]

theorem decNode_unfold_zero (l : List Nat) : decNode 0 l = none := by
  rw [decNode.eq_def]

theorem decNode_unfold_nil (fuel : Nat) : decNode (fuel + 1) [] = none := by
  rw [decNode.eq_def]

theorem decNode_unfold_one (fuel a : Nat) : decNode (fuel + 1) [a] = none := by
  rw [decNode.eq_def]

mutual

theorem decNode_enc : ∀ (n : Node) (fuel : Nat), (encNode n).length ≤ fuel →
    ∀ rest, decNode fuel (encNode n ++ rest) = some (n, rest)
  | .mk il ks ps, fuel, hf, rest => by
    rw [encNode_mk] at hf ⊢
    cases fuel with
    | zero => simp at hf
    | succ g =>
      rw [List.cons_append, List.cons_append, decNode_unfold_cons,
        if_pos (by cases il <;> simp), List.append_assoc, List.cons_append,
        decKVs_enc ks (ps.length :: ((ps.map encNode).flatten ++ rest))]
      have hbnd : ∀ c ∈ ps, (encNode c).length ≤ g := by
        intro c hc
        have h1 : (encNode c).length ≤ (ps.map encNode).flatten.length :=
          length_le_flatten_of_mem (List.mem_map.mpr ⟨c, hc, rfl⟩)
        simp only [List.length_cons, List.length_append] at hf
        omega
      simp only []
      rw [decNodes_enc ps g hbnd rest]
      cases il with
      | true => rfl
      | false => rfl

theorem decNodes_enc : ∀ (cs : List Node) (fuel : Nat),
    (∀ c ∈ cs, (encNode c).length ≤ fuel) → ∀ rest,
    decNodesF (fun l' => decNode fuel l') cs.length
      ((cs.map encNode).flatten ++ rest) = some (cs, rest)
  | [], fuel, _, rest => by
    rw [List.map_nil, List.flatten_nil, List.nil_append, List.length_nil, decNodesF]
  | c :: t, fuel, hb, rest => by
    rw [List.map_cons, List.flatten_cons, List.length_cons, List.append_assoc,
      decNodesF, decNode_enc c fuel (hb c (List.mem_cons_self _ _))]
    simp only []
    rw [decNodes_enc t fuel (fun c' hc' => hb c' (List.mem_cons_of_mem _ hc')) rest]

end

/-- Round trip: decoding the encoding yields the original tree. -/
theorem deserialize_serialize (t : Node) : deserialize (serialize t) = some t := by
  rw [deserialize, serialize]
  have h1 : decNode ((encNode t).length + 1) (encNode t ++ []) = some (t, []) :=
    decNode_enc t ((encNode t).length + 1) (by omega) []
  rw [List.append_nil] at h1
  rw [h1]

theorem decKVs_sound : ∀ (m : Nat) (l : List Nat) (kvs : List KeyVal)
    (rem : List Nat), decKVs m l = some (kvs, rem) →
    l = kvs.flatMap (fun kv => [kv.key, kv.value]) ++ rem ∧ kvs.length = m
  | 0, l, kvs, rem, h => by
    rw [decKVs] at h
    cases h
    simp
  | m + 1, [], kvs, rem, h => by
    simp [decKVs] at h
  | m + 1, [a], kvs, rem, h => by
    simp [decKVs] at h
  | m + 1, a :: b :: rest, kvs, rem, h => by
    rw [decKVs] at h
    cases hk : decKVs m rest with
    | none =>
      rw [hk] at h
      simp only [] at h
      cases h
    | some p =>
      obtain ⟨kvs0, rem0⟩ := p
      rw [hk] at h
      simp only [] at h
      cases h
      obtain ⟨h1, h2⟩ := decKVs_sound m rest _ _ hk
      constructor
      · rw [List.flatMap_cons]
        simp only [List.cons_append, List.singleton_append, List.nil_append]
        rw [h1]
      · rw [List.length_cons, h2]

theorem decNodesF_sound (f : List Nat → Option (Node × List Nat))
    (hf : ∀ l c rem, f l = some (c, rem) → l = encNode c ++ rem) :
    ∀ (m : Nat) (l : List Nat) (cs : List Node) (rem : List Nat),
    decNodesF f m l = some (cs, rem) →
    l = (cs.map encNode).flatten ++ rem ∧ cs.length = m
  | 0, l, cs, rem, h => by
    rw [decNodesF] at h
    cases h
    simp
  | m + 1, l, cs, rem, h => by
    rw [decNodesF] at h
    cases hc : f l with
    | none =>
      rw [hc] at h
      simp only [] at h
      cases h
    | some p =>
      obtain ⟨c, rem0⟩ := p
      rw [hc] at h
      simp only [] at h
      cases ht : decNodesF f m rem0 with
      | none =>
        rw [ht] at h
        simp only [] at h
        cases h
      | some q =>
        obtain ⟨cs0, rem1⟩ := q
        rw [ht] at h
        simp only [] at h
        cases h
        obtain ⟨h1, h2⟩ := decNodesF_sound f hf m rem0 _ _ ht
        refine ⟨?_, by rw [List.length_cons, h2]⟩
        rw [hf l c rem0 hc, h1, List.map_cons, List.flatten_cons, List.append_assoc]

theorem decNode_sound : ∀ (fuel : Nat) (l : List Nat) (n : Node) (rem : List Nat),
    decNode fuel l = some (n, rem) → l = encNode n ++ rem
  | 0, l, n, rem, h => by
    rw [decNode_unfold_zero] at h
    cases h
  | fuel + 1, [], n, rem, h => by
    rw [decNode_unfold_nil] at h
    cases h
  | fuel + 1, [a], n, rem, h => by
    rw [decNode_unfold_one] at h
    cases h
  | fuel + 1, a :: b :: rest, n, rem, h => by
    rw [decNode_unfold_cons] at h
    by_cases ha : a ≤ 1
    · rw [if_pos ha] at h
      cases hk : decKVs b rest with
      | none =>
        rw [hk] at h
        simp only [] at h
        cases h
      | some p =>
        obtain ⟨kvs, rem0⟩ := p
        rw [hk] at h
        cases rem0 with
        | nil =>
          simp only [] at h
          cases h
        | cons np rem2 =>
          simp only [] at h
          cases hn : decNodesF (fun l' => decNode fuel l') np rem2 with
          | none =>
            rw [hn] at h
            simp only [] at h
            cases h
          | some q =>
            obtain ⟨cs, rem3⟩ := q
            rw [hn] at h
            simp only [] at h
            cases h
            obtain ⟨h1, h2⟩ := decKVs_sound b rest kvs (np :: rem2) hk
            obtain ⟨h3, h4⟩ := decNodesF_sound (fun l' => decNode fuel l')
              (fun l' c rem' hc => decNode_sound fuel l' c rem' hc) np rem2 _ _ hn
            rw [encNode_mk]
            have ha01 : a = 0 ∨ a = 1 := by omega
            have hflag : (if (a == 1) = true then 1 else 0) = a := by
              rcases ha01 with rfl | rfl
              · rfl
              · rfl
            simp only [List.cons_append, List.append_assoc]
            rw [hflag, ← h2, h1, h3, ← h4]
    · rw [if_neg ha] at h
      cases h

/-- Truncation failure: no strict prefix of a serialized tree decodes. -/
theorem deserialize_truncated (t : Node) {m : Nat} (hm : m < (serialize t).length) :
    deserialize ((serialize t).take m) = none := by
  rw [serialize] at hm ⊢
  rw [deserialize]
  cases hd : decNode (((encNode t).take m).length + 1) ((encNode t).take m) with
  | none => rfl
  | some p =>
    obtain ⟨n', rem⟩ := p
    cases rem with
    | cons r rs => rfl
    | nil =>
      exfalso
      have hpre := decNode_sound _ _ _ _ hd
      rw [List.append_nil] at hpre
      -- the strict prefix would itself be a complete encoding
      have hsplit : encNode t = encNode n' ++ (encNode t).drop m := by
        rw [← hpre, List.take_append_drop]
      have h1 : decNode ((encNode t).length + 1) (encNode t) = some (t, []) := by
        have := decNode_enc t ((encNode t).length + 1) (by omega) []
        rwa [List.append_nil] at this
      have h2 : decNode ((encNode t).length + 1)
          (encNode n' ++ (encNode t).drop m) = some (n', (encNode t).drop m) := by
        refine decNode_enc n' ((encNode t).length + 1) ?_ _
        rw [← hpre, List.length_take]
        omega
      rw [← hsplit, h1] at h2
      have hinj := Option.some.inj h2
      have hdrop : [] = (encNode t).drop m := congrArg Prod.snd hinj
      have hlen := congrArg List.length hdrop
      rw [List.length_drop, List.length_nil] at hlen
      omega

/-! ## Final helpers for the claim theorems -/

theorem rebalance_noop {S : Nat} {n : Node} {i : Nat}
    (h : S ≤ (n.pivots.getD i nilNode).keys.length) :
    Node.rebalance S n i = n := by
  rw [Node.rebalance]
  simp only []
  rw [if_pos h]

/-- The spine leaf of a subtree whose every node meets the minimum also
meets the minimum. -/
theorem WFC.spineLeaf_min {S : Nat} : ∀ {lo hi n} (lm : Bool), WFC S lo hi n →
    S ≤ n.keys.length → S ≤ (spineLeaf lm n).keys.length
  | _, _, _, lm, @WFC.leaf _ lo hi ks hs hb hl, hk => by
    rw [spineLeaf_leaf]
    exact hk
  | _, _, _, lm, @WFC.node _ lo hi ks ps hs hb hl hp hm hh hcs, hk => by
    have hlt : (if lm then 0 else ps.length - 1) < ps.length := by
      cases lm with
      | true => simp; omega
      | false => simp; omega
    have hile : (if lm then 0 else ps.length - 1) ≤ ks.length := by
      cases lm with
      | true => simp
      | false => simp; omega
    have hget : ps[if lm then 0 else ps.length - 1]? =
        some (ps.getD (if lm then 0 else ps.length - 1) nilNode) := by
      rw [getD_eq _ _ hlt]
      exact List.getElem?_eq_getElem hlt
    rw [spineLeaf_node hget]
    exact WFC.spineLeaf_min lm (hcs.get _ hile) (hm _ (getD_mem nilNode hlt))
  termination_by lo hi n lm _ => sizeOf n
  decreasing_by
    rw [getD_eq _ _ hlt]
    exact Node.sizeOf_lt_of_mem (List.getElem_mem _)

/-! ## The claims -/

/-- C1: starting from the empty tree created by `new`, after every finite
sequence of `put`/`delete` operations the tree satisfies all five
structural invariants (sorted entries, separator ordering, equal leaf
depth, occupancy bounds with root exemption, child count = entry
count + 1). -/
theorem claim_C1 {S : Nat} (hS : 1 ≤ S) (ops : List Op) :
    fiveInvariants S (applyOps S BTree.new ops) = true :=
  WFRoot.fiveInvariants_true (applyOps_wf hS ops BTree.new (WFRoot_new S))

theorem claim_C1_witness :
    1 ≤ 2 ∧
    fiveInvariants 2 (applyOps 2 BTree.new
      [.put 3 30, .put 1 10, .put 2 20, .put 5 50, .put 4 40, .del 3, .del 9]) =
      true :=
  ⟨by decide, claim_C1 (by decide) _⟩

/-- The behavior of `Node::split` claimed by C3. -/
def C3Prop (S : Nat) (il : Bool) (ks : List KeyVal) (ps : List Node) : Prop :=
  (ks.length = 2 * S + 1 →
    Node.split S (.mk il ks ps) =
      (.mk il (ks.take S) (if il then ps else ps.take (S + 1)),
        some (ks.getD S dKV,
          .mk il (ks.drop (S + 1)) (if il then [] else ps.drop (S + 1)))) ∧
    (ks.take S).length = S ∧
    (ks.drop (S + 1)).length = S ∧
    ks.getD S dKV = (ks.drop S).headD dKV ∧
    ks.take S ++ ks.getD S dKV :: ks.drop (S + 1) = ks) ∧
  (ks.length ≤ 2 * S → Node.split S (.mk il ks ps) = (.mk il ks ps, none))

/-- C3: when a node reaches `2S + 1` entries, `split` moves entries
`[S, 2S]` into a new right sibling, promotes the first entry of the
moved range as the median, moves children `[S+1, 2S+1]` for internal
nodes, and leaves both halves with exactly `S` entries; with at most
`2S` entries it returns no propagation and the node unchanged. -/
theorem claim_C3 (S : Nat) (il : Bool) (ks : List KeyVal) (ps : List Node) :
    C3Prop S il ks ps := by
  constructor
  · intro h
    refine ⟨split_overflow S il ks ps h, ?_, ?_, ?_, ?_⟩
    · rw [List.length_take]
      omega
    · rw [List.length_drop]
      omega
    · rw [drop_cons_self ks dKV (show S < ks.length by omega), List.headD_cons]
    · rw [← drop_cons_self ks dKV (show S < ks.length by omega),
        List.take_append_drop]
  · intro h
    exact split_no_overflow S il ks ps (by omega)

/-- Depth behavior at the root claimed by C6. -/
def C6Prop (S : Nat) (t : Node) (k v : Nat) : Prop :=
  ((∃ kv piv, (Node.upsert S k v t).2.1 = some (kv, piv) ∧
      (BTree.put S t k v).1 = .mk false [kv] [(Node.upsert S k v t).1, piv] ∧
      (BTree.put S t k v).1.height = t.height + 1) ∨
    ((Node.upsert S k v t).2.1 = none ∧
      (BTree.put S t k v).1 = (Node.upsert S k v t).1 ∧
      (BTree.put S t k v).1.height = t.height)) ∧
  ((((Node.delete S k t).1.is_leaf = false ∧
      (Node.delete S k t).1.pivots.length = 1) ∧
      (BTree.delete S t k).1 = (Node.delete S k t).1.pivots.getD 0 nilNode ∧
      (BTree.delete S t k).1.height + 1 = t.height) ∨
    (¬((Node.delete S k t).1.is_leaf = false ∧
        (Node.delete S k t).1.pivots.length = 1) ∧
      (BTree.delete S t k).1 = (Node.delete S k t).1 ∧
      (BTree.delete S t k).1.height = t.height)) ∧
  BTree.level (BTree.put S t k v).1 = (BTree.put S t k v).1.height ∧
  BTree.level (BTree.delete S t k).1 = (BTree.delete S t k).1.height ∧
  BTree.level t = t.height

/-- C6: tree depth changes only at the root — `put` grows the tree by
one level exactly when the root splits (the new root holding the median
and the two halves), `delete` shrinks it by one level exactly when the
root is left internal with a single child, and `level` reports the
height throughout. -/
theorem claim_C6 {S : Nat} {t : Node} (h : WFRoot S t) (hS : 1 ≤ S) (k v : Nat) :
    C6Prop S t k v := by
  obtain ⟨hWp, _, _, hdp⟩ := BTree.put_spec h hS k v
  obtain ⟨hWd, _, _, hdd⟩ := BTree.delete_spec h hS k
  refine ⟨?_, ?_, ?_, ?_, ?_⟩
  · rcases hdp with ⟨h1, h2, h3⟩ | ⟨kv, piv, h1, h2, h3⟩
    · exact .inr ⟨h1, h2, h3⟩
    · exact .inl ⟨kv, piv, h1, h2, h3⟩
  · rcases hdd with ⟨h1, h2, h3⟩ | ⟨h1, h2, h3⟩
    · exact .inr ⟨h1, h2, h3⟩
    · exact .inl ⟨h1, h2, h3⟩
  · rw [BTree.level, WFC.level_eq hWp.1 0, Nat.zero_add]
  · rw [BTree.level, WFC.level_eq hWd.1 0, Nat.zero_add]
  · rw [BTree.level, WFC.level_eq h.1 0, Nat.zero_add]

theorem claim_C6_witness :
    WFRoot 1 (Node.mk true [⟨1, 10⟩, ⟨2, 20⟩] []) ∧ 1 ≤ 1 ∧
    C6Prop 1 (Node.mk true [⟨1, 10⟩, ⟨2, 20⟩] []) 3 30 :=
  ⟨wfRoot_implies (by decide), by decide,
    claim_C6 (wfRoot_implies (by decide)) (by decide) 3 30⟩

/-- Deletion correctness from the root claimed by C7. -/
def C7Prop (S : Nat) (t : Node) (k : Nat) : Prop :=
  (BTree.get t k = none →
    (BTree.delete S t k).2 = none ∧
    BTree.size (BTree.delete S t k).1 = BTree.size t) ∧
  (∀ v, BTree.get t k = some v →
    (BTree.delete S t k).2 = some v ∧
    BTree.size (BTree.delete S t k).1 + 1 = BTree.size t) ∧
  (BTree.delete S (BTree.delete S t k).1 k).2 = none

/-- C7: on a well-formed tree, deleting an absent key returns nothing
and leaves the size unchanged; deleting a present key returns its value
and shrinks the size by exactly one; a second delete of the same key
returns nothing. -/
theorem claim_C7 {S : Nat} {t : Node} (h : WFRoot S t) (hS : 1 ≤ S) (k : Nat) :
    C7Prop S t k := by
  obtain ⟨hWR, hv, hTL, _⟩ := BTree.delete_spec h hS k
  have hlk : BTree.get t k = valAt t.toList k := WFC.lookup_eq h.1 k trivial trivial
  have hsT : SortedK t.toList := h.1.toList_sorted
  have hlen : t.toList.length = t.size := h.1.toList_length
  have hlen' : (BTree.delete S t k).1.toList.length = (BTree.delete S t k).1.size :=
    hWR.1.toList_length
  have hlen2 : (BTree.delete S t k).1.toList.length = (delList t.toList k).length := by
    rw [hTL]
  refine ⟨?_, ?_, ?_⟩
  · intro hnone
    have hvn : valAt t.toList k = none := by
      rw [← hlk]
      exact hnone
    have hhk : hasKey t.toList k = false := by
      cases hhk : hasKey t.toList k with
      | false => rfl
      | true =>
        rw [valAt_sorted hsT, hhk] at hvn
        simp at hvn
    refine ⟨by rw [hv, hvn], ?_⟩
    have := delList_length hsT k
    rw [hhk] at this
    simp only [Bool.false_eq_true, if_false] at this
    rw [BTree.size, BTree.size, ← hlen, ← hlen', hlen2, this]
  · intro v hsome
    have hvs : valAt t.toList k = some v := by
      rw [← hlk]
      exact hsome
    have hhk : hasKey t.toList k = true := by
      cases hhk : hasKey t.toList k with
      | true => rfl
      | false =>
        rw [valAt_sorted hsT, hhk] at hvs
        simp at hvs
    refine ⟨by rw [hv, hvs], ?_⟩
    have hdl := delList_length hsT k
    rw [hhk] at hdl
    simp only [if_true] at hdl
    have hpos := hasKey_pos hhk
    rw [BTree.size, BTree.size, ← hlen, ← hlen', hlen2, hdl]
    omega
  · obtain ⟨_, hv2, _, _⟩ := BTree.delete_spec hWR hS k
    rw [hv2, hTL, valAt_delList_self]

theorem claim_C7_witness :
    WFRoot 1 (Node.mk true [⟨1, 10⟩, ⟨2, 20⟩] []) ∧ 1 ≤ 1 ∧
    C7Prop 1 (Node.mk true [⟨1, 10⟩, ⟨2, 20⟩] []) 2 :=
  ⟨wfRoot_implies (by decide), by decide,
    claim_C7 (wfRoot_implies (by decide)) (by decide) 2⟩

/-- Upsert correctness claimed by C8. -/
def C8Prop (S : Nat) (t : Node) (k v1 v2 : Nat) : Prop :=
  BTree.get (BTree.put S (BTree.put S t k v1).1 k v2).1 k = some v2 ∧
  (BTree.put S (BTree.put S t k v1).1 k v2).2 = some v1 ∧
  (BTree.put S t k v1).2 = BTree.get t k ∧
  (BTree.get t k ≠ none →
    stripVals (BTree.put S t k v1).1 = stripVals t ∧
    (BTree.put S t k v1).1 = (Node.upsert S k v1 t).1)

/-- C8: `put(k, v1)` then `put(k, v2)` makes `get(k)` return `v2` and
the second `put` return `v1`; a `put` on a key already present
overwrites the value in place with no structural change, and a `put` on
an absent key returns the previous binding (nothing). -/
theorem claim_C8 {S : Nat} {t : Node} (h : WFRoot S t) (hS : 1 ≤ S)
    (k v1 v2 : Nat) : C8Prop S t k v1 v2 := by
  obtain ⟨hW1, hv1, hT1, hd1⟩ := BTree.put_spec h hS k v1
  obtain ⟨hW2, hv2, hT2, _⟩ := BTree.put_spec hW1 hS k v2
  refine ⟨?_, ?_, ?_, ?_⟩
  · rw [BTree.get, WFC.lookup_eq hW2.1 k trivial trivial, hT2, valAt_updList_self]
  · rw [hv2, hT1, valAt_updList_self]
  · rw [hv1, BTree.get, WFC.lookup_eq h.1 k trivial trivial]
  · intro hvne
    have hvne' : valAt t.toList k ≠ none := by
      rw [← WFC.lookup_eq h.1 k trivial trivial]
      exact hvne
    obtain ⟨hsp, hstr⟩ := upsert_found_structural h.1 k v1 trivial trivial hvne'
    rcases hd1 with ⟨_, heq, _⟩ | ⟨kv, piv, hsome, _, _⟩
    · rw [heq]
      exact ⟨hstr, rfl⟩
    · rw [hsp] at hsome
      cases hsome

theorem claim_C8_witness :
    WFRoot 1 (Node.mk true [⟨1, 10⟩, ⟨2, 20⟩] []) ∧ 1 ≤ 1 ∧
    C8Prop 1 (Node.mk true [⟨1, 10⟩, ⟨2, 20⟩] []) 2 7 9 :=
  ⟨wfRoot_implies (by decide), by decide,
    claim_C8 (wfRoot_implies (by decide)) (by decide) 2 7 9⟩

/-- C9: (spec-modelled codec) deserializing the serialization of a tree
yields a tree observably identical to it — in fact the same tree, so
`get` agrees on every key and no extra keys appear — and deserialization
fails on every truncated or malformed buffer: it fails on every strict
prefix of a serialization, and any buffer it accepts is exactly the
serialization of the tree it returns, so every buffer that is not a
valid encoding is rejected. -/
theorem claim_C9 (t : Node) :
    deserialize (serialize t) = some t ∧
    (∀ t', deserialize (serialize t) = some t' →
      ∀ k, BTree.get t' k = BTree.get t k) ∧
    (∀ m, m < (serialize t).length → deserialize ((serialize t).take m) = none) ∧
    (∀ (l : List Nat) (t' : Node), deserialize l = some t' → l = serialize t') := by
  refine ⟨deserialize_serialize t, ?_, fun m hm => deserialize_truncated t hm, ?_⟩
  · intro t' ht' k
    rw [deserialize_serialize t] at ht'
    cases ht'
    rfl
  · intro l t' hl
    rw [deserialize] at hl
    cases hd : decNode (l.length + 1) l with
    | none =>
      rw [hd] at hl
      simp only [] at hl
      cases hl
    | some p =>
      obtain ⟨n, rem⟩ := p
      cases rem with
      | nil =>
        rw [hd] at hl
        simp only [] at hl
        cases hl
        have hsound := decNode_sound _ _ _ _ hd
        rw [List.append_nil] at hsound
        rw [serialize]
        exact hsound
      | cons r rs =>
        rw [hd] at hl
        simp only [] at hl
        cases hl

/-- The frame property claimed by C10. -/
def C10Prop (S : Nat) (t : Node) (k v k' : Nat) : Prop :=
  BTree.get (BTree.put S t k v).1 k' = BTree.get t k' ∧
  BTree.get (BTree.delete S t k).1 k' = BTree.get t k'

/-- C10: `put(k, v)` and `delete(k)` leave the binding of every other
key unchanged — `get(k')` returns the same result after the operation
as before it. -/
theorem claim_C10 {S : Nat} {t : Node} (h : WFRoot S t) (hS : 1 ≤ S)
    (k v k' : Nat) (hne : k' ≠ k) : C10Prop S t k v k' := by
  obtain ⟨hWp, _, hTp, _⟩ := BTree.put_spec h hS k v
  obtain ⟨hWd, _, hTd, _⟩ := BTree.delete_spec h hS k
  constructor
  · rw [BTree.get, BTree.get, WFC.lookup_eq hWp.1 k' trivial trivial,
      WFC.lookup_eq h.1 k' trivial trivial, hTp, valAt_updList_ne _ v hne]
  · rw [BTree.get, BTree.get, WFC.lookup_eq hWd.1 k' trivial trivial,
      WFC.lookup_eq h.1 k' trivial trivial, hTd, valAt_delList_ne _ hne]

theorem claim_C10_witness :
    WFRoot 1 (Node.mk true [⟨1, 10⟩, ⟨2, 20⟩] []) ∧ 1 ≤ 1 ∧ (1 ≠ 2) ∧
    C10Prop 1 (Node.mk true [⟨1, 10⟩, ⟨2, 20⟩] []) 2 7 1 :=
  ⟨wfRoot_implies (by decide), by decide, by decide,
    claim_C10 (wfRoot_implies (by decide)) (by decide) 2 7 1 (by decide)⟩

/-- The four-branch behavior of `Node::rebalance` claimed by C4. -/
def C4Prop (S : Nat) (ks : List KeyVal) (ps : List Node) (i : Nat) : Prop :=
  (S ≤ (ps.getD i nilNode).keys.length →
    Node.rebalance S (.mk false ks ps) i = .mk false ks ps) ∧
  (¬ S ≤ (ps.getD i nilNode).keys.length →
    ((i + 1 < ps.length ∧ S < (ps.getD (i + 1) nilNode).keys.length) →
      Node.rebalance S (.mk false ks ps) i =
        .mk false (ks.set i ((ps.getD (i + 1) nilNode).keys.getD 0 dKV))
          ((ps.set i (.mk (ps.getD i nilNode).is_leaf
              ((ps.getD i nilNode).keys ++ [ks.getD i dKV])
              (if (ps.getD i nilNode).is_leaf then (ps.getD i nilNode).pivots
               else (ps.getD i nilNode).pivots ++
                 (ps.getD (i + 1) nilNode).pivots.take 1))).set (i + 1)
            (.mk (ps.getD (i + 1) nilNode).is_leaf
              ((ps.getD (i + 1) nilNode).keys.drop 1)
              (if (ps.getD i nilNode).is_leaf then (ps.getD (i + 1) nilNode).pivots
               else (ps.getD (i + 1) nilNode).pivots.drop 1)))) ∧
    (¬(i + 1 < ps.length ∧ S < (ps.getD (i + 1) nilNode).keys.length) →
      ((i ≠ 0 ∧ S < (ps.getD (i - 1) nilNode).keys.length) →
        Node.rebalance S (.mk false ks ps) i =
          .mk false (ks.set (i - 1) ((ps.getD (i - 1) nilNode).keys.getLastD dKV))
            ((ps.set i (.mk (ps.getD i nilNode).is_leaf
                (ks.getD (i - 1) dKV :: (ps.getD i nilNode).keys)
                (if (ps.getD i nilNode).is_leaf then (ps.getD i nilNode).pivots
                 else (ps.getD (i - 1) nilNode).pivots.getLastD nilNode ::
                   (ps.getD i nilNode).pivots))).set (i - 1)
              (.mk (ps.getD (i - 1) nilNode).is_leaf
                ((ps.getD (i - 1) nilNode).keys.dropLast)
                (if (ps.getD i nilNode).is_leaf then (ps.getD (i - 1) nilNode).pivots
                 else (ps.getD (i - 1) nilNode).pivots.dropLast)))) ∧
      (¬(i ≠ 0 ∧ S < (ps.getD (i - 1) nilNode).keys.length) →
        (i + 1 < ps.length →
          Node.rebalance S (.mk false ks ps) i =
            .mk false (ks.eraseIdx i)
              ((ps.eraseIdx (i + 1)).set i (.mk (ps.getD i nilNode).is_leaf
                ((ps.getD i nilNode).keys ++ ks.getD i dKV ::
                  (ps.getD (i + 1) nilNode).keys)
                (if (ps.getD i nilNode).is_leaf then (ps.getD i nilNode).pivots
                 else (ps.getD i nilNode).pivots ++
                   (ps.getD (i + 1) nilNode).pivots)))) ∧
        (¬ i + 1 < ps.length →
          Node.rebalance S (.mk false ks ps) i =
            .mk false (ks.eraseIdx (i - 1))
              ((ps.eraseIdx i).set (i - 1) (.mk (ps.getD (i - 1) nilNode).is_leaf
                ((ps.getD (i - 1) nilNode).keys ++ ks.getD (i - 1) dKV ::
                  (ps.getD i nilNode).keys)
                (if (ps.getD (i - 1) nilNode).is_leaf
                 then (ps.getD (i - 1) nilNode).pivots
                 else (ps.getD (i - 1) nilNode).pivots ++
                   (ps.getD i nilNode).pivots)))))))

/-- C4: `rebalance(i)` takes no action when child `i` holds at least `S`
entries; otherwise it rotates left from a right sibling holding more
than `S` entries, else rotates right from such a left sibling, else
merges child `i` with its right sibling when one exists, else merges it
into its left sibling — exactly as the four branches describe. -/
theorem claim_C4 (S : Nat) (ks : List KeyVal) (ps : List Node) (i : Nat) :
    C4Prop S ks ps i := by
  refine ⟨fun h1 => rebalance_noop h1, fun h1 => ⟨?_, fun h2 => ⟨?_, fun h3 => ⟨?_, ?_⟩⟩⟩⟩
  · intro h2
    rw [Node.rebalance]
    simp only [Node.is_leaf_mk, Node.keys_mk, Node.pivots_mk]
    rw [if_neg h1, if_pos h2]
  · intro h3
    rw [Node.rebalance]
    simp only [Node.is_leaf_mk, Node.keys_mk, Node.pivots_mk]
    rw [if_neg h1, if_neg h2, if_pos h3]
  · intro h4
    rw [Node.rebalance]
    simp only [Node.is_leaf_mk, Node.keys_mk, Node.pivots_mk]
    rw [if_neg h1, if_neg h2, if_neg h3, if_pos h4]
  · intro h4
    rw [Node.rebalance]
    simp only [Node.is_leaf_mk, Node.keys_mk, Node.pivots_mk]
    rw [if_neg h1, if_neg h2, if_neg h3, if_neg h4]

/-- The non-forced internal-hit donor behavior claimed by C2. -/
def C2Prop (S : Nat) (lo hi : Option Nat) (ks : List KeyVal) (ps : List Node)
    (k : Nat) : Prop :=
  (S < (spineLeaf false (ps.getD (rankOf ks k) nilNode)).keys.length →
    ∃ left', Node.remove_most_leftright S false false
        (ps.getD (rankOf ks k) nilNode) =
        some ((ps.getD (rankOf ks k) nilNode).toList.getLastD dKV, left') ∧
      S ≤ left'.keys.length ∧
      Node.delete S k (.mk false ks ps) =
        (.mk false (ks.set (rankOf ks k)
            ((ps.getD (rankOf ks k) nilNode).toList.getLastD dKV))
          (ps.set (rankOf ks k) left'),
          some ((ks.getD (rankOf ks k) dKV).value)) ∧
      WFC S lo hi (Node.delete S k (.mk false ks ps)).1 ∧
      minsOK S (Node.delete S k (.mk false ks ps)).1 = true ∧
      Node.rebalance S (Node.delete S k (.mk false ks ps)).1 (rankOf ks k) =
        (Node.delete S k (.mk false ks ps)).1) ∧
  ((spineLeaf false (ps.getD (rankOf ks k) nilNode)).keys.length ≤ S →
    S < (spineLeaf true (ps.getD (rankOf ks k + 1) nilNode)).keys.length →
    ∃ right', Node.remove_most_leftright S true false
        (ps.getD (rankOf ks k + 1) nilNode) =
        some ((ps.getD (rankOf ks k + 1) nilNode).toList.headD dKV, right') ∧
      S ≤ right'.keys.length ∧
      Node.delete S k (.mk false ks ps) =
        (.mk false (ks.set (rankOf ks k)
            ((ps.getD (rankOf ks k + 1) nilNode).toList.headD dKV))
          (ps.set (rankOf ks k + 1) right'),
          some ((ks.getD (rankOf ks k) dKV).value)) ∧
      WFC S lo hi (Node.delete S k (.mk false ks ps)).1 ∧
      minsOK S (Node.delete S k (.mk false ks ps)).1 = true ∧
      Node.rebalance S (Node.delete S k (.mk false ks ps)).1 (rankOf ks k + 1) =
        (Node.delete S k (.mk false ks ps)).1)

/-- C2: when `delete` hits the key at entry `i` of an internal node and
a donor entry can be taken without underflow — the maximum of the left
subtree when its spine leaf holds more than `S` entries, else the
minimum of the right subtree under the same proviso — entry `i` is
replaced by the donor entry, the old value is returned, every minimum
stays satisfied, and rebalancing the child index which received the
removal leaves the node unchanged (no underflow remains). -/
theorem claim_C2 {S : Nat} {lo hi : Option Nat} {ks : List KeyVal}
    {ps : List Node} (hW : WFC S lo hi (.mk false ks ps)) (hS : 1 ≤ S) (k : Nat)
    (hklo : loLt lo k) (hkhi : hiGt hi k) (hhk : hasKey ks k = true) :
    C2Prop S lo hi ks ps k := by
  obtain ⟨hD1, hD2, hD3, hWd, hD5, hD6, hD7⟩ := by
    have h := delete_wf hW (fun _ => by simpa using hasKey_pos hhk) hS k hklo hkhi
    rw [DeleteSpec] at h
    exact h
  cases hW with
  | node hs hb hl hp hm hh hcs =>
    obtain ⟨hrlt, hrkey⟩ := hasKey_rank hs hhk
    have hfi : find_index ks k = .ok (rankOf ks k) := by
      rw [find_index_eq hs, hhk, if_pos rfl]
    have hi1lt : rankOf ks k + 1 < ps.length := by omega
    have hWl := hcs.get (rankOf ks k) (le_of_lt hrlt)
    have hWr := hcs.get (rankOf ks k + 1) (by omega)
    have hmL : S ≤ (ps.getD (rankOf ks k) nilNode).keys.length :=
      hm _ (getD_mem nilNode (by omega))
    have hmR : S ≤ (ps.getD (rankOf ks k + 1) nilNode).keys.length :=
      hm _ (getD_mem nilNode hi1lt)
    constructor
    · intro hspl
      obtain ⟨kv, left', hrm, hWl', hH', hLf', hTl', hkv, hc1, hc2, hcS⟩ :=
        (remove_nonforce_right hWl hS).2 hspl
      subst hkv
      have hdel := Node.delete_unfold_ok_left hfi hrm
      refine ⟨left', hrm, hcS hmL, hdel, hWd, WFC.mins hWd, ?_⟩
      refine rebalance_noop ?_
      rw [hdel]
      simp only [Node.pivots_mk]
      rw [getD_set_self _ _ _ _ (by omega)]
      exact hcS hmL
    · intro hle hspr
      have hnoL : Node.remove_most_leftright S false false
          (ps.getD (rankOf ks k) nilNode) = none :=
        (remove_nonforce_right hWl hS).1 hle
      obtain ⟨kv, right', hrm, hWr', hH', hLf', hTl', hkv, hc1, hc2, hcS⟩ :=
        (remove_nonforce_left hWr hS).2 hspr
      subst hkv
      have hdel := Node.delete_unfold_ok_right hfi hnoL hrm
      refine ⟨right', hrm, hcS hmR, hdel, hWd, WFC.mins hWd, ?_⟩
      refine rebalance_noop ?_
      rw [hdel]
      simp only [Node.pivots_mk]
      rw [getD_set_self _ _ _ _ (by omega)]
      exact hcS hmR

theorem claim_C2_witness :
    WFC 1 none none (Node.mk false [⟨5, 50⟩]
      [Node.mk true [⟨1, 10⟩, ⟨2, 20⟩] [], Node.mk true [⟨7, 70⟩] []]) ∧
    1 ≤ 1 ∧ loLt none 5 ∧ hiGt none 5 ∧ hasKey [⟨5, 50⟩] 5 = true ∧
    C2Prop 1 none none [⟨5, 50⟩]
      [Node.mk true [⟨1, 10⟩, ⟨2, 20⟩] [], Node.mk true [⟨7, 70⟩] []] 5 :=
  ⟨wfSub_implies _ (by decide), by decide, trivial, trivial, by decide,
    claim_C2 (wfSub_implies _ (by decide)) (by decide) 5 trivial trivial (by decide)⟩

/-- The forced-removal behavior claimed by C5. -/
def C5Prop (S : Nat) (lo hi : Option Nat) (ks : List KeyVal) (ps : List Node)
    (k : Nat) : Prop :=
  (spineLeaf false (ps.getD (rankOf ks k) nilNode)).keys.length = S ∧
  (spineLeaf true (ps.getD (rankOf ks k + 1) nilNode)).keys.length = S ∧
  (rankOf ks k % 2 = 0 →
    ∃ c', Node.remove_most_leftright S false true
        (ps.getD (rankOf ks k) nilNode) =
        some ((ps.getD (rankOf ks k) nilNode).toList.getLastD dKV, c') ∧
      Node.delete S k (.mk false ks ps) =
        (Node.rebalance S (.mk false
            (ks.set (rankOf ks k)
              ((ps.getD (rankOf ks k) nilNode).toList.getLastD dKV))
            (ps.set (rankOf ks k) (Node.rebalance_most_leftright S false c')))
          (rankOf ks k),
          some ((ks.getD (rankOf ks k) dKV).value))) ∧
  (rankOf ks k % 2 = 1 →
    ∃ c', Node.remove_most_leftright S true true
        (ps.getD (rankOf ks k + 1) nilNode) =
        some ((ps.getD (rankOf ks k + 1) nilNode).toList.headD dKV, c') ∧
      Node.delete S k (.mk false ks ps) =
        (Node.rebalance S (.mk false
            (ks.set (rankOf ks k)
              ((ps.getD (rankOf ks k + 1) nilNode).toList.headD dKV))
            (ps.set (rankOf ks k + 1) (Node.rebalance_most_leftright S true c')))
          (rankOf ks k + 1),
          some ((ks.getD (rankOf ks k) dKV).value))) ∧
  WFC S lo hi (Node.delete S k (.mk false ks ps)).1 ∧
  (∀ ks' ps', Node.rebalance_most_leftright S false (.mk true ks' ps') =
    .mk true ks' ps') ∧
  (∀ ks' ps', Node.rebalance_most_leftright S true (.mk true ks' ps') =
    .mk true ks' ps') ∧
  (∀ (ks' : List KeyVal) (ps' : List Node) (c : Node),
    ps'[ps'.length - 1]? = some c →
    Node.rebalance_most_leftright S false (.mk false ks' ps') =
      Node.rebalance S (.mk false ks'
        (ps'.set (ps'.length - 1) (Node.rebalance_most_leftright S false c)))
        (ps'.length - 1)) ∧
  (∀ (ks' : List KeyVal) (ps' : List Node) (c : Node), ps'[0]? = some c →
    Node.rebalance_most_leftright S true (.mk false ks' ps') =
      Node.rebalance S (.mk false ks'
        (ps'.set 0 (Node.rebalance_most_leftright S true c))) 0)

/-- C5: when both donor spine leaves sit exactly at the minimum `S`, the
donor side follows the parity of the entry index (even takes the left
subtree's maximum, odd the right subtree's minimum), the boundary entry
is force-removed and replaces entry `i`, `rebalance_most_leftright`
re-runs the standard rebalance step at every level of the donor path on
the way back up, a final rebalance is applied to the donor child's index
in the hit node itself, and well-formedness is restored. -/
theorem claim_C5 {S : Nat} {lo hi : Option Nat} {ks : List KeyVal}
    {ps : List Node} (hW : WFC S lo hi (.mk false ks ps)) (hS : 1 ≤ S) (k : Nat)
    (hklo : loLt lo k) (hkhi : hiGt hi k) (hhk : hasKey ks k = true)
    (hL : (spineLeaf false (ps.getD (rankOf ks k) nilNode)).keys.length ≤ S)
    (hR : (spineLeaf true (ps.getD (rankOf ks k + 1) nilNode)).keys.length ≤ S) :
    C5Prop S lo hi ks ps k := by
  obtain ⟨hD1, hD2, hD3, hWd, hD5, hD6, hD7⟩ := by
    have h := delete_wf hW (fun _ => by simpa using hasKey_pos hhk) hS k hklo hkhi
    rw [DeleteSpec] at h
    exact h
  cases hW with
  | node hs hb hl hp hm hh hcs =>
    obtain ⟨hrlt, hrkey⟩ := hasKey_rank hs hhk
    have hfi : find_index ks k = .ok (rankOf ks k) := by
      rw [find_index_eq hs, hhk, if_pos rfl]
    have hi1lt : rankOf ks k + 1 < ps.length := by omega
    have hWl := hcs.get (rankOf ks k) (le_of_lt hrlt)
    have hWr := hcs.get (rankOf ks k + 1) (by omega)
    have hmL : S ≤ (ps.getD (rankOf ks k) nilNode).keys.length :=
      hm _ (getD_mem nilNode (by omega))
    have hmR : S ≤ (ps.getD (rankOf ks k + 1) nilNode).keys.length :=
      hm _ (getD_mem nilNode hi1lt)
    have hnoL : Node.remove_most_leftright S false false
        (ps.getD (rankOf ks k) nilNode) = none :=
      (remove_nonforce_right hWl hS).1 hL
    have hnoR : Node.remove_most_leftright S true false
        (ps.getD (rankOf ks k + 1) nilNode) = none :=
      (remove_nonforce_left hWr hS).1 hR
    refine ⟨le_antisymm hL (WFC.spineLeaf_min false hWl hmL),
      le_antisymm hR (WFC.spineLeaf_min true hWr hmR), ?_, ?_, hWd,
      fun ks' ps' => Node.rml_unfold_leaf S false ks' ps',
      fun ks' ps' => Node.rml_unfold_leaf S true ks' ps',
      fun ks' ps' c hc => Node.rml_unfold_nodeR hc,
      fun ks' ps' c hc => Node.rml_unfold_nodeL hc⟩
    · intro hpar
      obtain ⟨kv, c', hrm, hWC, hCh, hCl, hCt, hkv, hc1, hc2⟩ :=
        remove_force_right hWl hS (by omega)
      subst hkv
      exact ⟨c', hrm,
        Node.delete_unfold_ok_forceL hfi (by simp [hpar]) hnoL hnoR hrm⟩
    · intro hpar
      obtain ⟨kv, c', hrm, hWC, hCh, hCl, hCt, hkv, hc1, hc2⟩ :=
        remove_force_left hWr hS (by omega)
      subst hkv
      exact ⟨c', hrm,
        Node.delete_unfold_ok_forceR hfi (by simp [hpar]) hnoL hnoR hrm⟩

theorem claim_C5_witness :
    WFC 1 none none (Node.mk false [⟨5, 50⟩]
      [Node.mk true [⟨1, 10⟩] [], Node.mk true [⟨7, 70⟩] []]) ∧
    1 ≤ 1 ∧ loLt none 5 ∧ hiGt none 5 ∧ hasKey [⟨5, 50⟩] 5 = true ∧
    (spineLeaf false ([Node.mk true [⟨1, 10⟩] [],
      Node.mk true [⟨7, 70⟩] []].getD (rankOf [⟨5, 50⟩] 5)
        nilNode)).keys.length ≤ 1 ∧
    (spineLeaf true ([Node.mk true [⟨1, 10⟩] [],
      Node.mk true [⟨7, 70⟩] []].getD (rankOf [⟨5, 50⟩] 5 + 1)
        nilNode)).keys.length ≤ 1 ∧
    C5Prop 1 none none [⟨5, 50⟩]
      [Node.mk true [⟨1, 10⟩] [], Node.mk true [⟨7, 70⟩] []] 5 :=
  ⟨wfSub_implies _ (by decide), by decide, trivial, trivial, by decide,
    by
      show (spineLeaf false (Node.mk true [⟨1, 10⟩] [])).keys.length ≤ 1
      rw [spineLeaf_leaf]
      decide,
    by
      show (spineLeaf true (Node.mk true [⟨7, 70⟩] [])).keys.length ≤ 1
      rw [spineLeaf_leaf]
      decide,
    claim_C5 (wfSub_implies _ (by decide)) (by decide) 5 trivial trivial
      (by decide)
      (by
        show (spineLeaf false (Node.mk true [⟨1, 10⟩] [])).keys.length ≤ 1
        rw [spineLeaf_leaf]
        decide)
      (by
        show (spineLeaf true (Node.mk true [⟨7, 70⟩] [])).keys.length ≤ 1
        rw [spineLeaf_leaf]
        decide)⟩

end BT
